import Mathlib

/-!
# tokenLists generators: key derivation, token validation and the version diff

A shallow embedding of `src/generators/utils.go` (`getKey`, `SetToken`,
`saveTokenListInJsonFile`) together with the library functions these call
(`strconv.FormatUint`, `strings.Repeat`, `common.HexToAddress`,
`common.Address.Hex` with its Keccak-256 checksum).

Go strings are byte sequences: they are embedded as lists of byte values, so
that `==` is list equality and `<` is the lexicographic byte order.
-/

namespace TokenLists

/-! ## Strings -/

/-- Go `string`: an immutable sequence of bytes. -/
abbrev GoString := List Nat

/-- Bytes of an ASCII string literal of the source. -/
def str (s : String) : GoString := s.data.map Char.toNat

/-! ## Keccak-256 (`sha3.NewLegacyKeccak256`), used by `Address.Hex` -/

/-- Rotate a 64-bit word left by `r` bits. -/
def rotl64 (w r : Nat) : Nat := ((w <<< r) % 2 ^ 64) ||| (w >>> (64 - r))

/-- One step of the linear feedback shift register of the Keccak specification:
multiplication by `x` modulo `x^8 + x^6 + x^5 + x^4 + 1`. -/
def lfsrStep (r : Nat) : Nat :=
  if (r <<< 1) &&& 0x100 = 0 then r <<< 1 else (r <<< 1) ^^^ 0x171

/-- The bits `rc[0], .., rc[167]` of the specification. -/
def rcBits : List Nat := (List.iterate lfsrStep 1 168).map (fun r => r &&& 1)

/-- Round constant of round `i`: bit `2^j - 1` is `rc[j + 7 * i]`, for `j < 7`. -/
def roundConstant (i : Nat) : Nat :=
  (List.range 7).foldl (fun acc j => acc ||| (rcBits.getD (j + 7 * i) 0 <<< (2 ^ j - 1))) 0

/-- Round constants of the 24 rounds of Keccak-f[1600]. -/
def keccakRoundConstants : List Nat := (List.range 24).map roundConstant

/-- Rotation offsets of the rho step: row `x` holds the offsets of the lanes `(x, 0)`,
.., `(x, 4)`. -/
def keccakRotations : List (List Nat) :=
  [[0, 36, 3, 41, 18],
   [1, 44, 10, 45, 2],
   [62, 6, 43, 15, 61],
   [28, 55, 25, 21, 56],
   [27, 20, 39, 8, 14]]

/-- Rotation offset of lane `(x, y)`. -/
def rotationOffset (x y : Nat) : Nat := (keccakRotations.getD x []).getD y 0

/-- Lane `(x, y)` of a state held as one 1600-bit number (lane `x + 5 * y` at bit
`64 * (x + 5 * y)`). -/
def lane (s : Nat) (x y : Nat) : Nat := (s >>> (64 * (x % 5 + 5 * (y % 5)))) % 2 ^ 64

/-- State whose lane number `i` is `f i`, for `i < 25`. -/
def packLanes (f : Nat → Nat) : Nat :=
  (List.range 25).foldl (fun acc i => acc ||| (f i <<< (64 * i))) 0

/-- Theta step. -/
def keccakTheta (s : Nat) : Nat :=
  let c := packLanes (fun x =>
    if x < 5 then lane s x 0 ^^^ lane s x 1 ^^^ lane s x 2 ^^^ lane s x 3 ^^^ lane s x 4 else 0)
  let d := packLanes (fun x =>
    if x < 5 then lane c (x + 4) 0 ^^^ rotl64 (lane c (x + 1) 0) 1 else 0)
  packLanes (fun i => lane s (i % 5) (i / 5) ^^^ lane d (i % 5) 0)

/-- Rho and pi steps: lane `(X, Y)` of the result is lane `(x, X)` of the input
rotated, with `x = (X + 3 * Y) % 5`. -/
def keccakRhoPi (s : Nat) : Nat :=
  packLanes (fun i =>
    let x := (i % 5 + 3 * (i / 5)) % 5
    rotl64 (lane s x (i % 5)) (rotationOffset x (i % 5)))

/-- Chi step. -/
def keccakChi (s : Nat) : Nat :=
  packLanes (fun i =>
    lane s (i % 5) (i / 5) ^^^
      (((2 ^ 64 - 1) ^^^ lane s (i % 5 + 1) (i / 5)) &&& lane s (i % 5 + 2) (i / 5)))

/-- One round; the iota step adds the round constant to lane `(0, 0)`. -/
def keccakRound (s rc : Nat) : Nat := keccakChi (keccakRhoPi (keccakTheta s)) ^^^ rc

/-- The permutation Keccak-f[1600]: 24 rounds. -/
def keccakF (s : Nat) : Nat := keccakRoundConstants.foldl keccakRound s

/-- Little-endian value of a byte block. -/
def leBytesToNat (bs : List Nat) : Nat := bs.foldr (fun b acc => b + 256 * acc) 0

/-- Legacy Keccak padding `0x01 0x00 .. 0x00 0x80` to a multiple of the rate (136 bytes). -/
def pad101 (msg : List Nat) : List Nat :=
  if msg.length % 136 = 135 then msg ++ [0x81]
  else msg ++ [0x01] ++ List.replicate (134 - msg.length % 136) 0 ++ [0x80]

/-- Absorb the padded message block by block; the fuel bounds the number of blocks. -/
def absorb : Nat → Nat → List Nat → Nat
  | 0, s, _ => s
  | fuel + 1, s, msg =>
    if msg = [] then s
    else absorb fuel (keccakF (s ^^^ leBytesToNat (msg.take 136))) (msg.drop 136)

/-- Keccak-256 digest (32 bytes) of a byte string. -/
def Keccak256 (msg : List Nat) : List Nat :=
  let s := absorb (msg.length + 1) 0 (pad101 msg)
  (List.range 32).map (fun j => (s >>> (8 * j)) % 256)

/-! ## `common.Address` of go-ethereum -/

/-- The type `common.Address`: `[20]byte`. -/
structure Address where
  bytes : List (Fin 256)
  size : bytes.length = 20
deriving DecidableEq

/-- The address read as a 160-bit big-endian number. -/
def Address.toNat (a : Address) : Nat := a.bytes.foldl (fun acc b => acc * 256 + b.val) 0

/-- Lower-case hexadecimal digit of a nibble (`hextable` of `encoding/hex`). -/
def hexDigit (n : Nat) : Nat := if n < 10 then 48 + n else 87 + n

/-- Unexported `Address.hex`: `0x` followed by the 40 lower-case hex digits. -/
def Address.hex (a : Address) : GoString :=
  str "0x" ++ a.bytes.flatMap (fun b => [hexDigit (b.val / 16), hexDigit (b.val % 16)])

/-- The loop of `Address.checksumHex`: `i` is the index in `buf` of the head of
the remaining digits; a letter is upper-cased when its hash nibble exceeds 7. -/
def checksumLoop (hash : List Nat) : Nat → GoString → GoString
  | _, [] => []
  | i, c :: rest =>
    let hashByte := hash.getD ((i - 2) / 2) 0
    let hashByte := if i % 2 = 0 then hashByte >>> 4 else hashByte &&& 0xf
    (if c > 57 ∧ hashByte > 7 then c - 32 else c) :: checksumLoop hash (i + 1) rest

/-- The method `Address.Hex`: the EIP-55 mixed-case checksummed hex string. -/
def Address.Hex (a : Address) : GoString :=
  let buf := a.hex
  buf.take 2 ++ checksumLoop (Keccak256 (buf.drop 2)) 2 (buf.drop 2)

/-- Go `has0xPrefix`. -/
def has0xPrefix (s : GoString) : Bool :=
  decide (s.length ≥ 2) && s.getD 0 0 == 48 && (s.getD 1 0 == 120 || s.getD 1 0 == 88)

/-- Value of a hex digit (`reverseHexTable` of `encoding/hex`), `none` for any other byte. -/
def fromHexChar (c : Nat) : Option (Fin 16) :=
  if h : 48 ≤ c ∧ c ≤ 57 then some ⟨c - 48, by omega⟩
  else if h : 97 ≤ c ∧ c ≤ 102 then some ⟨c - 87, by omega⟩
  else if h : 65 ≤ c ∧ c ≤ 70 then some ⟨c - 55, by omega⟩
  else none

/-- Go `Hex2Bytes`: `hex.DecodeString` with its error dropped, that is the bytes
decoded before the first invalid digit (a trailing single digit is dropped). -/
def Hex2Bytes : GoString → List (Fin 256)
  | p :: q :: rest =>
    match fromHexChar p, fromHexChar q with
    | some a, some b => ⟨a.val * 16 + b.val, by omega⟩ :: Hex2Bytes rest
    | _, _ => []
  | _ => []

/-- Go `FromHex`: strip an optional `0x`, left-pad an odd-length string with `0`, decode. -/
def FromHex (s : GoString) : List (Fin 256) :=
  let s := if has0xPrefix s then s.drop 2 else s
  let s := if s.length % 2 = 1 then str "0" ++ s else s
  Hex2Bytes s

/-- The crop of `Address.SetBytes`: a slice longer than 20 bytes keeps its last 20. -/
def cropLeft (b : List (Fin 256)) : List (Fin 256) :=
  if b.length > 20 then b.drop (b.length - 20) else b

/-- Go `BytesToAddress` (`SetBytes`): the cropped bytes, right-aligned in a zero array. -/
def BytesToAddress (b : List (Fin 256)) : Address :=
  ⟨List.replicate (20 - (cropLeft b).length) 0 ++ cropLeft b, by
    have hb : (cropLeft b).length ≤ 20 := by
      unfold cropLeft
      split
      · rw [List.length_drop]; omega
      · omega
    rw [List.length_append, List.length_replicate]; omega⟩

/-- Go `common.HexToAddress`. -/
def HexToAddress (s : GoString) : Address := BytesToAddress (FromHex s)

/-! ## `strconv` and `strings` -/

/-- Digit loop of `strconv.FormatUint(n, 10)`: the last digit is peeled off until the
value is below 10; the fuel bounds the number of digits. -/
def formatDigits : Nat → Nat → GoString → GoString
  | 0, _, acc => acc
  | fuel + 1, n, acc =>
    if n < 10 then (48 + n) :: acc else formatDigits fuel (n / 10) ((48 + n % 10) :: acc)

/-- Go `strconv.FormatUint(n, 10)`; `n + 1` digits of fuel are always enough. -/
def FormatUint (n : Nat) : GoString := formatDigits (n + 1) n []

/-- Go `strings.Repeat`: panics (here `none`) on a negative count. -/
def Repeat (s : GoString) (count : Int) : Option GoString :=
  if count < 0 then none else some (List.replicate count.toNat s).flatten

/-! ## `getKey` -/

/-- The function `getKey` of utils.go; `none` stands for the panic of `strings.Repeat`. -/
def getKey (chainID : Nat) (address : Address) : Option GoString :=
  let chainIDStr := FormatUint chainID
  match Repeat (str "0") (18 - (chainIDStr.length : Int)) with
  | none => none
  | some zeros =>
    let chainIDStr := zeros ++ chainIDStr
    some (chainIDStr ++ str "_" ++ address.Hex)

/-! ## Token records and `SetToken` -/

/-- The record `TokenListToken`. -/
structure TokenListToken where
  Address : GoString
  Name : GoString
  Symbol : GoString
  LogoURI : GoString
  ChainID : Nat
  Decimals : Int
  Occurrence : Int
deriving DecidableEq

deriving instance DecidableEq for Except

/-- The helpers of package `helpers` that utils.go calls and whose code is not among the
sources; they are parameters of the embedding. -/
structure Helpers where
  IsChainIDSupported : Nat → Bool
  IsIgnoredToken : Nat → Address → Bool
  UseIcon : Nat → GoString → Address → GoString → GoString

/-- The zero value `TokenListToken{}`. -/
def TokenListToken.zero : TokenListToken := ⟨[], [], [], [], 0, 0, 0⟩

/-- The function `SetToken` of utils.go. -/
def SetToken (h : Helpers) (address : Address) (name symbol logoURI : GoString)
    (chainID : Nat) (decimals : Int) : Except GoString TokenListToken :=
  if name = [] then .error (str "token name is empty")
  else if symbol = [] then .error (str "token symbol is empty")
  else if decimals = 0 then .error (str "token decimals is 0")
  else if h.IsIgnoredToken chainID address then .error (str "token is ignored")
  else if chainID = 0 ∨ !h.IsChainIDSupported chainID then .error (str "chainID is ignored")
  else
    let bridged : Bool :=
      address.Hex = (HexToAddress (str "0x2791bca1f2de4661ed88a30c99a7a9449aa84174")).Hex
        ∧ chainID = 137
    let name := if bridged then str "Bridged USD Coin (PoS)" else name
    let symbol := if bridged then str "USDC.e" else symbol
    .ok { Address := address.Hex
          Name := name
          Symbol := symbol
          LogoURI := h.UseIcon chainID (name ++ str " - " ++ symbol) address logoURI
          ChainID := chainID
          Decimals := decimals
          Occurrence := 0 }

/-! ## Datasets -/

/-- A Go `map[string]TokenListToken`: finitely many entries with pairwise distinct keys.
The order of `entries` carries no meaning; iteration order is given by `GoRuntime`. -/
structure TokenMap where
  entries : List (GoString × TokenListToken)
  nodup : (entries.map Prod.fst).Nodup
deriving DecidableEq

/-- The empty map, `make(map[string]TokenListToken)`. -/
def TokenMap.empty : TokenMap := ⟨[], List.nodup_nil⟩

/-- Map read `m[k]` with its presence flag. -/
def TokenMap.lookup (m : TokenMap) (k : GoString) : Option TokenListToken :=
  (m.entries.find? (fun e => e.1 = k)).map Prod.snd

/-- Presence of a key, the `ok` of `_, ok := m[k]`. -/
def TokenMap.contains (m : TokenMap) (k : GoString) : Bool := (m.lookup k).isSome

/-- Go `delete(m, k)`. -/
def TokenMap.delete (m : TokenMap) (k : GoString) : TokenMap :=
  ⟨m.entries.filter (fun e => e.1 ≠ k),
    m.nodup.sublist ((List.filter_sublist m.entries).map Prod.fst)⟩

/-- Map write `m[k] = v`. -/
def TokenMap.store (m : TokenMap) (k : GoString) (v : TokenListToken) : TokenMap :=
  ⟨(k, v) :: (m.delete k).entries, by
    rw [List.map_cons, List.nodup_cons]
    refine ⟨?_, (m.delete k).nodup⟩
    simp [TokenMap.delete, List.mem_filter]⟩

/-- Go `len(m)`. -/
def TokenMap.len (m : TokenMap) : Nat := m.entries.length

/-- The version triple of a dataset. The fields are Go `int`s, 64-bit two's complement
values on which `++` wraps (`wrapInt64`). -/
structure Version where
  Major : Int
  Minor : Int
  Patch : Int
deriving DecidableEq

/-- The value of a Go `int` expression on a 64-bit platform: the mathematical result
reduced into the range from `-2 ^ 63` to `2 ^ 63 - 1`. -/
def wrapInt64 (x : Int) : Int := (x + 2 ^ 63) % 2 ^ 64 - 2 ^ 63

/-- Modelled from the spec: the declaration of `TokenListData` is not among the sources;
the fields are those of the Dataset of the data model, with the two transient maps. -/
structure TokenListData where
  Name : GoString
  Description : GoString
  LogoURI : GoString
  Keywords : List GoString
  Version : Version
  Timestamp : GoString
  Tokens : List TokenListToken
  PreviousTokensMap : TokenMap
  NextTokensMap : TokenMap

/-- A Go `map[uint64][]TokenListToken` as an association list with distinct keys. -/
abbrev ShardMap := List (Nat × List TokenListToken)

/-- What the Go runtime and the operating system decide: the iteration order of each
`range` over a map (any permutation of the entries), the clock, and the outcome of the
file-system calls (`none` is success, `some e` the error). -/
structure GoRuntime where
  rangePrevious : TokenMap → List (GoString × TokenListToken)
  rangePrevious_perm : ∀ m, (rangePrevious m).Perm m.entries
  rangeNext : TokenMap → List (GoString × TokenListToken)
  rangeNext_perm : ∀ m, (rangeNext m).Perm m.entries
  rangeShards : ShardMap → ShardMap
  rangeShards_perm : ∀ m, (rangeShards m).Perm m
  now : GoString
  basePath : GoString
  WriteFile : GoString → TokenListData → Option GoString
  CreateFile : GoString → Option GoString

/-- The type `JSONSaveTokensMethods` is a string type. -/
abbrev JSONSaveTokensMethods := GoString

/-- The constant `Standard`. -/
def Standard : JSONSaveTokensMethods := str "Standard"

/-- The constant `Append`. -/
def Append : JSONSaveTokensMethods := str "Append"

/-! ## `saveTokenListInJsonFile` -/

/-- Lines 62-70: drop a candidate whose `Address + FormatUint(ChainID)` was already seen. -/
def dedupeTokens : List TokenListToken → List GoString → List TokenListToken
  | [], _ => []
  | token :: rest, addresses =>
    let key := token.Address ++ FormatUint token.ChainID
    if key ∈ addresses then dedupeTokens rest addresses
    else token :: dedupeTokens rest (key :: addresses)

/-- Lines 80-99: the `Append` loop over the previous map, writing into the next map.
The result is `none` when `getKey` panics. -/
def appendPrevious (h : Helpers) :
    List (GoString × TokenListToken) → TokenMap → Option TokenMap
  | [], next => some next
  | (_, token) :: rest, next =>
    if !h.IsChainIDSupported token.ChainID then appendPrevious h rest next
    else if (token.Name = [] ∨ token.Symbol = [] ∨ token.Decimals = 0)
        ∨ h.IsIgnoredToken token.ChainID (HexToAddress token.Address) then
      appendPrevious h rest next
    else
      match SetToken h (HexToAddress token.Address) token.Name token.Symbol token.LogoURI
          token.ChainID token.Decimals with
      | .error _ => appendPrevious h rest next
      | .ok newToken =>
        match getKey token.ChainID (HexToAddress token.Address) with
        | none => none
        | some key => appendPrevious h rest (next.store key newToken)

/-- Lines 102-119: validate every candidate and write it into the next map. -/
def addCandidates (h : Helpers) : List TokenListToken → TokenMap → Option TokenMap
  | [], next => some next
  | token :: rest, next =>
    if !h.IsChainIDSupported token.ChainID then addCandidates h rest next
    else
      match SetToken h (HexToAddress token.Address) token.Name token.Symbol token.LogoURI
          token.ChainID token.Decimals with
      | .error _ => addCandidates h rest next
      | .ok newToken =>
        match getKey token.ChainID (HexToAddress token.Address) with
        | none => none
        | some key => addCandidates h rest (next.store key newToken)

/-- Lines 62-119: the validated next map with which the diff starts. -/
def buildNextTokensMap (rt : GoRuntime) (h : Helpers) (tokenList : TokenListData)
    (tokensMaybeDuplicates : List TokenListToken) (method : JSONSaveTokensMethods) :
    Option TokenMap :=
  let tokens := dedupeTokens tokensMaybeDuplicates []
  let next :=
    if method = Append then
      appendPrevious h (rt.rangePrevious tokenList.PreviousTokensMap) tokenList.NextTokensMap
    else some tokenList.NextTokensMap
  match next with
  | none => none
  | some next => addCandidates h tokens next

/-- The variables of the diff loop. -/
structure DiffState where
  previous : TokenMap
  shouldBumpMinor : Bool
  shouldBumpPatch : Bool
  Tokens : List TokenListToken

/-- Lines 137-146: the loop over the next map; the key is recomputed from the record, the
record is appended to `Tokens` and its key deleted from the previous map. -/
def diffLoop : List (GoString × TokenListToken) → DiffState → Option DiffState
  | [], st => some st
  | (_, token) :: rest, st =>
    match getKey token.ChainID (HexToAddress token.Address) with
    | none => none
    | some key =>
      let st :=
        match st.previous.lookup key with
        | none => { st with shouldBumpMinor := true }
        | some prev => if token ≠ prev then { st with shouldBumpPatch := true } else st
      diffLoop rest { st with Tokens := st.Tokens ++ [token], previous := st.previous.delete key }

/-- Lines 158-167: the bump, by priority major, minor, patch. -/
def bumpVersion (v : Version) (shouldBumpMajor shouldBumpMinor shouldBumpPatch : Bool) :
    Version :=
  if shouldBumpMajor then ⟨wrapInt64 (v.Major + 1), 0, 0⟩
  else if shouldBumpMinor then ⟨v.Major, wrapInt64 (v.Minor + 1), 0⟩
  else if shouldBumpPatch then ⟨v.Major, v.Minor, wrapInt64 (v.Patch + 1)⟩
  else v

/-- The digit loop of `strconv.ParseUint(s, 10, 64)`, its error dropped: 0 on an invalid
byte, the maximal value as soon as the number leaves the 64-bit range. -/
def parseUintLoop : GoString → Nat → Nat
  | [], n => n
  | c :: rest, n =>
    if 48 ≤ c ∧ c ≤ 57 then
      if n ≥ (2 ^ 64 - 1) / 10 + 1 then 2 ^ 64 - 1
      else if n * 10 + (c - 48) > 2 ^ 64 - 1 then 2 ^ 64 - 1
      else parseUintLoop rest (n * 10 + (c - 48))
    else 0

/-- Go `strconv.ParseUint(s, 10, 64)` with the error dropped. -/
def ParseUint (s : GoString) : Nat := if s = [] then 0 else parseUintLoop s 0

/-- The exclusion test of lines 84 and 186. -/
def isExcluded (h : Helpers) (token : TokenListToken) : Bool :=
  (token.Name = [] ∨ token.Symbol = [] ∨ token.Decimals = 0)
    ∨ h.IsIgnoredToken token.ChainID (HexToAddress token.Address)

/-- Make sure a chain has a shard (lines 181-183). -/
def ShardMap.ensure (m : ShardMap) (chainID : Nat) : ShardMap :=
  if m.any (fun e => e.1 = chainID) then m else m ++ [(chainID, [])]

/-- Append a record to the shard of a chain (line 190). -/
def ShardMap.push (m : ShardMap) (chainID : Nat) (token : TokenListToken) : ShardMap :=
  m.map (fun e => if e.1 = chainID then (e.1, e.2 ++ [token]) else e)

/-- Lines 179-191: the loop over the sorted keys, `i` being the index of the head key. -/
def sortedLoop (h : Helpers) (next : TokenMap) :
    List GoString → Nat → List TokenListToken → ShardMap → List TokenListToken × ShardMap
  | [], _, Tokens, shards => (Tokens, shards)
  | k :: rest, i, Tokens, shards =>
    let chainID := ParseUint (k.takeWhile (fun c => c ≠ 95))
    let shards := shards.ensure chainID
    let token := (next.lookup k).getD TokenListToken.zero
    if isExcluded h token then sortedLoop h next rest (i + 1) Tokens shards
    else sortedLoop h next rest (i + 1) (Tokens.set i token) (shards.push chainID token)

/-- Go `sort.Strings` on the keys of a map. -/
def sortStrings (keys : List GoString) : List GoString :=
  keys.insertionSort (fun a b => a ≤ b)

/-- What a call leaves behind: the returned error (`none` is `nil`), the local copy of the
dataset at the return, and the files written, in order, each with the dataset marshalled
into it. -/
structure SaveResult where
  err : Option GoString
  tokenList : TokenListData
  files : List (GoString × TokenListData)

/-- Lines 205-226: one file per supported chain, stopping at the first error. -/
def writeShards (rt : GoRuntime) (h : Helpers) (filePath : GoString) :
    ShardMap → TokenListData → List (GoString × TokenListData) → SaveResult
  | [], tokenList, files => ⟨none, tokenList, files⟩
  | (chainID, tokens) :: rest, tokenList, files =>
    if !h.IsChainIDSupported chainID then writeShards rt h filePath rest tokenList files
    else
      let chainIDStr := FormatUint chainID
      let tokenList := { tokenList with Tokens := tokens }
      match rt.CreateFile (rt.basePath ++ str "/lists/" ++ chainIDStr) with
      | some err => ⟨some err, tokenList, files⟩
      | none =>
        let path := rt.basePath ++ str "/lists/" ++ chainIDStr ++ str "/" ++ filePath
        match rt.WriteFile path tokenList with
        | some err => ⟨some err, tokenList, files⟩
        | none => writeShards rt h filePath rest tokenList (files ++ [(path, tokenList)])

/-- The function `saveTokenListInJsonFile` of utils.go; `none` stands for a panic.
`json.MarshalIndent` cannot fail on this data and is not modelled. -/
def saveTokenListInJsonFile (rt : GoRuntime) (h : Helpers) (tokenList : TokenListData)
    (tokensMaybeDuplicates : List TokenListToken) (filePath : GoString)
    (method : JSONSaveTokensMethods) : Option SaveResult :=
  match buildNextTokensMap rt h tokenList tokensMaybeDuplicates method with
  | none => none
  | some next =>
    let tokenList := { tokenList with NextTokensMap := next }
    if next.len = 0 then some ⟨some (str "token list is empty"), tokenList, []⟩
    else
      let tokenList := { tokenList with Timestamp := rt.now, Tokens := [] }
      match diffLoop (rt.rangeNext next) ⟨tokenList.PreviousTokensMap, false, false, []⟩ with
      | none => none
      | some st =>
        let tokenList := { tokenList with Tokens := st.Tokens, PreviousTokensMap := st.previous }
        let shouldBumpMajor := decide (st.previous.len > 0)
        if !shouldBumpMajor && !st.shouldBumpMinor && !st.shouldBumpPatch then
          some ⟨none, tokenList, []⟩
        else
          let tokenList := { tokenList with
            Version := bumpVersion tokenList.Version shouldBumpMajor st.shouldBumpMinor
              st.shouldBumpPatch }
          let keys := sortStrings ((rt.rangeNext next).map Prod.fst)
          let (Tokens, shards) := sortedLoop h next keys 0 tokenList.Tokens []
          let tokenList := { tokenList with Tokens := Tokens }
          let path := rt.basePath ++ str "/lists/" ++ filePath
          match rt.WriteFile path tokenList with
          | some err => some ⟨some err, tokenList, []⟩
          | none => some (writeShards rt h filePath (rt.rangeShards shards) tokenList
              [(path, tokenList)])

/-! ## Auxiliary notions used in the statements -/

/-- The `k` decimal digits of `n % 10 ^ k`, most significant first, as ASCII bytes. -/
def decimalDigits : Nat → Nat → GoString
  | 0, _ => []
  | k + 1, n => decimalDigits k (n / 10) ++ [48 + n % 10]

/-- Numeric value of a string of ASCII decimal digits. -/
def decimalValue (s : GoString) : Nat := s.foldl (fun v c => 10 * v + (c - 48)) 0

/-- A map is keyed when every record sits under `getKey` of its own chain ID and address. -/
def TokenMap.Keyed (m : TokenMap) : Prop :=
  ∀ e ∈ m.entries, getKey e.2.ChainID (HexToAddress e.2.Address) = some e.1

/-- Iteration in the order of the entry list, no file-system failure. -/
def GoRuntime.listOrder : GoRuntime where
  rangePrevious := fun m => m.entries
  rangePrevious_perm := fun _ => List.Perm.refl _
  rangeNext := fun m => m.entries
  rangeNext_perm := fun _ => List.Perm.refl _
  rangeShards := fun m => m
  rangeShards_perm := fun _ => List.Perm.refl _
  now := str "01/11/2026 00:00:00"
  basePath := str "."
  WriteFile := fun _ _ => none
  CreateFile := fun _ => none

/-- Lower-case form of an upper-case hex letter, any other byte unchanged. -/
def lowerHex (c : Nat) : Nat := if 65 ≤ c ∧ c ≤ 70 then c + 32 else c

/-- The 40 lower-case hex digits of an address, `hex()` without its `0x`. -/
def Address.hexDigits (a : Address) : GoString :=
  a.bytes.flatMap (fun b => [hexDigit (b.val / 16), hexDigit (b.val % 16)])

/-- The address that `SetToken` renames on chain 137. -/
def bridgedUSDC : Address := HexToAddress (str "0x2791bca1f2de4661ed88a30c99a7a9449aa84174")

instance (m : TokenMap) : Decidable m.Keyed := by
  unfold TokenMap.Keyed; infer_instance

/-! ## Sample data for the concrete instances -/

/-- Helpers under which chains 1, 10 and 137 are supported, no token is ignored and the
icon resolver keeps the candidate URI. -/
def Helpers.sample : Helpers where
  IsChainIDSupported := fun c => c == 1 || c == 10 || c == 137
  IsIgnoredToken := fun _ _ => false
  UseIcon := fun _ _ _ logoURI => logoURI

/-- Ajna on chain 1, an extra token of `1.ethereum.go`. -/
def sampleAjna : TokenListToken :=
  ⟨str "0x9a96ec9B57Fb64FbC60B423d1f4da7691Bd35079", str "Ajna", str "AJNA", str "", 1, 18, 0⟩

/-- The key of Ajna on chain 1. -/
def sampleAjnaKey : GoString :=
  str "000000000000000001_0x9a96ec9B57Fb64FbC60B423d1f4da7691Bd35079"

/-- BTRFLY on chain 1, an extra token of `1.ethereum.go`. -/
def sampleBtrfly : TokenListToken :=
  ⟨str "0xc55126051B22eBb829D00368f4B12Bde432de5Da", str "BTRFLY", str "BTRFLY", str "", 1, 18, 0⟩

/-- The key of BTRFLY on chain 1. -/
def sampleBtrflyKey : GoString :=
  str "000000000000000001_0xc55126051B22eBb829D00368f4B12Bde432de5Da"

/-- A dataset at version 3.4.5 with the given previous and next maps. -/
def sampleDataset (previous next : TokenMap) : TokenListData :=
  ⟨str "sample", [], [], [], ⟨3, 4, 5⟩, [], [], previous, next⟩

/-! ## Definitions for the written files, the reload and the popular list -/

/-! ## `loadTokenListFromJsonFile` -/

/-- Width of the UTF-8 sequence at the head of a string as `utf8.DecodeRuneInString`
reads it, 0 when the head byte does not start a valid sequence (`RuneError` of width 1). -/
def utf8Width : GoString → Nat
  | [] => 0
  | b0 :: rest =>
    if b0 < 0x80 then 1
    else if 0xC2 ≤ b0 ∧ b0 ≤ 0xDF then
      match rest with
      | b1 :: _ => if 0x80 ≤ b1 ∧ b1 ≤ 0xBF then 2 else 0
      | _ => 0
    else if 0xE0 ≤ b0 ∧ b0 ≤ 0xEF then
      match rest with
      | b1 :: b2 :: _ =>
        if (if b0 = 0xE0 then 0xA0 else 0x80) ≤ b1 ∧ b1 ≤ (if b0 = 0xED then 0x9F else 0xBF)
            ∧ 0x80 ≤ b2 ∧ b2 ≤ 0xBF then 3 else 0
      | _ => 0
    else if 0xF0 ≤ b0 ∧ b0 ≤ 0xF4 then
      match rest with
      | b1 :: b2 :: b3 :: _ =>
        if (if b0 = 0xF0 then 0x90 else 0x80) ≤ b1 ∧ b1 ≤ (if b0 = 0xF4 then 0x8F else 0xBF)
            ∧ 0x80 ≤ b2 ∧ b2 ≤ 0xBF ∧ 0x80 ≤ b3 ∧ b3 ≤ 0xBF then 4 else 0
      | _ => 0
    else 0

/-- A string after `json.MarshalIndent` and `json.Unmarshal`: the encoder replaces every
byte that starts no valid UTF-8 sequence with U+FFFD (bytes `EF BF BD`) and its escapes are
undone by the decoder. The fuel bounds the number of sequences. -/
def coerceUTF8 : Nat → GoString → GoString
  | 0, _ => []
  | _ + 1, [] => []
  | fuel + 1, b :: rest =>
    if utf8Width (b :: rest) = 0 then [0xEF, 0xBF, 0xBD] ++ coerceUTF8 fuel rest
    else (b :: rest).take (utf8Width (b :: rest))
      ++ coerceUTF8 fuel ((b :: rest).drop (utf8Width (b :: rest)))

/-- The string read back from a JSON file into which it was marshalled. -/
def jsonString (s : GoString) : GoString := coerceUTF8 s.length s

/-- Modelled from the spec: the declaration of `TokenListToken` with its JSON tags is not
among the sources; every field of the Token Record of the data model is taken to be
persisted, so a record read back from a file differs only by the coercion of its strings. -/
def jsonToken (t : TokenListToken) : TokenListToken :=
  { t with Address := jsonString t.Address, Name := jsonString t.Name,
           Symbol := jsonString t.Symbol, LogoURI := jsonString t.LogoURI }

/-- Modelled from the spec: the dataset read back from the file into which it was
marshalled; the two transient maps are not persisted. -/
def jsonDataset (d : TokenListData) : TokenListData :=
  { d with Name := jsonString d.Name, Description := jsonString d.Description,
           LogoURI := jsonString d.LogoURI, Keywords := d.Keywords.map jsonString,
           Timestamp := jsonString d.Timestamp, Tokens := d.Tokens.map jsonToken,
           PreviousTokensMap := TokenMap.empty, NextTokensMap := TokenMap.empty }

/-- Lines 44-50: the tokens of the file become the previous map; `none` when `getKey`
panics. -/
def loadPrevious (h : Helpers) : List TokenListToken → TokenMap → Option TokenMap
  | [], previous => some previous
  | token :: rest, previous =>
    if !h.IsChainIDSupported token.ChainID then loadPrevious h rest previous
    else
      match getKey token.ChainID (HexToAddress token.Address) with
      | none => none
      | some key => loadPrevious h rest (previous.store key token)

/-- The function `loadTokenListFromJsonFile` of utils.go. The file is given by the dataset
marshalled into it, `none` for a file that is missing or does not parse; `InitTokenList`,
not among the sources, is a parameter. -/
def loadTokenListFromJsonFile (h : Helpers) (InitTokenList : TokenListData)
    (file : Option TokenListData) : Option TokenListData :=
  match file with
  | none => some InitTokenList
  | some content =>
    let tokenList := jsonDataset content
    match loadPrevious h tokenList.Tokens TokenMap.empty with
    | none => none
    | some previous =>
      some { tokenList with PreviousTokensMap := previous, NextTokensMap := TokenMap.empty }

/-! ## The chain registry -/

/-- The record `TContractData`. -/
structure TContractData where
  Address : TokenLists.Address
  Block : Nat

/-- The record `TChain`, with the fields that `1.ethereum.go` and `10.optimism.go` set. -/
structure TChain where
  ID : Nat
  RpcURI : GoString
  MaxBlockRange : Nat
  MaxBatchSize : Nat
  MulticallContract : TContractData
  Coin : TokenListToken
  IgnoredTokens : List TokenLists.Address
  ExtraTokens : List TokenLists.Address

/-- The variable `ETHEREUM` of `1.ethereum.go`. -/
def ETHEREUM : TChain where
  ID := 1
  RpcURI := str "https://eth.public-rpc.com"
  MaxBlockRange := 100000000
  MaxBatchSize := 2 ^ 63 - 1
  MulticallContract :=
    { Address := HexToAddress (str "0xca11bde05977b3631167028862be2a173976ca11"), Block := 0 }
  Coin :=
    { Address := str "0xEeeeeEeeeEeEeeEeEeEeeEEEeeeeEeeeeeeeEEeE"
      Name := str "Ethereum"
      Symbol := str "ETH"
      LogoURI := str "https://assets.smold.app/api/token/1/0xEeeeeEeeeEeEeeEeEeEeeEEEeeeeEeeeeeeeEEeE/logo-128.png"
      ChainID := 1
      Decimals := 18
      Occurrence := 0 }
  IgnoredTokens := [HexToAddress (str "0xdF5e0e81Dff6FAF3A7e52BA697820c5e32D806A8")]
  ExtraTokens :=
    [HexToAddress (str "0x9a96ec9B57Fb64FbC60B423d1f4da7691Bd35079"),
     HexToAddress (str "0xf1376bcef0f78459c0ed0ba5ddce976f1ddf51f4"),
     HexToAddress (str "0xc55126051B22eBb829D00368f4B12Bde432de5Da")]

/-- The variable `OPTIMISM` of `10.optimism.go`. -/
def OPTIMISM : TChain where
  ID := 10
  RpcURI := str "https://mainnet.optimism.io"
  MaxBlockRange := 100000000
  MaxBatchSize := 2 ^ 63 - 1
  MulticallContract :=
    { Address := HexToAddress (str "0xca11bde05977b3631167028862be2a173976ca11"), Block := 0 }
  Coin :=
    { Address := str "0xEeeeeEeeeEeEeeEeEeEeeEEEeeeeEeeeeeeeEEeE"
      Name := str "Ethereum"
      Symbol := str "ETH"
      LogoURI := str "https://assets.smold.app/api/token/10/0xEeeeeEeeeEeEeeEeEeEeeEEEeeeeEeeeeeeeEEeE/logo-128.png"
      ChainID := 1
      Decimals := 18
      Occurrence := 0 }
  IgnoredTokens := []
  ExtraTokens := []

/-- The registry of package `chains`, whose code is not among the sources: the map
`CHAINS` from chain ID to chain, listed in the order in which a `range` visits it, and the
test `IsChainIDSupported`. -/
structure Chains where
  CHAINS : List (Nat × TChain)
  IsChainIDSupported : Nat → Bool

/-! ## Association lists for the maps of `buildPopularList` -/

/-- Map read: the value under the first entry with the key. -/
def alGet {κ β : Type} [DecidableEq κ] (k : κ) : List (κ × β) → Option β
  | [] => none
  | e :: l => if e.1 = k then some e.2 else alGet k l

/-- Map write: the entry with the key is replaced, or a new entry is added. -/
def alSet {κ β : Type} [DecidableEq κ] (k : κ) (v : β) : List (κ × β) → List (κ × β)
  | [] => [(k, v)]
  | e :: l => if e.1 = k then (k, v) :: l else e :: alSet k v l

/-! ## `buildPopularList` and `loadAllTokens` -/

/-- Modelled from the spec: `helpers.SafeString`, not among the sources, returns its first
argument unless it is empty, else the second. -/
def SafeString (value fallback : GoString) : GoString := if value = [] then fallback else value

/-- Modelled from the spec: `helpers.SafeInt`, not among the sources, returns its first
argument unless it is zero, else the second. -/
def SafeInt (value fallback : Int) : Int := if value = 0 then fallback else value

/-- Modelled from the spec: `helpers.ToAddress`, not among the sources, gives the
case-normalized form of an address string, `HexToAddress(address).Hex()`. -/
def ToAddress (address : GoString) : GoString := (HexToAddress address).Hex

/-- Modelled from the spec: `helpers.Includes`, not among the sources, is membership in a
slice. -/
def Includes (list : List GoString) (value : GoString) : Bool := decide (value ∈ list)

/-- An entry of `GENERATORS` as `buildPopularList` uses it: its name, the outcome of the
test `GeneratorType == GeneratorPool`, and the tokens of the list that
`LoadTokenListFromJsonFile(name + ".json")` returns. -/
structure Generator where
  name : GoString
  isPool : Bool
  Tokens : List TokenListToken

/-- The record written when the key is already in the map (popular.go lines 63-71,
utils.go lines 265-273). -/
def mergeExisting (existingToken token : TokenListToken) : TokenListToken :=
  { Address := existingToken.Address
    Name := SafeString existingToken.Name token.Name
    Symbol := SafeString existingToken.Symbol token.Symbol
    LogoURI := SafeString existingToken.LogoURI token.LogoURI
    Decimals := SafeInt existingToken.Decimals token.Decimals
    ChainID := token.ChainID
    Occurrence := existingToken.Occurrence + 1 }

/-- The record written when the key is new (popular.go lines 80-88, utils.go lines
275-283), with its initial occurrence. -/
def mergeFresh (token : TokenListToken) (occurrence : Int) : TokenListToken :=
  { Address := ToAddress token.Address
    Name := SafeString token.Name []
    Symbol := SafeString token.Symbol []
    LogoURI := SafeString token.LogoURI []
    Decimals := SafeInt token.Decimals 18
    ChainID := token.ChainID
    Occurrence := occurrence }

/-- Lines 73-78 of popular.go: the initial occurrence, 10 when the address is among the
extra tokens of `CHAINS[token.ChainID]` (none for a chain that is not in the map). -/
def tokenInitialOccurence (ch : Chains) (token : TokenListToken) : Int :=
  (((alGet token.ChainID ch.CHAINS).map (fun c => c.ExtraTokens)).getD []).foldl
    (fun occurrence extraToken =>
      if HexToAddress token.Address = extraToken then 10 else occurrence) 1

/-- The maps `allTokens` (the two levels flattened into the key pair) and
`listsPerChain`. -/
structure PopularState where
  allTokens : List ((Nat × GoString) × TokenListToken)
  listsPerChain : List (Nat × List GoString)

/-- Lines 48-89 of popular.go: the body of the loop over the tokens of one list. -/
def mergeToken (ch : Chains) (name : GoString) (st : PopularState) (token : TokenListToken) :
    PopularState :=
  if !ch.IsChainIDSupported token.ChainID then st
  else
    let names := (alGet token.ChainID st.listsPerChain).getD []
    let names := if !Includes names name then names ++ [name] else names
    let listsPerChain := alSet token.ChainID names st.listsPerChain
    let key := (token.ChainID, ToAddress token.Address)
    match alGet key st.allTokens with
    | some existingToken =>
      { allTokens := alSet key (mergeExisting existingToken token) st.allTokens
        listsPerChain := listsPerChain }
    | none =>
      { allTokens := alSet key (mergeFresh token (tokenInitialOccurence ch token)) st.allTokens
        listsPerChain := listsPerChain }

/-- Lines 38-91 of popular.go: the body of the loop over `GENERATORS`. -/
def mergeGenerator (ch : Chains) (st : PopularState) (g : Generator) : PopularState :=
  if g.name = str "tokenlistooor" then st
  else if g.isPool then st
  else g.Tokens.foldl (mergeToken ch g.name) st

/-- Lines 36-91 of popular.go: the merge loop, over the generators in the order in which
the `range` visits them. -/
def mergeGenerators (ch : Chains) (generators : List Generator) : PopularState :=
  generators.foldl (mergeGenerator ch) ⟨[], []⟩

/-- The number of low bits that `float64(n)` cannot keep: the least `e` with
`n / 2 ^ e < 2 ^ 53`. -/
def float64Shift : Nat → Nat → Nat
  | 0, _ => 0
  | fuel + 1, n => if n < 2 ^ 53 then 0 else float64Shift fuel (n / 2) + 1

/-- The conversion `float64(n)` of a non-negative `int`: the nearest number with a 53-bit
significand, ties to the even one; it is `n` itself below `2 ^ 53`. -/
def float64OfNat (n : Nat) : Nat :=
  let e := float64Shift n n
  let q := n / 2 ^ e
  let r := n % 2 ^ e
  (if 2 * r > 2 ^ e ∨ (2 * r = 2 ^ e ∧ q % 2 = 1) then q + 1 else q) * 2 ^ e

/-- The expression `int(math.Ceil(float64(chainCount)*0.5))` of line 99: halving a float,
taking the ceiling and converting back are exact, so only `float64` rounds. -/
def quorum (chainCount : Nat) : Int := ((float64OfNat chainCount + 1) / 2 : Nat)

/-- Lines 95-101 of popular.go: the test that appends a record of `allTokens` to
`allTokensPlain`. -/
def isPopular (st : PopularState) (e : (Nat × GoString) × TokenListToken) : Bool :=
  match alGet e.1.1 st.listsPerChain with
  | none => false
  | some names => decide (e.2.Occurrence ≥ quorum names.length)

/-- Lines 26-103 of popular.go: the list `allTokensPlain`, the coin of every chain and then
the popular records, `order` being the order in which the `range` visits `allTokens`. -/
def allTokensPlain (ch : Chains) (generators : List Generator)
    (order : List ((Nat × GoString) × TokenListToken)) : List TokenListToken :=
  ch.CHAINS.map (fun c => c.2.Coin)
    ++ (order.filter (isPopular (mergeGenerators ch generators))).map Prod.snd

/-- Lines 260-285 of utils.go: the body of the loop of `loadAllTokens` over the tokens of
one list, every chain being accepted and the count starting at 1. -/
def loadAllTokensStep (allTokens : List ((Nat × GoString) × TokenListToken))
    (token : TokenListToken) : List ((Nat × GoString) × TokenListToken) :=
  let key := (token.ChainID, ToAddress token.Address)
  match alGet key allTokens with
  | some existingToken => alSet key (mergeExisting existingToken token) allTokens
  | none => alSet key (mergeFresh token 1) allTokens

/-- The function `loadAllTokens` of utils.go, its two-level map flattened. -/
def loadAllTokens (generators : List Generator) : List ((Nat × GoString) × TokenListToken) :=
  generators.foldl (fun allTokens g => g.Tokens.foldl loadAllTokensStep allTokens) []

/-- The registry made of the two chains of the sources. -/
def Chains.sample : Chains where
  CHAINS := [(1, ETHEREUM), (10, OPTIMISM)]
  IsChainIDSupported := fun c => c == 1 || c == 10

/-! ## Order on versions -/

/-- Strict lexicographic order on `(major, minor, patch)`. -/
def Version.lt (a b : Version) : Prop :=
  a.Major < b.Major ∨ (a.Major = b.Major ∧
    (a.Minor < b.Minor ∨ (a.Minor = b.Minor ∧ a.Patch < b.Patch)))

/-- Lexicographic order on `(major, minor, patch)`. -/
def Version.le (a b : Version) : Prop := a = b ∨ a.lt b

/-- Integer overflow aside: every component is a 64-bit value below the maximal one, so
that `++` on it does not wrap. -/
def Version.NoOverflow (v : Version) : Prop :=
  (-2 ^ 63 ≤ v.Major ∧ v.Major < 2 ^ 63 - 1) ∧ (-2 ^ 63 ≤ v.Minor ∧ v.Minor < 2 ^ 63 - 1) ∧
    (-2 ^ 63 ≤ v.Patch ∧ v.Patch < 2 ^ 63 - 1)

instance (v : Version) : Decidable v.NoOverflow := by
  unfold Version.NoOverflow; infer_instance

/-- Ajna with an empty name, a record that the exclusion test of line 186 rejects. -/
def sampleNameless : TokenListToken := { sampleAjna with Name := [] }

/-- The shard update of one step of the loop of lines 179-191 that does not skip. -/
def shardStep (shards : ShardMap) (p : Nat × TokenListToken) : ShardMap :=
  (shards.ensure p.1).push p.1 p.2

/-- What holds between the shards and the pairs (chain, record) already processed. -/
def Grouped (shards : ShardMap) (done : List (Nat × TokenListToken)) : Prop :=
  shards.flatMap Prod.snd = done.map Prod.snd ∧
  (shards.map Prod.fst).Pairwise (· < ·) ∧
  (∀ s ∈ shards, s.2 = (done.filter (fun p => p.1 = s.1)).map Prod.snd) ∧
  (∀ c, c ∈ shards.map Prod.fst ↔ c ∈ done.map Prod.fst)

/-- The dataset marshalled into the unified file and the shards, when the diff ended in
state `st` with a bump (lines 158-191). -/
def writtenDataset (rt : GoRuntime) (h : Helpers) (tokenList : TokenListData) (next : TokenMap)
    (st : DiffState) : TokenListData × ShardMap :=
  ({ tokenList with
      NextTokensMap := next
      Timestamp := rt.now
      PreviousTokensMap := st.previous
      Version := bumpVersion tokenList.Version (decide (st.previous.len > 0))
        st.shouldBumpMinor st.shouldBumpPatch
      Tokens := (sortedLoop h next (sortStrings ((rt.rangeNext next).map Prod.fst)) 0
        st.Tokens []).1 },
   (sortedLoop h next (sortStrings ((rt.rangeNext next).map Prod.fst)) 0 st.Tokens []).2)

/-- Ajna under chain ID 10, to be stored under the key of chain 1. -/
def sampleAjnaOn10 : TokenListToken := { sampleAjna with ChainID := 10 }

/-- A third record of chain 10 for the concrete instances. -/
def sampleOp : TokenListToken :=
  ⟨str "0x4200000000000000000000000000000000000042", str "Optimism", str "OP", str "", 10, 18, 0⟩

/-- An entry as validation writes it: under its own key, of a supported chain, and passing
the exclusion test. -/
def GoodEntry (h : Helpers) (e : GoString × TokenListToken) : Prop :=
  getKey e.2.ChainID (HexToAddress e.2.Address) = some e.1 ∧
  h.IsChainIDSupported e.2.ChainID = true ∧ isExcluded h e.2 = false

/-- Ajna with a name that is not valid UTF-8, as the byte decoding of an on-chain name can
give. -/
def sampleBadName : TokenListToken := { sampleAjna with Name := [0xFF] }

/-- The write of one candidate under its key: the map value before (if any) and the
candidate give the value after, `seed` being the initial occurrence of a new record. -/
def mergeInto (seed : TokenListToken → Int) (existing : Option TokenListToken)
    (token : TokenListToken) : Option TokenListToken :=
  match existing with
  | some existingToken => some (mergeExisting existingToken token)
  | none => some (mergeFresh token (seed token))

/-- The candidates that the merge loop of `buildPopularList` does not skip, each with the
name of its list, in processing order. -/
def mergeCandidates (ch : Chains) (generators : List Generator) :
    List (GoString × TokenListToken) :=
  ((generators.filter (fun g => !decide (g.name = str "tokenlistooor") && !g.isPool)).flatMap
    (fun g => g.Tokens.map (fun t => (g.name, t)))).filter
      (fun p => ch.IsChainIDSupported p.2.ChainID)

/-- The candidates of the merge loop that fall under one (chainID, address) key, in
processing order. -/
def sameKey (ch : Chains) (key : Nat × GoString) (generators : List Generator) :
    List TokenListToken :=
  ((mergeCandidates ch generators).map Prod.snd).filter
    (fun t => decide ((t.ChainID, ToAddress t.Address) = key))

/-- The candidates of `loadAllTokens` that fall under one (chainID, address) key, in
processing order. -/
def sameKeyAll (key : Nat × GoString) (generators : List Generator) : List TokenListToken :=
  (generators.flatMap (fun g => g.Tokens)).filter
    (fun t => decide ((t.ChainID, ToAddress t.Address) = key))

/-- The first non-empty string of a list, the empty string when there is none. -/
def firstNonEmpty : List GoString → GoString
  | [] => []
  | v :: values => if v = [] then firstNonEmpty values else v

/-- Dai on chain 1, not an extra token of `1.ethereum.go`. -/
def sampleDai : TokenListToken :=
  ⟨str "0x6B175474E89094C44Da98b954EedeAC495271d0F", str "Dai Stablecoin", str "DAI", str "", 1,
    18, 0⟩

/-- Twenty-one token lists: one holds Ajna alone, twenty hold Dai alone. -/
def sampleSources : List Generator :=
  ⟨str "ajna", false, [sampleAjna]⟩
    :: (List.range 20).map (fun i => ⟨str "list" ++ decimalDigits 2 i, false, [sampleDai]⟩)

/-- A token list that holds the same record of chain 10 twice. -/
def sampleRepeated : Generator := ⟨str "uniswap", false, [sampleOp, sampleOp]⟩

/-- A token list with Ajna and a record of chain 10. -/
def sampleUniswap : Generator := ⟨str "uniswap", false, [sampleAjna, sampleOp]⟩

/-- A token list with Ajna and Dai. -/
def sample1inch : Generator := ⟨str "1inch", false, [sampleAjna, sampleDai]⟩

/-- A token list whose record of chain 10 has no name and no decimals. -/
def sampleSparse : Generator :=
  ⟨str "sparse", false, [{ sampleOp with Name := [], Decimals := 0 }]⟩

/-- A token list whose record of chain 10 has 6 decimals. -/
def sampleSixDecimals : Generator := ⟨str "six", false, [{ sampleOp with Decimals := 6 }]⟩

/-- The function `getExistingLogo` of utils.go. -/
def getExistingLogo (h : Helpers) (chainID : Nat) (lookingFor : Address) :
    List TokenListToken → GoString
  | [] => []
  | token :: slice =>
    if !h.IsChainIDSupported token.ChainID then getExistingLogo h chainID lookingFor slice
    else if token.Address = lookingFor.Hex ∧ chainID = token.ChainID then token.LogoURI
    else getExistingLogo h chainID lookingFor slice

/-- Lines 106-112 of buildTokenList.popular.go: the loop that copies the occurrence of every
record of `allTokensPlain` into the records of `tokens`, the list that
`helpers.GetTokensFromList` (not among the sources) returned. -/
def reassignOccurrences (allTokensPlain tokens : List TokenListToken) : List TokenListToken :=
  allTokensPlain.foldl
    (fun tokens token => tokens.map (fun t =>
      if (HexToAddress token.Address).Hex = (HexToAddress t.Address).Hex
      then { t with Occurrence := token.Occurrence } else t))
    tokens

/-- The de-duplication that keeps the first candidate of every pair (address string,
chain ID), `seen` holding the pairs already met. -/
def dedupeByPair : List TokenListToken → List (GoString × Nat) → List TokenListToken
  | [], _ => []
  | token :: rest, seen =>
    if (token.Address, token.ChainID) ∈ seen then dedupeByPair rest seen
    else token :: dedupeByPair rest ((token.Address, token.ChainID) :: seen)

/-- Ajna with its address spelled in lower case and a logo. -/
def sampleLowerCase : TokenListToken :=
  { sampleAjna with
    Address := str "0x9a96ec9b57fb64fbc60b423d1f4da7691bd35079"
    LogoURI := str "https://example.org/ajna.png" }

/-- Two candidates with different address strings and chain IDs whose concatenations
`Address + FormatUint(ChainID)` are both `0xab12`. -/
def sampleColliding : List TokenListToken :=
  [⟨str "0xab", str "First", str "ONE", str "", 12, 18, 0⟩,
   ⟨str "0xab1", str "Second", str "TWO", str "", 2, 18, 0⟩]

/-- Two token lists in which one address is listed on chain 1 by one list and on chain 10
by both. -/
def sampleTwoChains : List Generator :=
  [⟨str "uniswap", false, [{ sampleOp with ChainID := 1 }, sampleOp]⟩,
   ⟨str "1inch", false, [sampleOp]⟩]

/-- What lines 106-118 do with a candidate that they do not skip: `SetToken` returns the
record `n` and it is written under the key `k`. -/
def Writes (h : Helpers) (t : TokenListToken) (k : GoString) (n : TokenListToken) : Prop :=
  SetToken h (HexToAddress t.Address) t.Name t.Symbol t.LogoURI t.ChainID t.Decimals = .ok n ∧
  getKey t.ChainID (HexToAddress t.Address) = some k

/-- The validation of a persisted record as C23 words it, with the zero chain ID that
`SetToken` also rejects. -/
def PassesValidation (h : Helpers) (t : TokenListToken) : Prop :=
  h.IsChainIDSupported t.ChainID = true ∧ t.ChainID ≠ 0 ∧ isExcluded h t = false

instance (h : Helpers) (t : TokenListToken) (k : GoString) (n : TokenListToken) :
    Decidable (Writes h t k n) := by
  unfold Writes; infer_instance

instance (h : Helpers) (t : TokenListToken) : Decidable (PassesValidation h t) := by
  unfold PassesValidation; infer_instance

/-- Ajna renamed, a candidate for the key of Ajna. -/
def sampleAjnaRenamed : TokenListToken := { sampleAjna with Name := str "Ajna Protocol" }

/-- Lines 41-51 of buildTokenList.uniswap.go: the upstream tokens written into the next
map. `helpers.IsIgnoredChain` is not among the sources and is a parameter; `GetKey`, not
among the sources either, is taken to be `getKey`. -/
def addUpstream (h : Helpers) (IsIgnoredChain : Nat → Bool) :
    List TokenListToken → TokenMap → Option TokenMap
  | [], next => some next
  | token :: rest, next =>
    if IsIgnoredChain token.ChainID then addUpstream h IsIgnoredChain rest next
    else if (token.Name = [] ∨ token.Symbol = [] ∨ token.Decimals = 0)
        ∨ h.IsIgnoredToken token.ChainID (HexToAddress token.Address) then
      addUpstream h IsIgnoredChain rest next
    else
      match getKey token.ChainID (HexToAddress token.Address) with
      | none => none
      | some key => addUpstream h IsIgnoredChain rest (next.store key token)

/-- The function `buildUniswapTokenList`: `file` is the content of `uniswap.json` as for
`loadTokenListFromJsonFile`, `originalTokenList` is what `fetchUniswapTokenList`
returned. -/
def buildUniswapTokenList (rt : GoRuntime) (h : Helpers) (IsIgnoredChain : Nat → Bool)
    (InitTokenList : TokenListData) (file : Option TokenListData)
    (originalTokenList : TokenListData) : Option SaveResult :=
  match loadTokenListFromJsonFile h InitTokenList file with
  | none => none
  | some tokenList =>
    let tokenList := { tokenList with
      Name := originalTokenList.Name
      LogoURI := originalTokenList.LogoURI
      Keywords := originalTokenList.Keywords }
    match addUpstream h IsIgnoredChain originalTokenList.Tokens tokenList.NextTokensMap with
    | none => none
    | some next =>
      saveTokenListInJsonFile rt h { tokenList with NextTokensMap := next } tokenList.Tokens
        (str "uniswap.json") Standard

/-- A file at version 3.4.5 with the given tokens. -/
def sampleFile (tokens : List TokenListToken) : TokenListData :=
  ⟨str "sample", [], [], [], ⟨3, 4, 5⟩, [], tokens, TokenMap.empty, TokenMap.empty⟩

/-- The bridged USDC of chain 137 under its upstream name and symbol. -/
def sampleUsdcPos : TokenListToken :=
  ⟨str "0x2791Bca1f2de4661ED88A30C99A7a9449Aa84174", str "USD Coin (PoS)", str "USDC", str "",
    137, 6, 0⟩

/-! # Theorems -/


/-! ## The lexicographic byte order -/

theorem lt_append_of_lt_of_length_eq {A B : GoString} (x y : GoString)
    (hlen : A.length = B.length) (hlt : A < B) : A ++ x < B ++ y := by
  induction hlt with
  | nil => simp at hlen
  | cons _ ih =>
    exact List.Lex.cons (ih (by simpa using hlen))
  | rel hr => exact List.Lex.rel hr

theorem append_lt_append_iff_of_length_eq {A B : GoString} (x y : GoString)
    (hlen : A.length = B.length) : A ++ x < B ++ y ↔ A < B ∨ (A = B ∧ x < y) := by
  induction A generalizing B with
  | nil =>
    cases B with
    | nil => simp
    | cons b B => simp at hlen
  | cons a A ih =>
    cases B with
    | nil => simp at hlen
    | cons b B =>
      have hlen2 : A.length = B.length := by simpa using hlen
      constructor
      · intro h
        cases h with
        | cons h2 =>
          rcases (ih hlen2).mp h2 with h3 | ⟨h3, h4⟩
          · exact Or.inl (List.Lex.cons h3)
          · exact Or.inr ⟨by rw [h3], h4⟩
        | rel hr => exact Or.inl (List.Lex.rel hr)
      · rintro (h | ⟨h, hxy⟩)
        · exact lt_append_of_lt_of_length_eq x y hlen h
        · cases h
          exact List.Lex.cons ((ih rfl).mpr (Or.inr ⟨rfl, hxy⟩))

theorem append_lt_append_left_iff (A x y : GoString) : A ++ x < A ++ y ↔ x < y := by
  rw [append_lt_append_iff_of_length_eq x y rfl]
  simp

theorem singleton_lt_singleton_iff (a b : Nat) : ([a] : GoString) < [b] ↔ a < b := by
  constructor
  · intro h
    cases h with
    | cons h2 => cases h2
    | rel hr => exact hr
  · intro h
    exact List.Lex.rel h

/-! ## Decimal digits -/

theorem length_decimalDigits (k n : Nat) : (decimalDigits k n).length = k := by
  induction k generalizing n with
  | zero => rfl
  | succ k ih => simp [decimalDigits, ih]

theorem decimalDigits_lt_iff (k : Nat) : ∀ n m : Nat, n < 10 ^ k → m < 10 ^ k →
    (decimalDigits k n < decimalDigits k m ↔ n < m) := by
  induction k with
  | zero =>
    intro n m hn hm
    simp at hn hm
    subst hn; subst hm
    simp [decimalDigits]
  | succ k ih =>
    intro n m hn hm
    have hn2 : n / 10 < 10 ^ k := by rw [pow_succ] at hn; omega
    have hm2 : m / 10 < 10 ^ k := by rw [pow_succ] at hm; omega
    have hinj : decimalDigits k (n / 10) = decimalDigits k (m / 10) → n / 10 = m / 10 := by
      intro heq
      rcases Nat.lt_trichotomy (n / 10) (m / 10) with h | h | h
      · have := (ih _ _ hn2 hm2).mpr h
        rw [heq] at this
        exact absurd this (lt_irrefl _)
      · exact h
      · have := (ih _ _ hm2 hn2).mpr h
        rw [heq] at this
        exact absurd this (lt_irrefl _)
    simp only [decimalDigits]
    rw [append_lt_append_iff_of_length_eq _ _
      (by rw [length_decimalDigits, length_decimalDigits]), ih _ _ hn2 hm2,
      singleton_lt_singleton_iff]
    constructor
    · rintro (h | ⟨h1, h2⟩)
      · omega
      · have := hinj h1
        omega
    · intro h
      by_cases h2 : n / 10 < m / 10
      · exact Or.inl h2
      · have h3 : n / 10 = m / 10 := by omega
        exact Or.inr ⟨by rw [h3], by omega⟩

theorem decimalDigits_injective (k n m : Nat) (hn : n < 10 ^ k) (hm : m < 10 ^ k)
    (heq : decimalDigits k n = decimalDigits k m) : n = m := by
  rcases Nat.lt_trichotomy n m with h | h | h
  · have := (decimalDigits_lt_iff k n m hn hm).mpr h
    rw [heq] at this
    exact absurd this (lt_irrefl _)
  · exact h
  · have := (decimalDigits_lt_iff k m n hm hn).mpr h
    rw [heq] at this
    exact absurd this (lt_irrefl _)

theorem decimalDigits_zero_eq_replicate (j : Nat) : decimalDigits j 0 = List.replicate j 48 := by
  induction j with
  | zero => rfl
  | succ j ih => simp [decimalDigits, ih, List.replicate_succ']

theorem decimalDigits_add (d : Nat) : ∀ (n j : Nat), n < 10 ^ d →
    decimalDigits (j + d) n = List.replicate j 48 ++ decimalDigits d n := by
  induction d with
  | zero =>
    intro n j hn
    simp at hn
    subst hn
    simp [decimalDigits, decimalDigits_zero_eq_replicate]
  | succ d ih =>
    intro n j hn
    have hn2 : n / 10 < 10 ^ d := by rw [pow_succ] at hn; omega
    show decimalDigits (j + d + 1) n = _
    simp only [decimalDigits]
    rw [ih _ j hn2, List.append_assoc]

theorem decimalDigits_isDigit (k n : Nat) : ∀ c ∈ decimalDigits k n, 48 ≤ c ∧ c ≤ 57 := by
  induction k generalizing n with
  | zero => intro c hc; simp [decimalDigits] at hc
  | succ k ih =>
    intro c hc
    simp only [decimalDigits, List.mem_append, List.mem_singleton] at hc
    rcases hc with hc | hc
    · exact ih _ c hc
    · omega

theorem decimalValue_append_singleton (s : GoString) (c : Nat) :
    decimalValue (s ++ [c]) = 10 * decimalValue s + (c - 48) := by
  simp [decimalValue, List.foldl_append]

theorem decimalValue_decimalDigits (k : Nat) : ∀ n : Nat, n < 10 ^ k →
    decimalValue (decimalDigits k n) = n := by
  induction k with
  | zero => intro n hn; simp at hn; subst hn; rfl
  | succ k ih =>
    intro n hn
    have hn2 : n / 10 < 10 ^ k := by rw [pow_succ] at hn; omega
    simp only [decimalDigits]
    rw [decimalValue_append_singleton, ih _ hn2]
    omega

/-! ## `FormatUint` -/

theorem formatDigits_eq (fuel : Nat) : ∀ (n : Nat) (acc : GoString), n < 10 ^ (fuel + 1) →
    ∃ d, 1 ≤ d ∧ n < 10 ^ d ∧ (d = 1 ∨ 10 ^ (d - 1) ≤ n) ∧
      formatDigits (fuel + 1) n acc = decimalDigits d n ++ acc := by
  induction fuel with
  | zero =>
    intro n acc hn
    have h10 : n < 10 := by simpa using hn
    refine ⟨1, le_refl _, by simpa using h10, Or.inl rfl, ?_⟩
    simp only [formatDigits, if_pos h10, decimalDigits, List.nil_append, List.singleton_append]
    rw [Nat.mod_eq_of_lt h10]
  | succ fuel ih =>
    intro n acc hn
    by_cases h10 : n < 10
    · refine ⟨1, le_refl _, by simpa using h10, Or.inl rfl, ?_⟩
      simp only [formatDigits, if_pos h10, decimalDigits, List.nil_append, List.singleton_append]
      rw [Nat.mod_eq_of_lt h10]
    · have hn2 : n / 10 < 10 ^ (fuel + 1) := by rw [pow_succ] at hn; omega
      obtain ⟨d, hd1, hd2, hd3, hd4⟩ := ih (n / 10) ((48 + n % 10) :: acc) hn2
      refine ⟨d + 1, by omega, ?_, Or.inr ?_, ?_⟩
      · rw [pow_succ]; omega
      · rcases hd3 with hd3 | hd3
        · subst hd3; simp; omega
        · have : 10 ^ (d - 1) * 10 = 10 ^ d := by
            rw [← pow_succ]; congr 1; omega
          simp only [Nat.add_sub_cancel]
          omega
      · rw [formatDigits, if_neg h10, hd4]
        simp [decimalDigits]

theorem FormatUint_eq (n : Nat) :
    ∃ d, 1 ≤ d ∧ n < 10 ^ d ∧ (d = 1 ∨ 10 ^ (d - 1) ≤ n) ∧ FormatUint n = decimalDigits d n := by
  have hn : n < 10 ^ (n + 1) :=
    lt_trans (Nat.lt_pow_self (by norm_num : 1 < 10) n) (Nat.pow_lt_pow_right (by norm_num) (Nat.lt_succ_self n))
  obtain ⟨d, h1, h2, h3, h4⟩ := formatDigits_eq n n [] hn
  exact ⟨d, h1, h2, h3, by simpa [FormatUint] using h4⟩

/-! ## `getKey` in closed form -/

theorem str_zero : str "0" = [48] := rfl
theorem str_underscore : str "_" = [95] := rfl
theorem str_0x : str "0x" = [48, 120] := rfl

theorem flatten_replicate_singleton (j c : Nat) :
    (List.replicate j [c]).flatten = List.replicate j c := by
  induction j with
  | zero => rfl
  | succ j ih => simp [List.replicate_succ, ih]

theorem getKey_eq (c : Nat) (a : Address) (hc : c < 10 ^ 18) :
    getKey c a = some (decimalDigits 18 c ++ str "_" ++ a.Hex) := by
  obtain ⟨d, hd1, hd2, hd3, hd4⟩ := FormatUint_eq c
  have hd18 : d ≤ 18 := by
    rcases hd3 with hd3 | hd3
    · omega
    · by_contra hcon
      have : 10 ^ 18 ≤ 10 ^ (d - 1) := Nat.pow_le_pow_right (by norm_num) (by omega)
      omega
  have hpad : decimalDigits 18 c = List.replicate (18 - d) 48 ++ decimalDigits d c := by
    have := decimalDigits_add d c (18 - d) hd2
    rwa [Nat.sub_add_cancel hd18] at this
  have hnn : ¬ ((18 : Int) - (d : Int) < 0) := by omega
  have htn : ((18 : Int) - (d : Int)).toNat = 18 - d := by omega
  simp only [getKey, hd4, length_decimalDigits, Repeat, if_neg hnn, htn, str_zero,
    flatten_replicate_singleton, hpad]

theorem getKey_none (c : Nat) (a : Address) (hc : 10 ^ 18 ≤ c) : getKey c a = none := by
  obtain ⟨d, hd1, hd2, hd3, hd4⟩ := FormatUint_eq c
  have hd18 : 18 < d := by
    by_contra hcon
    have : 10 ^ d ≤ 10 ^ 18 := Nat.pow_le_pow_right (by norm_num) (by omega)
    omega
  have hneg : ((18 : Int) - (d : Int) < 0) := by omega
  simp only [getKey, hd4, length_decimalDigits, Repeat, if_pos hneg]

/-! ## `Address.Hex` -/

theorem Address.Hex_eq (a : Address) :
    a.Hex = str "0x" ++ checksumLoop (Keccak256 a.hexDigits) 2 a.hexDigits := by
  simp [Address.Hex, Address.hex, str_0x, Address.hexDigits]

theorem Address.hex_eq (a : Address) : a.hex = str "0x" ++ a.hexDigits := rfl

theorem hexDigit_range (n : Nat) (hn : n < 16) :
    (48 ≤ hexDigit n ∧ hexDigit n ≤ 57) ∨ (97 ≤ hexDigit n ∧ hexDigit n ≤ 102) := by
  unfold hexDigit
  split <;> omega

theorem hexDigit_lt_iff (n m : Nat) (hn : n < 16) (hm : m < 16) :
    hexDigit n < hexDigit m ↔ n < m := by
  unfold hexDigit
  split <;> split <;> omega

theorem hexDigit_inj (n m : Nat) (hn : n < 16) (hm : m < 16) (h : hexDigit n = hexDigit m) :
    n = m := by
  unfold hexDigit at h
  split at h <;> split at h <;> omega

theorem hexDigits_isHex (l : List (Fin 256)) :
    ∀ c ∈ l.flatMap (fun b => [hexDigit (b.val / 16), hexDigit (b.val % 16)]),
      (48 ≤ c ∧ c ≤ 57) ∨ (97 ≤ c ∧ c ≤ 102) := by
  intro c hc
  simp only [List.mem_flatMap, List.mem_cons, List.mem_singleton, List.not_mem_nil,
    or_false] at hc
  obtain ⟨b, _, hb | hb⟩ := hc
  · subst hb; exact hexDigit_range _ (by omega)
  · subst hb; exact hexDigit_range _ (by omega)

theorem lowerHex_ite (c : Nat) (hc : (48 ≤ c ∧ c ≤ 57) ∨ (97 ≤ c ∧ c ≤ 102))
    (p : Prop) [Decidable p] : lowerHex (if c > 57 ∧ p then c - 32 else c) = c := by
  unfold lowerHex
  by_cases h : c > 57 ∧ p
  · rw [if_pos h]; split <;> omega
  · rw [if_neg h]; split <;> omega

theorem map_lowerHex_checksumLoop (hash : List Nat) (ds : GoString) :
    ∀ i, (∀ c ∈ ds, (48 ≤ c ∧ c ≤ 57) ∨ (97 ≤ c ∧ c ≤ 102)) →
      (checksumLoop hash i ds).map lowerHex = ds := by
  induction ds with
  | nil => intro i _; rfl
  | cons c rest ih =>
    intro i hds
    have hc := hds c (List.mem_cons_self _ _)
    have hrest := ih (i + 1) (fun x hx => hds x (List.mem_cons_of_mem _ hx))
    simp only [checksumLoop, List.map_cons, hrest, List.cons.injEq, and_true]
    exact lowerHex_ite c hc _

theorem Address.hexDigits_of_Hex (a : Address) : (a.Hex.drop 2).map lowerHex = a.hexDigits := by
  rw [Address.Hex_eq, str_0x]
  simp only [List.cons_append, List.nil_append, List.drop_succ_cons, List.drop_zero]
  exact map_lowerHex_checksumLoop _ _ 2 (hexDigits_isHex a.bytes)

theorem flatMap_hex_injective (l₁ : List (Fin 256)) : ∀ l₂ : List (Fin 256),
    l₁.flatMap (fun b => [hexDigit (b.val / 16), hexDigit (b.val % 16)])
      = l₂.flatMap (fun b => [hexDigit (b.val / 16), hexDigit (b.val % 16)]) → l₁ = l₂ := by
  induction l₁ with
  | nil =>
    intro l₂ h
    cases l₂ with
    | nil => rfl
    | cons b l₂ => simp at h
  | cons a l₁ ih =>
    intro l₂ h
    cases l₂ with
    | nil => simp at h
    | cons b l₂ =>
      simp only [List.flatMap_cons, List.cons_append, List.nil_append, List.cons.injEq] at h
      obtain ⟨h1, h2, h3⟩ := h
      have e1 := hexDigit_inj _ _ (by omega) (by omega) h1
      have e2 := hexDigit_inj _ _ (by omega) (by omega) h2
      have : a = b := Fin.ext (by omega)
      rw [this, ih l₂ h3]

theorem Address.ext_bytes (a b : Address) (h : a.bytes = b.bytes) : a = b := by
  cases a; cases b; cases h; rfl

theorem Address.Hex_injective (a b : Address) (h : a.Hex = b.Hex) : a = b := by
  have h2 : a.hexDigits = b.hexDigits := by
    rw [← Address.hexDigits_of_Hex a, ← Address.hexDigits_of_Hex b, h]
  exact Address.ext_bytes a b (flatMap_hex_injective _ _ h2)

theorem Address.length_hexDigits (a : Address) : a.hexDigits.length = 40 := by
  have : ∀ l : List (Fin 256),
      (l.flatMap (fun b => [hexDigit (b.val / 16), hexDigit (b.val % 16)])).length
        = 2 * l.length := by
    intro l
    induction l with
    | nil => rfl
    | cons b l ih => simp only [List.flatMap_cons, List.length_append, ih, List.length_cons,
        List.length_nil]; omega
  rw [Address.hexDigits, this, a.size]

theorem length_FormatUint_le (c : Nat) (hc : c < 10 ^ 18) : (FormatUint c).length ≤ 18 := by
  obtain ⟨d, hd1, hd2, hd3, hd4⟩ := FormatUint_eq c
  rw [hd4, length_decimalDigits]
  rcases hd3 with hd3 | hd3
  · omega
  · by_contra hcon
    have : 10 ^ 18 ≤ 10 ^ (d - 1) := Nat.pow_le_pow_right (by norm_num) (by omega)
    omega

theorem takeWhile_digits_append (p rest : GoString) (hp : ∀ d ∈ p, 48 ≤ d ∧ d ≤ 57) :
    (p ++ str "_" ++ rest).takeWhile (fun c => c ≠ 95) = p := by
  induction p with
  | nil => simp [str_underscore]
  | cons d p ih =>
    have hd := hp d (List.mem_cons_self _ _)
    have hne : d ≠ 95 := by omega
    simp only [List.cons_append, List.takeWhile_cons, hne, ne_eq, not_false_eq_true,
      decide_True, if_true, List.cons.injEq, true_and]
    simpa using ih (fun x hx => hp x (List.mem_cons_of_mem _ hx))

/-! ## Numeric order of the lower-case form -/

theorem foldl_bytes_acc (l : List (Fin 256)) : ∀ acc : Nat,
    l.foldl (fun acc b => acc * 256 + b.val) acc
      = acc * 256 ^ l.length + l.foldl (fun acc b => acc * 256 + b.val) 0 := by
  induction l with
  | nil => intro acc; simp
  | cons b l ih =>
    intro acc
    simp only [List.foldl_cons, List.length_cons]
    rw [ih (acc * 256 + b.val), ih (0 * 256 + b.val)]
    ring

theorem foldl_bytes_lt (l : List (Fin 256)) :
    l.foldl (fun acc b => acc * 256 + b.val) 0 < 256 ^ l.length := by
  induction l with
  | nil => simp
  | cons b l ih =>
    simp only [List.foldl_cons, List.length_cons]
    rw [foldl_bytes_acc]
    have hb : b.val < 256 := b.isLt
    have : (0 * 256 + b.val) * 256 ^ l.length + 256 ^ l.length ≤ 256 ^ (l.length + 1) := by
      rw [pow_succ]
      nlinarith [Nat.zero_le (256 ^ l.length)]
    omega

theorem hexPair_lt_iff (a b : Fin 256) :
    ([hexDigit (a.val / 16), hexDigit (a.val % 16)] : GoString)
        < [hexDigit (b.val / 16), hexDigit (b.val % 16)] ↔ a.val < b.val := by
  have ha := a.isLt
  have hb := b.isLt
  have key := append_lt_append_iff_of_length_eq (A := [hexDigit (a.val / 16)])
    (B := [hexDigit (b.val / 16)]) [hexDigit (a.val % 16)] [hexDigit (b.val % 16)] rfl
  simp only [List.singleton_append] at key
  rw [key, singleton_lt_singleton_iff, singleton_lt_singleton_iff,
    hexDigit_lt_iff _ _ (by omega) (by omega), hexDigit_lt_iff _ _ (by omega) (by omega)]
  constructor
  · rintro (h | ⟨h1, h2⟩)
    · omega
    · have := hexDigit_inj _ _ (by omega) (by omega) (List.singleton_inj.mp h1)
      omega
  · intro h
    by_cases h2 : a.val / 16 < b.val / 16
    · exact Or.inl h2
    · have h3 : a.val / 16 = b.val / 16 := by omega
      exact Or.inr ⟨by rw [h3], by omega⟩

theorem hexPair_eq_iff (a b : Fin 256) :
    ([hexDigit (a.val / 16), hexDigit (a.val % 16)] : GoString)
        = [hexDigit (b.val / 16), hexDigit (b.val % 16)] ↔ a = b := by
  constructor
  · intro h
    simp only [List.cons.injEq, and_true] at h
    have e1 := hexDigit_inj _ _ (by omega) (by omega) h.1
    have e2 := hexDigit_inj _ _ (by omega) (by omega) h.2
    exact Fin.ext (by omega)
  · intro h; rw [h]

theorem flatMap_hex_lt_iff (l₁ : List (Fin 256)) : ∀ l₂ : List (Fin 256),
    l₁.length = l₂.length →
    (l₁.flatMap (fun b => [hexDigit (b.val / 16), hexDigit (b.val % 16)])
      < l₂.flatMap (fun b => [hexDigit (b.val / 16), hexDigit (b.val % 16)])
      ↔ l₁.foldl (fun acc b => acc * 256 + b.val) 0
          < l₂.foldl (fun acc b => acc * 256 + b.val) 0) := by
  induction l₁ with
  | nil =>
    intro l₂ hlen
    cases l₂ with
    | nil => simp
    | cons b l₂ => simp at hlen
  | cons a l₁ ih =>
    intro l₂ hlen
    cases l₂ with
    | nil => simp at hlen
    | cons b l₂ =>
      have hlen2 : l₁.length = l₂.length := by simpa using hlen
      simp only [List.flatMap_cons, List.foldl_cons]
      rw [foldl_bytes_acc l₁ (0 * 256 + a.val), foldl_bytes_acc l₂ (0 * 256 + b.val)]
      rw [append_lt_append_iff_of_length_eq
          (A := [hexDigit (a.val / 16), hexDigit (a.val % 16)])
          (B := [hexDigit (b.val / 16), hexDigit (b.val % 16)]) _ _ rfl,
        hexPair_lt_iff, hexPair_eq_iff, ih l₂ hlen2, hlen2]
      have h1 := foldl_bytes_lt l₁
      have h2 := foldl_bytes_lt l₂
      rw [hlen2] at h1
      generalize l₁.foldl (fun acc b => acc * 256 + b.val) 0 = v1 at *
      generalize l₂.foldl (fun acc b => acc * 256 + b.val) 0 = v2 at *
      generalize 256 ^ l₂.length = P at *
      simp only [zero_mul, zero_add]
      constructor
      · rintro (h | ⟨h, h3⟩)
        · have : (a.val + 1) * P ≤ b.val * P := Nat.mul_le_mul_right P h
          have : (a.val + 1) * P = a.val * P + P := by ring
          omega
        · rw [h]; omega
      · intro h
        by_cases hab : a.val < b.val
        · exact Or.inl hab
        · by_cases hba : b.val < a.val
          · have : (b.val + 1) * P ≤ a.val * P := Nat.mul_le_mul_right P hba
            have : (b.val + 1) * P = b.val * P + P := by ring
            omega
          · have e : a = b := Fin.ext (by omega)
            refine Or.inr ⟨e, ?_⟩
            rw [e] at h
            omega

theorem Address.hex_lt_iff (a b : Address) : a.hex < b.hex ↔ a.toNat < b.toNat := by
  rw [Address.hex, Address.hex, append_lt_append_left_iff]
  exact flatMap_hex_lt_iff a.bytes b.bytes (by rw [a.size, b.size])

/-- C7: for chain IDs `c1 < c2` of at most 18 decimal digits and any two addresses,
`getKey` returns for both and the key of `c1` is strictly below the key of `c2` in the
lexicographic byte order. -/
theorem getKey_lt_of_chainID_lt (c1 c2 : Nat) (a1 a2 : Address)
    (h12 : c1 < c2) (h2 : c2 < 10 ^ 18) :
    ∃ k1 k2, getKey c1 a1 = some k1 ∧ getKey c2 a2 = some k2 ∧ k1 < k2 := by
  have h1 : c1 < 10 ^ 18 := lt_trans h12 h2
  refine ⟨_, _, getKey_eq c1 a1 h1, getKey_eq c2 a2 h2, ?_⟩
  rw [List.append_assoc, List.append_assoc]
  exact lt_append_of_lt_of_length_eq _ _
    (by rw [length_decimalDigits, length_decimalDigits])
    ((decimalDigits_lt_iff 18 c1 c2 h1 h2).mpr h12)

/-- Witness of C7: chain 1 with address `0xAAA...` sorts before chain 10 with `0x000...`. -/
theorem getKey_lt_of_chainID_lt_witness :
    (1 : Nat) < 10 ∧ (10 : Nat) < 10 ^ 18 ∧
      ∃ k1 k2,
        getKey 1 (HexToAddress (str "0xAAAAAAAAAAAAAAAAAAAAAAAAAAAAAAAAAAAAAAAA")) = some k1 ∧
        getKey 10 (HexToAddress (str "0x0000000000000000000000000000000000000000")) = some k2 ∧
        k1 < k2 :=
  ⟨by decide, by norm_num, getKey_lt_of_chainID_lt 1 10 _ _ (by decide) (by norm_num)⟩

/-- Counterexample to C8: on chain 1 the address `0xdF5e...` is numerically below
`0xEeee...`, yet its key is above, because `d` (byte 100) follows `E` (byte 69). -/
theorem getKey_order_not_numeric :
    (HexToAddress (str "0xdF5e0e81Dff6FAF3A7e52BA697820c5e32D806A8")).toNat
        < (HexToAddress (str "0xEeeeeEeeeEeEeeEeEeEeeEEEeeeeEeeeeeeeEEeE")).toNat ∧
      getKey 1 (HexToAddress (str "0xdF5e0e81Dff6FAF3A7e52BA697820c5e32D806A8"))
        = some (str "000000000000000001_0xdF5e0e81Dff6FAF3A7e52BA697820c5e32D806A8") ∧
      getKey 1 (HexToAddress (str "0xEeeeeEeeeEeEeeEeEeEeeEEEeeeeEeeeeeeeEEeE"))
        = some (str "000000000000000001_0xEeeeeEeeeEeEeeEeEeEeeEEEeeeeEeeeeeeeEEeE") ∧
      ¬ (str "000000000000000001_0xdF5e0e81Dff6FAF3A7e52BA697820c5e32D806A8"
          < str "000000000000000001_0xEeeeeEeeeEeEeeEeEeEeeEEEeeeeEeeeeeeeEEeE") := by
  decide!

/-- C8 as amended: for a chain ID below `10 ^ 18`, `getKey` returns for both addresses and
the order of the two keys is the byte order of the checksummed strings `Hex()`; equal keys
mean equal addresses; and the numeric order of the addresses is the byte order of their
lower-case forms `hex()`. -/
theorem getKey_lt_iff_Hex_lt (c : Nat) (a1 a2 : Address) (hc : c < 10 ^ 18) :
    ∃ k1 k2, getKey c a1 = some k1 ∧ getKey c a2 = some k2 ∧
      (k1 < k2 ↔ a1.Hex < a2.Hex) ∧ (k1 = k2 ↔ a1 = a2) ∧
      (a1.hex < a2.hex ↔ a1.toNat < a2.toNat) := by
  refine ⟨_, _, getKey_eq c a1 hc, getKey_eq c a2 hc, ?_, ?_, Address.hex_lt_iff a1 a2⟩
  · exact append_lt_append_left_iff _ _ _
  · constructor
    · intro h
      exact Address.Hex_injective _ _ (List.append_cancel_left h)
    · intro h; rw [h]

/-- Witness of C8 as amended, on chain 137. -/
theorem getKey_lt_iff_Hex_lt_witness :
    (137 : Nat) < 10 ^ 18 ∧
      ∃ k1 k2,
        getKey 137 (HexToAddress (str "0xdF5e0e81Dff6FAF3A7e52BA697820c5e32D806A8")) = some k1 ∧
        getKey 137 (HexToAddress (str "0xEeeeeEeeeEeEeeEeEeEeeEEEeeeeEeeeeeeeEEeE")) = some k2 ∧
        (k1 < k2 ↔
          (HexToAddress (str "0xdF5e0e81Dff6FAF3A7e52BA697820c5e32D806A8")).Hex
            < (HexToAddress (str "0xEeeeeEeeeEeEeeEeEeEeeEEEeeeeEeeeeeeeEEeE")).Hex) ∧
        (k1 = k2 ↔
          HexToAddress (str "0xdF5e0e81Dff6FAF3A7e52BA697820c5e32D806A8")
            = HexToAddress (str "0xEeeeeEeeeEeEeeEeEeEeeEEEeeeeEeeeeeeeEEeE")) ∧
        ((HexToAddress (str "0xdF5e0e81Dff6FAF3A7e52BA697820c5e32D806A8")).hex
            < (HexToAddress (str "0xEeeeeEeeeEeEeeEeEeEeeEEEeeeeEeeeeeeeEEeE")).hex ↔
          (HexToAddress (str "0xdF5e0e81Dff6FAF3A7e52BA697820c5e32D806A8")).toNat
            < (HexToAddress (str "0xEeeeeEeeeEeEeeEeEeEeeEEEeeeeEeeeeeeeEEeE")).toNat) :=
  ⟨by norm_num, getKey_lt_iff_Hex_lt 137 _ _ (by norm_num)⟩

/-- Counterexample to C9: the chain ID `10 ^ 18` fits in 64 bits and has 19 digits, the
padding count is `-1` and `getKey` panics. -/
theorem getKey_panics_on_19_digits :
    (10 : Nat) ^ 18 < 2 ^ 64 ∧
      (18 : Int) - ((FormatUint (10 ^ 18)).length : Int) = -1 ∧
      getKey (10 ^ 18) (HexToAddress (str "0x0000000000000000000000000000000000000000"))
        = none := by
  decide!

/-- C9 as amended: for a chain ID below `10 ^ 18` the padding count is not negative and
`getKey` returns a string whose part before the `_` separator is exactly 18 decimal digits
of numeric value the chain ID; from `10 ^ 18` on `getKey` panics. -/
theorem getKey_chainID_part (c : Nat) (a : Address) :
    (c < 10 ^ 18 →
      0 ≤ (18 : Int) - ((FormatUint c).length : Int) ∧
      ∃ k p, getKey c a = some k ∧ k = p ++ str "_" ++ a.Hex ∧
        k.takeWhile (fun b => b ≠ 95) = p ∧ p.length = 18 ∧
        (∀ d ∈ p, 48 ≤ d ∧ d ≤ 57) ∧ decimalValue p = c) ∧
    (10 ^ 18 ≤ c → getKey c a = none) := by
  refine ⟨fun hc => ⟨?_, decimalDigits 18 c ++ str "_" ++ a.Hex, decimalDigits 18 c,
    getKey_eq c a hc, rfl, ?_, length_decimalDigits 18 c, decimalDigits_isDigit 18 c,
    decimalValue_decimalDigits 18 c hc⟩, getKey_none c a⟩
  · have := length_FormatUint_le c hc
    omega
  · exact takeWhile_digits_append _ _ (decimalDigits_isDigit 18 c)

/-- Witness of C9 as amended: chain 137 on the returning side, `10 ^ 18` on the other. -/
theorem getKey_chainID_part_witness :
    ((137 : Nat) < 10 ^ 18 ∧
      0 ≤ (18 : Int) - ((FormatUint 137).length : Int) ∧
      ∃ k p, getKey 137 (HexToAddress (str "0x2791bca1f2de4661ed88a30c99a7a9449aa84174")) = some k
        ∧ k = p ++ str "_" ++ (HexToAddress (str "0x2791bca1f2de4661ed88a30c99a7a9449aa84174")).Hex
        ∧ k.takeWhile (fun b => b ≠ 95) = p ∧ p.length = 18 ∧
        (∀ d ∈ p, 48 ≤ d ∧ d ≤ 57) ∧ decimalValue p = 137) ∧
    ((10 : Nat) ^ 18 ≤ 10 ^ 18 ∧
      getKey (10 ^ 18) (HexToAddress (str "0x2791bca1f2de4661ed88a30c99a7a9449aa84174")) = none) :=
  ⟨⟨by norm_num, (getKey_chainID_part 137 _).1 (by norm_num)⟩,
   ⟨le_refl _, (getKey_chainID_part (10 ^ 18) _).2 (le_refl _)⟩⟩

/-- C10: on chain IDs of at most 18 decimal digits `getKey` is injective: two keys are
equal exactly when the chain IDs are equal and the 20-byte addresses are equal, which is
the same as the chain IDs being equal and the normalized forms `Hex()` being equal. -/
theorem getKey_injective (c1 c2 : Nat) (a1 a2 : Address)
    (h1 : c1 < 10 ^ 18) (h2 : c2 < 10 ^ 18) :
    (∃ k1 k2, getKey c1 a1 = some k1 ∧ getKey c2 a2 = some k2) ∧
    (getKey c1 a1 = getKey c2 a2 ↔ c1 = c2 ∧ a1 = a2) ∧
    (getKey c1 a1 = getKey c2 a2 ↔ c1 = c2 ∧ a1.Hex = a2.Hex) := by
  have key : getKey c1 a1 = getKey c2 a2 ↔ c1 = c2 ∧ a1 = a2 := by
    rw [getKey_eq c1 a1 h1, getKey_eq c2 a2 h2]
    constructor
    · intro h
      have h3 := Option.some.inj h
      rw [List.append_assoc, List.append_assoc] at h3
      have h4 := List.append_inj h3 (by rw [length_decimalDigits, length_decimalDigits])
      exact ⟨decimalDigits_injective 18 c1 c2 h1 h2 h4.1,
        Address.Hex_injective _ _ (List.append_cancel_left h4.2)⟩
    · rintro ⟨rfl, rfl⟩; rfl
  refine ⟨⟨_, _, getKey_eq c1 a1 h1, getKey_eq c2 a2 h2⟩, key, ?_⟩
  rw [key]
  constructor
  · rintro ⟨h, rfl⟩; exact ⟨h, rfl⟩
  · rintro ⟨h, h3⟩; exact ⟨h, Address.Hex_injective _ _ h3⟩

/-- Witness of C10: the lower-case and the checksummed spelling of one address on chain 1. -/
theorem getKey_injective_witness :
    (1 : Nat) < 10 ^ 18 ∧
    (getKey 1 (HexToAddress (str "0xdf5e0e81dff6faf3a7e52ba697820c5e32d806a8"))
        = getKey 1 (HexToAddress (str "0xdF5e0e81Dff6FAF3A7e52BA697820c5e32D806A8")) ↔
      (1 : Nat) = 1 ∧ HexToAddress (str "0xdf5e0e81dff6faf3a7e52ba697820c5e32d806a8")
        = HexToAddress (str "0xdF5e0e81Dff6FAF3A7e52BA697820c5e32D806A8")) :=
  ⟨by norm_num, (getKey_injective 1 1 _ _ (by norm_num) (by norm_num)).2.1⟩

/-- C5: `SetToken` fails exactly on an empty name, an empty symbol, zero decimals, an
ignored address, or a zero or unsupported chain ID; a returned record carries the given
chain ID and decimals and `address.Hex()`, and, unless the input is the bridged USDC
address on chain 137, the given name and symbol. -/
theorem SetToken_error_iff (h : Helpers) (address : Address) (name symbol logoURI : GoString)
    (chainID : Nat) (decimals : Int) :
    ((∃ e, SetToken h address name symbol logoURI chainID decimals = .error e) ↔
      (name = [] ∨ symbol = [] ∨ decimals = 0 ∨ h.IsIgnoredToken chainID address = true
        ∨ chainID = 0 ∨ h.IsChainIDSupported chainID = false)) ∧
    (∀ t, SetToken h address name symbol logoURI chainID decimals = .ok t →
      t.ChainID = chainID ∧ t.Decimals = decimals ∧ t.Address = address.Hex ∧
      (¬ (address = HexToAddress (str "0x2791bca1f2de4661ed88a30c99a7a9449aa84174")
          ∧ chainID = 137) → t.Name = name ∧ t.Symbol = symbol)) := by
  unfold SetToken
  by_cases h1 : name = []
  · simp [h1]
  by_cases h2 : symbol = []
  · simp [h1, h2]
  by_cases h3 : decimals = 0
  · simp [h1, h2, h3]
  by_cases h4 : h.IsIgnoredToken chainID address = true
  · simp [h1, h2, h3, h4]
  by_cases h5 : chainID = 0 ∨ (!h.IsChainIDSupported chainID) = true
  · simp only [if_neg h1, if_neg h2, if_neg h3, if_neg h4, if_pos h5]
    refine ⟨⟨fun _ => ?_, fun _ => ⟨_, rfl⟩⟩, fun t ht => by cases ht⟩
    rcases h5 with h5 | h5
    · exact Or.inr (Or.inr (Or.inr (Or.inr (Or.inl h5))))
    · exact Or.inr (Or.inr (Or.inr (Or.inr (Or.inr (by simpa using h5)))))
  · simp only [if_neg h1, if_neg h2, if_neg h3, if_neg h4, if_neg h5]
    have h5a : chainID ≠ 0 := fun hc => h5 (Or.inl hc)
    have h5b : h.IsChainIDSupported chainID ≠ false := fun hc => h5 (Or.inr (by simp [hc]))
    refine ⟨⟨fun ⟨e, he⟩ => (by cases he), fun hor => ?_⟩, fun t ht => ?_⟩
    · rcases hor with hor | hor | hor | hor | hor | hor
      · exact absurd hor h1
      · exact absurd hor h2
      · exact absurd hor h3
      · exact absurd hor h4
      · exact absurd hor h5a
      · exact absurd hor h5b
    · have ht2 := Except.ok.inj ht
      subst ht2
      refine ⟨rfl, rfl, rfl, fun hnb => ?_⟩
      have hb : ¬ (address.Hex
          = (HexToAddress (str "0x2791bca1f2de4661ed88a30c99a7a9449aa84174")).Hex
            ∧ chainID = 137) :=
        fun hb => hnb ⟨Address.Hex_injective _ _ hb.1, hb.2⟩
      simp [hb]

/-- Witness of C5: a record returned for a plain token on chain 1. -/
theorem SetToken_error_iff_witness :
    SetToken Helpers.sample (HexToAddress (str "0x9a96ec9B57Fb64FbC60B423d1f4da7691Bd35079"))
        (str "Ajna") (str "AJNA") (str "") 1 18
      = .ok ⟨str "0x9a96ec9B57Fb64FbC60B423d1f4da7691Bd35079", str "Ajna", str "AJNA", str "",
          1, 18, 0⟩ ∧
    (str "Ajna" : GoString) = str "Ajna" ∧ (str "AJNA" : GoString) = str "AJNA" := by
  have hok : SetToken Helpers.sample
      (HexToAddress (str "0x9a96ec9B57Fb64FbC60B423d1f4da7691Bd35079"))
      (str "Ajna") (str "AJNA") (str "") 1 18
      = .ok ⟨str "0x9a96ec9B57Fb64FbC60B423d1f4da7691Bd35079", str "Ajna", str "AJNA", str "",
          1, 18, 0⟩ := by
    decide!
  exact ⟨hok, ((SetToken_error_iff Helpers.sample _ _ _ _ _ _).2 _ hok).2.2.2 (by decide!)⟩

/-- Counterexample to C6: for the bridged USDC address on chain 137 (supported, not
ignored) with decimals 6 and an empty input name, `SetToken` returns the error
`token name is empty`: the validation checks run before the rewrite. -/
theorem SetToken_bridged_empty_name :
    Helpers.sample.IsChainIDSupported 137 = true ∧
    Helpers.sample.IsIgnoredToken 137 bridgedUSDC = false ∧
    SetToken Helpers.sample bridgedUSDC (str "") (str "USDC") (str "") 137 6
      = .error (str "token name is empty") := by
  exact ⟨rfl, rfl, rfl⟩

/-- C6 as amended: for the bridged USDC address on chain 137 (supported, not ignored) and
non-zero decimals, `SetToken` first validates: an empty name or symbol is an error; any
non-empty name and symbol give a record named `Bridged USD Coin (PoS)` with symbol
`USDC.e`. -/
theorem SetToken_bridged (h : Helpers) (name symbol logoURI : GoString) (decimals : Int)
    (hsup : h.IsChainIDSupported 137 = true) (hign : h.IsIgnoredToken 137 bridgedUSDC = false)
    (hdec : decimals ≠ 0) :
    (name = [] → SetToken h bridgedUSDC name symbol logoURI 137 decimals
      = .error (str "token name is empty")) ∧
    (name ≠ [] → symbol = [] → SetToken h bridgedUSDC name symbol logoURI 137 decimals
      = .error (str "token symbol is empty")) ∧
    (name ≠ [] → symbol ≠ [] → SetToken h bridgedUSDC name symbol logoURI 137 decimals
      = .ok { Address := bridgedUSDC.Hex
              Name := str "Bridged USD Coin (PoS)"
              Symbol := str "USDC.e"
              LogoURI := h.UseIcon 137
                (str "Bridged USD Coin (PoS)" ++ str " - " ++ str "USDC.e") bridgedUSDC logoURI
              ChainID := 137
              Decimals := decimals
              Occurrence := 0 }) := by
  refine ⟨fun h1 => ?_, fun h1 h2 => ?_, fun h1 h2 => ?_⟩
  · simp [SetToken, h1]
  · simp [SetToken, h1, h2]
  · have hb : bridgedUSDC.Hex
        = (HexToAddress (str "0x2791bca1f2de4661ed88a30c99a7a9449aa84174")).Hex := rfl
    simp [SetToken, h1, h2, hdec, hsup, hign, hb]

/-- Witness of C6 as amended, with the upstream name and symbol of the token. -/
theorem SetToken_bridged_witness :
    (str "USD Coin (PoS)" ≠ [] → str "USDC" ≠ [] →
      SetToken Helpers.sample bridgedUSDC (str "USD Coin (PoS)") (str "USDC") (str "") 137 6
        = .ok { Address := bridgedUSDC.Hex
                Name := str "Bridged USD Coin (PoS)"
                Symbol := str "USDC.e"
                LogoURI := Helpers.sample.UseIcon 137
                  (str "Bridged USD Coin (PoS)" ++ str " - " ++ str "USDC.e") bridgedUSDC (str "")
                ChainID := 137
                Decimals := 6
                Occurrence := 0 }) ∧
    str "USD Coin (PoS)" ≠ [] ∧ str "USDC" ≠ [] :=
  ⟨(SetToken_bridged Helpers.sample (str "USD Coin (PoS)") (str "USDC") (str "") 6
      rfl rfl (by decide)).2.2, by decide, by decide⟩

/-! ## Maps -/

theorem find_entry_iff (l : List (GoString × TokenListToken)) (hnd : (l.map Prod.fst).Nodup)
    (k : GoString) (t : TokenListToken) :
    (k, t) ∈ l ↔ (l.find? (fun e => e.1 = k)).map Prod.snd = some t := by
  induction l with
  | nil => simp
  | cons e l ih =>
    obtain ⟨k0, t0⟩ := e
    rw [List.map_cons, List.nodup_cons] at hnd
    by_cases hk : k0 = k
    · subst hk
      have hnot : (k0, t) ∉ l := fun hmem => hnd.1 (List.mem_map.mpr ⟨(k0, t), hmem, rfl⟩)
      simp only [List.mem_cons, Prod.mk.injEq, true_and, hnot, or_false, List.find?_cons,
        decide_True, Option.map_some', Option.some.injEq]
      exact eq_comm
    · have hne : ¬ (k = k0) := fun h => hk h.symm
      simp only [List.mem_cons, Prod.mk.injEq, hne, false_and, false_or, List.find?_cons, hk,
        decide_False]
      exact ih hnd.2

theorem TokenMap.mem_iff_lookup (m : TokenMap) (k : GoString) (t : TokenListToken) :
    (k, t) ∈ m.entries ↔ m.lookup k = some t :=
  find_entry_iff m.entries m.nodup k t

theorem TokenMap.lookup_eq_none_iff (m : TokenMap) (k : GoString) :
    m.lookup k = none ↔ k ∉ m.entries.map Prod.fst := by
  simp only [TokenMap.lookup, Option.map_eq_none', List.find?_eq_none, List.mem_map, not_exists,
    not_and, decide_eq_true_eq]

theorem TokenMap.lookup_isSome_iff (m : TokenMap) (k : GoString) :
    m.contains k = true ↔ k ∈ m.entries.map Prod.fst := by
  rw [TokenMap.contains, ← not_iff_not, ← TokenMap.lookup_eq_none_iff]
  cases m.lookup k <;> simp

theorem find_filter_ne (l : List (GoString × TokenListToken)) (k k' : GoString) :
    (l.filter (fun e => e.1 ≠ k)).find? (fun e => e.1 = k')
      = if k' = k then none else l.find? (fun e => e.1 = k') := by
  induction l with
  | nil => simp
  | cons e l ih =>
    by_cases h1 : e.1 = k
    · have hf : (e :: l).filter (fun e => e.1 ≠ k) = l.filter (fun e => e.1 ≠ k) :=
        List.filter_cons_of_neg (by simp [h1])
      rw [hf, ih]
      by_cases h2 : k' = k
      · rw [if_pos h2, if_pos h2]
      · have h3 : ¬ (e.1 = k') := fun h => h2 (h ▸ h1)
        rw [if_neg h2, if_neg h2, List.find?_cons_of_neg _ (by simp [h3])]
    · have hf : (e :: l).filter (fun e => e.1 ≠ k) = e :: l.filter (fun e => e.1 ≠ k) :=
        List.filter_cons_of_pos (by simp [h1])
      rw [hf]
      by_cases h3 : e.1 = k'
      · have h2 : ¬ (k' = k) := fun h => h1 (h3.trans h)
        rw [if_neg h2, List.find?_cons_of_pos _ (by simp [h3]),
          List.find?_cons_of_pos _ (by simp [h3])]
      · rw [List.find?_cons_of_neg _ (by simp [h3]), ih,
          List.find?_cons_of_neg _ (by simp [h3])]

theorem TokenMap.lookup_delete (m : TokenMap) (k k' : GoString) :
    (m.delete k).lookup k' = if k' = k then none else m.lookup k' := by
  simp only [TokenMap.lookup, TokenMap.delete, find_filter_ne]
  split <;> rfl

theorem TokenMap.len_pos_iff (m : TokenMap) : m.len > 0 ↔ ∃ k, m.lookup k ≠ none := by
  constructor
  · intro hpos
    rcases hm : m.entries with _ | ⟨e, l⟩
    · simp [TokenMap.len, hm] at hpos
    · refine ⟨e.1, ?_⟩
      have : (e.1, e.2) ∈ m.entries := by rw [hm]; exact List.mem_cons_self _ _
      rw [(m.mem_iff_lookup e.1 e.2).mp this]
      simp
  · rintro ⟨k, hk⟩
    rcases hm : m.entries with _ | ⟨e, l⟩
    · exact absurd (by simp [TokenMap.lookup, hm]) hk
    · simp [TokenMap.len, hm]

/-! ## The diff loop -/

theorem diffLoop_spec (it : List (GoString × TokenListToken)) : ∀ st : DiffState,
    (∀ e ∈ it, getKey e.2.ChainID (HexToAddress e.2.Address) = some e.1) →
    (it.map Prod.fst).Nodup →
    ∃ st', diffLoop it st = some st' ∧
      (st'.shouldBumpMinor = true ↔
        st.shouldBumpMinor = true ∨ ∃ e ∈ it, st.previous.lookup e.1 = none) ∧
      (st'.shouldBumpPatch = true ↔
        st.shouldBumpPatch = true ∨
          ∃ e ∈ it, ∃ p, st.previous.lookup e.1 = some p ∧ e.2 ≠ p) ∧
      (∀ k, st'.previous.lookup k
        = if k ∈ it.map Prod.fst then none else st.previous.lookup k) ∧
      st'.Tokens = st.Tokens ++ it.map Prod.snd := by
  induction it with
  | nil =>
    intro st _ _
    exact ⟨st, rfl, by simp, by simp, by simp, by simp⟩
  | cons e rest ih =>
    intro st hkey hnd
    obtain ⟨k, t⟩ := e
    have hk : getKey t.ChainID (HexToAddress t.Address) = some k :=
      hkey (k, t) (List.mem_cons_self _ _)
    have hkey2 : ∀ e ∈ rest, getKey e.2.ChainID (HexToAddress e.2.Address) = some e.1 :=
      fun e he => hkey e (List.mem_cons_of_mem _ he)
    rw [List.map_cons, List.nodup_cons] at hnd
    have hfresh : ∀ e ∈ rest, e.1 ≠ k := fun e he heq =>
      hnd.1 (List.mem_map.mpr ⟨e, he, heq⟩)
    -- the state after the body of the loop
    have hstep : ∃ mi pa, diffLoop ((k, t) :: rest) st
          = diffLoop rest ⟨st.previous.delete k, mi, pa, st.Tokens ++ [t]⟩ ∧
        (mi = true ↔ st.shouldBumpMinor = true ∨ st.previous.lookup k = none) ∧
        (pa = true ↔ st.shouldBumpPatch = true ∨ ∃ p, st.previous.lookup k = some p ∧ t ≠ p) := by
      rcases hlk : st.previous.lookup k with _ | p
      · exact ⟨true, st.shouldBumpPatch, by simp [diffLoop, hk, hlk], by simp, by simp⟩
      · by_cases htp : t = p
        · subst htp
          exact ⟨st.shouldBumpMinor, st.shouldBumpPatch, by simp [diffLoop, hk, hlk],
            by simp, by simp⟩
        · exact ⟨st.shouldBumpMinor, true, by simp [diffLoop, hk, hlk, htp], by simp,
            by simp [htp]⟩
    obtain ⟨mi, pa, hrun, hmi, hpa⟩ := hstep
    obtain ⟨st', h1, h2, h3, h4, h5⟩ :=
      ih ⟨st.previous.delete k, mi, pa, st.Tokens ++ [t]⟩ hkey2 hnd.2
    have hlook : ∀ e ∈ rest, (st.previous.delete k).lookup e.1 = st.previous.lookup e.1 := by
      intro e he
      rw [TokenMap.lookup_delete, if_neg (hfresh e he)]
    refine ⟨st', hrun.trans h1, ?_, ?_, ?_, ?_⟩
    · rw [h2]
      simp only [hmi]
      constructor
      · rintro ((h | h) | ⟨e, he, h⟩)
        · exact Or.inl h
        · exact Or.inr ⟨(k, t), List.mem_cons_self _ _, h⟩
        · exact Or.inr ⟨e, List.mem_cons_of_mem _ he, by rw [← hlook e he]; exact h⟩
      · rintro (h | ⟨e, he, h⟩)
        · exact Or.inl (Or.inl h)
        · rcases List.mem_cons.mp he with rfl | he
          · exact Or.inl (Or.inr h)
          · exact Or.inr ⟨e, he, by rw [hlook e he]; exact h⟩
    · rw [h3]
      simp only [hpa]
      constructor
      · rintro ((h | ⟨p, h⟩) | ⟨e, he, p, h⟩)
        · exact Or.inl h
        · exact Or.inr ⟨(k, t), List.mem_cons_self _ _, p, h⟩
        · exact Or.inr ⟨e, List.mem_cons_of_mem _ he, p, by rw [← hlook e he]; exact h⟩
      · rintro (h | ⟨e, he, p, h⟩)
        · exact Or.inl (Or.inl h)
        · rcases List.mem_cons.mp he with rfl | he
          · exact Or.inl (Or.inr ⟨p, h⟩)
          · exact Or.inr ⟨e, he, p, by rw [hlook e he]; exact h⟩
    · intro k'
      rw [h4 k', TokenMap.lookup_delete]
      simp only [List.map_cons, List.mem_cons]
      by_cases hk' : k' = k
      · simp [hk']
      · by_cases hm : k' ∈ List.map Prod.fst rest
        · simp [hk', hm]
        · simp [hk', hm]
    · rw [h5]
      simp

theorem writeShards_version (rt : GoRuntime) (h : Helpers) (filePath : GoString)
    (shards : ShardMap) : ∀ (tokenList : TokenListData) (files : List (GoString × TokenListData)),
    (writeShards rt h filePath shards tokenList files).tokenList.Version = tokenList.Version := by
  induction shards with
  | nil => intro tokenList files; rfl
  | cons e shards ih =>
    intro tokenList files
    obtain ⟨chainID, tokens⟩ := e
    simp only [writeShards]
    split
    · exact ih _ _
    · split
      · rfl
      · split
        · rfl
        · rw [ih]

theorem bumpVersion_none (v : Version) : bumpVersion v false false false = v := rfl

theorem wrapInt64_succ (x : Int) (hlo : -2 ^ 63 ≤ x) (hhi : x < 2 ^ 63 - 1) :
    wrapInt64 (x + 1) = x + 1 := by
  unfold wrapInt64
  norm_num at hlo hhi ⊢
  omega

theorem wrapInt64_succ_ne (x : Int) : wrapInt64 (x + 1) ≠ x := by
  unfold wrapInt64
  norm_num
  omega

theorem wrapInt64_max : wrapInt64 (2 ^ 63 - 1 + 1) = -2 ^ 63 := by decide

theorem bumpVersion_ne (v : Version) (major minor patch : Bool)
    (hb : major = true ∨ minor = true ∨ patch = true) : bumpVersion v major minor patch ≠ v := by
  obtain ⟨M, m, p⟩ := v
  cases major <;> cases minor <;> cases patch <;>
    simp [bumpVersion, wrapInt64_succ_ne] at hb ⊢

theorem save_of_keyed (rt : GoRuntime) (h : Helpers) (tokenList : TokenListData)
    (tokens : List TokenListToken) (filePath : GoString) (method : JSONSaveTokensMethods)
    (next : TokenMap)
    (hbuild : buildNextTokensMap rt h tokenList tokens method = some next)
    (hne : next.len ≠ 0) (hkey : next.Keyed) :
    ∃ r major minor patch,
      saveTokenListInJsonFile rt h tokenList tokens filePath method = some r ∧
      (major = true ↔
        ∃ k, tokenList.PreviousTokensMap.lookup k ≠ none ∧ next.lookup k = none) ∧
      (minor = true ↔
        ∃ k t, next.lookup k = some t ∧ tokenList.PreviousTokensMap.lookup k = none) ∧
      (patch = true ↔
        ∃ k t p, next.lookup k = some t ∧ tokenList.PreviousTokensMap.lookup k = some p
          ∧ t ≠ p) ∧
      r.tokenList.Version = bumpVersion tokenList.Version major minor patch ∧
      (major = false → minor = false → patch = false → r.err = none ∧ r.files = []) := by
  have hperm := rt.rangeNext_perm next
  have hmem : ∀ e, e ∈ rt.rangeNext next ↔ e ∈ next.entries := fun e => hperm.mem_iff
  have hkeyed : ∀ e ∈ rt.rangeNext next,
      getKey e.2.ChainID (HexToAddress e.2.Address) = some e.1 :=
    fun e he => hkey e ((hmem e).mp he)
  have hnd : ((rt.rangeNext next).map Prod.fst).Nodup :=
    (hperm.map Prod.fst).nodup_iff.mpr next.nodup
  have hkeys : ∀ k, k ∈ (rt.rangeNext next).map Prod.fst ↔ next.lookup k ≠ none := by
    intro k
    rw [Ne, TokenMap.lookup_eq_none_iff, not_not]
    exact (hperm.map Prod.fst).mem_iff
  obtain ⟨st, hrun, hmi, hpa, hprev, _⟩ :=
    diffLoop_spec (rt.rangeNext next) ⟨tokenList.PreviousTokensMap, false, false, []⟩ hkeyed hnd
  have hmajor : decide (st.previous.len > 0) = true ↔
      ∃ k, tokenList.PreviousTokensMap.lookup k ≠ none ∧ next.lookup k = none := by
    rw [decide_eq_true_iff, TokenMap.len_pos_iff]
    constructor
    · rintro ⟨k, hk⟩
      rw [hprev k] at hk
      by_cases hin : k ∈ (rt.rangeNext next).map Prod.fst
      · rw [if_pos hin] at hk; exact absurd rfl hk
      · rw [if_neg hin] at hk
        exact ⟨k, hk, by_contra (fun hc => hin ((hkeys k).mpr hc))⟩
    · rintro ⟨k, hk1, hk2⟩
      refine ⟨k, ?_⟩
      rw [hprev k, if_neg (fun hin => (hkeys k).mp hin hk2)]
      exact hk1
  have hminor : st.shouldBumpMinor = true ↔
      ∃ k t, next.lookup k = some t ∧ tokenList.PreviousTokensMap.lookup k = none := by
    rw [hmi]
    constructor
    · rintro (hf | ⟨e, he, hl⟩)
      · cases hf
      · exact ⟨e.1, e.2, (next.mem_iff_lookup e.1 e.2).mp ((hmem e).mp he), hl⟩
    · rintro ⟨k, t, h1, h2⟩
      exact Or.inr ⟨(k, t), (hmem _).mpr ((next.mem_iff_lookup k t).mpr h1), h2⟩
  have hpatch : st.shouldBumpPatch = true ↔
      ∃ k t p, next.lookup k = some t ∧ tokenList.PreviousTokensMap.lookup k = some p
        ∧ t ≠ p := by
    rw [hpa]
    constructor
    · rintro (hf | ⟨e, he, p, hl, hne⟩)
      · cases hf
      · exact ⟨e.1, e.2, p, (next.mem_iff_lookup e.1 e.2).mp ((hmem e).mp he), hl, hne⟩
    · rintro ⟨k, t, p, h1, h2, h3⟩
      exact Or.inr ⟨(k, t), (hmem _).mpr ((next.mem_iff_lookup k t).mpr h1), p, h2, h3⟩
  by_cases hnone : (!decide (st.previous.len > 0) && !st.shouldBumpMinor
      && !st.shouldBumpPatch) = true
  · have h3 : decide (st.previous.len > 0) = false ∧ st.shouldBumpMinor = false
        ∧ st.shouldBumpPatch = false := by
      simpa [and_assoc] using hnone
    have hstep : ∃ r, saveTokenListInJsonFile rt h tokenList tokens filePath method = some r ∧
        r.tokenList.Version = tokenList.Version ∧ r.err = none ∧ r.files = [] := by
      simp only [saveTokenListInJsonFile, hbuild, if_neg hne, hrun, if_pos hnone]
      exact ⟨_, rfl, rfl, rfl, rfl⟩
    obtain ⟨r, hr, hv, herr, hfiles⟩ := hstep
    refine ⟨r, decide (st.previous.len > 0), st.shouldBumpMinor, st.shouldBumpPatch, hr,
      hmajor, hminor, hpatch, ?_, fun _ _ _ => ⟨herr, hfiles⟩⟩
    rw [h3.1, h3.2.1, h3.2.2, hv]; rfl
  · have hsome : decide (st.previous.len > 0) = true ∨ st.shouldBumpMinor = true
        ∨ st.shouldBumpPatch = true := by
      by_contra hcon
      apply hnone
      push_neg at hcon
      simp only [Bool.not_eq_true] at hcon
      rw [hcon.1, hcon.2.1, hcon.2.2]; rfl
    have hstep : ∃ r, saveTokenListInJsonFile rt h tokenList tokens filePath method = some r ∧
        r.tokenList.Version = bumpVersion tokenList.Version (decide (st.previous.len > 0))
          st.shouldBumpMinor st.shouldBumpPatch := by
      simp only [saveTokenListInJsonFile, hbuild, if_neg hne, hrun, if_neg hnone]
      split
      · exact ⟨_, rfl, rfl⟩
      · exact ⟨_, rfl, by rw [writeShards_version]⟩
    obtain ⟨r, hr, hv⟩ := hstep
    refine ⟨r, decide (st.previous.len > 0), st.shouldBumpMinor, st.shouldBumpPatch, hr,
      hmajor, hminor, hpatch, hv, ?_⟩
    intro h1 h2 h3
    rcases hsome with hs | hs | hs
    · rw [h1] at hs; cases hs
    · rw [h2] at hs; cases hs
    · rw [h3] at hs; cases hs

theorem contains_eq_false_iff (m : TokenMap) (k : GoString) :
    m.contains k = false ↔ m.lookup k = none := by
  rw [TokenMap.contains]; cases m.lookup k <;> simp

theorem contains_eq_true_iff (m : TokenMap) (k : GoString) :
    m.contains k = true ↔ m.lookup k ≠ none := by
  rw [TokenMap.contains]; cases m.lookup k <;> simp

/-- Counterexample to C1: the previous map holds Ajna under its key, the next map holds
the same record under the key `stale`, which is not its `getKey`. The key of the previous
map is not a key of the non-empty next map, yet nothing is bumped or written: the loop
deletes the recomputed key from the previous map. -/
theorem save_stale_key_no_major :
    (buildNextTokensMap GoRuntime.listOrder Helpers.sample
        (sampleDataset (TokenMap.empty.store sampleAjnaKey sampleAjna)
          (TokenMap.empty.store (str "stale") sampleAjna)) [] Standard).map
        (fun next => (next.entries, next.contains sampleAjnaKey))
      = some ([(str "stale", sampleAjna)], false) ∧
    (TokenMap.empty.store sampleAjnaKey sampleAjna).contains sampleAjnaKey = true ∧
    (saveTokenListInJsonFile GoRuntime.listOrder Helpers.sample
        (sampleDataset (TokenMap.empty.store sampleAjnaKey sampleAjna)
          (TokenMap.empty.store (str "stale") sampleAjna)) [] (str "sample.json") Standard).map
        (fun r => (r.err, r.tokenList.Version, r.files.length))
      = some (none, ⟨3, 4, 5⟩, 0) := by
  decide!

/-- C1 as amended: when the validated next map is non-empty and keyed by `getKey` of each
record's own chain ID and address, a key of the previous map that is not a key of the next
map makes the version `(major++, 0, 0)`, whatever additions or modifications there are;
`major++` is the wrapping increment of a Go `int`, which is `major + 1` for a 64-bit value
below the maximal one. -/
theorem save_removal_bumps_major (rt : GoRuntime) (h : Helpers) (tokenList : TokenListData)
    (tokens : List TokenListToken) (filePath : GoString) (method : JSONSaveTokensMethods)
    (next : TokenMap)
    (hbuild : buildNextTokensMap rt h tokenList tokens method = some next)
    (hne : next.len ≠ 0) (hkey : next.Keyed)
    (hrem : ∃ k, tokenList.PreviousTokensMap.contains k = true ∧ next.contains k = false) :
    ∃ r, saveTokenListInJsonFile rt h tokenList tokens filePath method = some r ∧
      r.tokenList.Version = ⟨wrapInt64 (tokenList.Version.Major + 1), 0, 0⟩ ∧
      (-2 ^ 63 ≤ tokenList.Version.Major → tokenList.Version.Major < 2 ^ 63 - 1 →
        r.tokenList.Version = ⟨tokenList.Version.Major + 1, 0, 0⟩) := by
  obtain ⟨r, major, minor, patch, hr, hmajor, _, _, hv, _⟩ :=
    save_of_keyed rt h tokenList tokens filePath method next hbuild hne hkey
  obtain ⟨k, hk1, hk2⟩ := hrem
  have hm : major = true :=
    hmajor.mpr ⟨k, (contains_eq_true_iff _ _).mp hk1, (contains_eq_false_iff _ _).mp hk2⟩
  have hwrap : r.tokenList.Version = ⟨wrapInt64 (tokenList.Version.Major + 1), 0, 0⟩ := by
    rw [hv, hm]
    rfl
  refine ⟨r, hr, hwrap, fun hlo hhi => ?_⟩
  rw [hwrap, wrapInt64_succ _ hlo hhi]

/-- Witness of C1 as amended: Ajna and BTRFLY were persisted, only Ajna is a candidate. -/
theorem save_removal_bumps_major_witness :
    ∃ r, saveTokenListInJsonFile GoRuntime.listOrder Helpers.sample
        (sampleDataset ((TokenMap.empty.store sampleAjnaKey sampleAjna).store sampleBtrflyKey
          sampleBtrfly) TokenMap.empty) [sampleAjna] (str "sample.json") Standard = some r ∧
      r.tokenList.Version = ⟨3 + 1, 0, 0⟩ := by
  obtain ⟨r, hr, _, hexact⟩ := save_removal_bumps_major GoRuntime.listOrder Helpers.sample
    (sampleDataset ((TokenMap.empty.store sampleAjnaKey sampleAjna).store sampleBtrflyKey
      sampleBtrfly) TokenMap.empty) [sampleAjna] (str "sample.json") Standard
    (TokenMap.empty.store sampleAjnaKey sampleAjna)
    (by decide!) (by decide) (by decide!) ⟨sampleBtrflyKey, by decide, by decide⟩
  exact ⟨r, hr, hexact (by decide) (by decide)⟩

theorem forall_contains_iff (m : TokenMap) (P : GoString → Prop) :
    (∀ k, m.contains k = true → P k) ↔ ∀ k ∈ m.entries.map Prod.fst, P k :=
  ⟨fun hall k hk => hall k ((m.lookup_isSome_iff k).mpr hk),
   fun hall k hk => hall k ((m.lookup_isSome_iff k).mp hk)⟩

theorem exists_contains_iff (m : TokenMap) (P : GoString → Prop) :
    (∃ k, m.contains k = true ∧ P k) ↔ ∃ k ∈ m.entries.map Prod.fst, P k :=
  ⟨fun ⟨k, hk, hp⟩ => ⟨k, (m.lookup_isSome_iff k).mp hk, hp⟩,
   fun ⟨k, hk, hp⟩ => ⟨k, (m.lookup_isSome_iff k).mpr hk, hp⟩⟩

/-- Counterexample to C2: the next map holds Ajna under its own key and once more under the
key `stale`, the previous map holds Ajna under its key and BTRFLY under `stale`. Every key
of the previous map is a key of the next map, no next key is new and the records under
`stale` differ, yet the version becomes `(major + 1, 0, 0)` instead of
`(major, minor, patch + 1)`, in either iteration order. -/
theorem save_stale_key_major_not_patch :
    (saveTokenListInJsonFile GoRuntime.listOrder Helpers.sample
        (sampleDataset ((TokenMap.empty.store sampleAjnaKey sampleAjna).store (str "stale")
            sampleBtrfly)
          ((TokenMap.empty.store sampleAjnaKey sampleAjna).store (str "stale") sampleAjna))
        [] (str "sample.json") Standard).map (fun r => r.tokenList.Version)
      = some ⟨4, 0, 0⟩ ∧
    (saveTokenListInJsonFile GoRuntime.listOrder Helpers.sample
        (sampleDataset ((TokenMap.empty.store sampleAjnaKey sampleAjna).store (str "stale")
            sampleBtrfly)
          ((TokenMap.empty.store (str "stale") sampleAjna).store sampleAjnaKey sampleAjna))
        [] (str "sample.json") Standard).map (fun r => r.tokenList.Version)
      = some ⟨4, 0, 0⟩ ∧
    (buildNextTokensMap GoRuntime.listOrder Helpers.sample
        (sampleDataset ((TokenMap.empty.store sampleAjnaKey sampleAjna).store (str "stale")
            sampleBtrfly)
          ((TokenMap.empty.store sampleAjnaKey sampleAjna).store (str "stale") sampleAjna))
        [] Standard).map (fun next => next.entries)
      = some [(str "stale", sampleAjna), (sampleAjnaKey, sampleAjna)] ∧
    ((TokenMap.empty.store sampleAjnaKey sampleAjna).store (str "stale") sampleBtrfly).entries
      = [(str "stale", sampleBtrfly), (sampleAjnaKey, sampleAjna)] ∧
    sampleAjna ≠ sampleBtrfly := by
  decide!

/-- C2 as amended: when the validated next map is non-empty, keyed by `getKey` of each
record's own chain ID and address, and contains every key of the previous map, a next key
absent from the previous map makes the version `(major, minor++, 0)`; without such a
key, a next record that differs from the previous record under its key makes it
`(major, minor, patch++)`. The increments are those of a Go `int`: they wrap, and are
`minor + 1` and `patch + 1` for a 64-bit value below the maximal one. -/
theorem save_addition_bumps_minor (rt : GoRuntime) (h : Helpers) (tokenList : TokenListData)
    (tokens : List TokenListToken) (filePath : GoString) (method : JSONSaveTokensMethods)
    (next : TokenMap)
    (hbuild : buildNextTokensMap rt h tokenList tokens method = some next)
    (hne : next.len ≠ 0) (hkey : next.Keyed)
    (hnorem : ∀ k, tokenList.PreviousTokensMap.contains k = true → next.contains k = true) :
    ∃ r, saveTokenListInJsonFile rt h tokenList tokens filePath method = some r ∧
      ((∃ k, next.contains k = true ∧ tokenList.PreviousTokensMap.contains k = false) →
        r.tokenList.Version
          = ⟨tokenList.Version.Major, wrapInt64 (tokenList.Version.Minor + 1), 0⟩ ∧
        (-2 ^ 63 ≤ tokenList.Version.Minor → tokenList.Version.Minor < 2 ^ 63 - 1 →
          r.tokenList.Version = ⟨tokenList.Version.Major, tokenList.Version.Minor + 1, 0⟩)) ∧
      ((¬ ∃ k, next.contains k = true ∧ tokenList.PreviousTokensMap.contains k = false) →
        (∃ k t p, next.lookup k = some t ∧ tokenList.PreviousTokensMap.lookup k = some p
          ∧ t ≠ p) →
        r.tokenList.Version
          = ⟨tokenList.Version.Major, tokenList.Version.Minor,
              wrapInt64 (tokenList.Version.Patch + 1)⟩ ∧
        (-2 ^ 63 ≤ tokenList.Version.Patch → tokenList.Version.Patch < 2 ^ 63 - 1 →
          r.tokenList.Version
            = ⟨tokenList.Version.Major, tokenList.Version.Minor,
                tokenList.Version.Patch + 1⟩)) := by
  obtain ⟨r, major, minor, patch, hr, hmajor, hminor, hpatch, hv, _⟩ :=
    save_of_keyed rt h tokenList tokens filePath method next hbuild hne hkey
  have hm : major = false := by
    apply Bool.eq_false_iff.mpr
    intro hm
    obtain ⟨k, hk1, hk2⟩ := hmajor.mp hm
    have := hnorem k ((contains_eq_true_iff _ _).mpr hk1)
    exact (contains_eq_true_iff _ _).mp this hk2
  have hadd : minor = true ↔
      ∃ k, next.contains k = true ∧ tokenList.PreviousTokensMap.contains k = false := by
    rw [hminor]
    constructor
    · rintro ⟨k, t, h1, h2⟩
      exact ⟨k, (contains_eq_true_iff _ _).mpr (by rw [h1]; simp),
        (contains_eq_false_iff _ _).mpr h2⟩
    · rintro ⟨k, h1, h2⟩
      rcases hl : next.lookup k with _ | t
      · exact absurd hl ((contains_eq_true_iff _ _).mp h1)
      · exact ⟨k, t, hl, (contains_eq_false_iff _ _).mp h2⟩
  refine ⟨r, hr, fun ha => ?_, fun hna hmod => ?_⟩
  · have hwrap : r.tokenList.Version
        = ⟨tokenList.Version.Major, wrapInt64 (tokenList.Version.Minor + 1), 0⟩ := by
      rw [hv, hm, hadd.mpr ha]; rfl
    refine ⟨hwrap, fun hlo hhi => ?_⟩
    rw [hwrap, wrapInt64_succ _ hlo hhi]
  · have hmi : minor = false := Bool.eq_false_iff.mpr (fun hc => hna (hadd.mp hc))
    have hwrap : r.tokenList.Version
        = ⟨tokenList.Version.Major, tokenList.Version.Minor,
            wrapInt64 (tokenList.Version.Patch + 1)⟩ := by
      rw [hv, hm, hmi, hpatch.mpr hmod]; rfl
    refine ⟨hwrap, fun hlo hhi => ?_⟩
    rw [hwrap, wrapInt64_succ _ hlo hhi]

/-- Witness of C2 as amended: BTRFLY added to a persisted Ajna; then Ajna renamed. -/
theorem save_addition_bumps_minor_witness :
    (∃ r, saveTokenListInJsonFile GoRuntime.listOrder Helpers.sample
        (sampleDataset (TokenMap.empty.store sampleAjnaKey sampleAjna) TokenMap.empty)
        [sampleAjna, sampleBtrfly] (str "sample.json") Standard = some r ∧
      r.tokenList.Version = ⟨3, 4 + 1, 0⟩) ∧
    (∃ r, saveTokenListInJsonFile GoRuntime.listOrder Helpers.sample
        (sampleDataset (TokenMap.empty.store sampleAjnaKey { sampleAjna with Name := str "Old" })
          TokenMap.empty)
        [sampleAjna] (str "sample.json") Standard = some r ∧
      r.tokenList.Version = ⟨3, 4, 5 + 1⟩) := by
  constructor
  · obtain ⟨r, hr, hadd, _⟩ := save_addition_bumps_minor GoRuntime.listOrder Helpers.sample
      (sampleDataset (TokenMap.empty.store sampleAjnaKey sampleAjna) TokenMap.empty)
      [sampleAjna, sampleBtrfly] (str "sample.json") Standard
      ((TokenMap.empty.store sampleAjnaKey sampleAjna).store sampleBtrflyKey sampleBtrfly)
      (by decide!) (by decide) (by decide!) ((forall_contains_iff _ _).mpr (by decide))
    exact ⟨r, hr, (hadd ⟨sampleBtrflyKey, by decide, by decide⟩).2 (by decide) (by decide)⟩
  · obtain ⟨r, hr, _, hmod⟩ := save_addition_bumps_minor GoRuntime.listOrder Helpers.sample
      (sampleDataset (TokenMap.empty.store sampleAjnaKey { sampleAjna with Name := str "Old" })
        TokenMap.empty)
      [sampleAjna] (str "sample.json") Standard
      (TokenMap.empty.store sampleAjnaKey sampleAjna)
      (by decide!) (by decide) (by decide!) ((forall_contains_iff _ _).mpr (by decide))
    exact ⟨r, hr, (hmod ((exists_contains_iff _ _).not.mpr (by decide))
      ⟨sampleAjnaKey, sampleAjna, { sampleAjna with Name := str "Old" },
        by decide, by decide, by decide⟩).2 (by decide) (by decide)⟩

/-- C3: when the validated next map is non-empty and both maps are keyed by `getKey` of
each record's own chain ID and address, the call writes no file, keeps the version and
returns `nil` exactly when the next map equals the previous map, key by key. (The proof
does not use the hypothesis on the previous map.) -/
theorem save_noop_iff (rt : GoRuntime) (h : Helpers) (tokenList : TokenListData)
    (tokens : List TokenListToken) (filePath : GoString) (method : JSONSaveTokensMethods)
    (next : TokenMap)
    (hbuild : buildNextTokensMap rt h tokenList tokens method = some next)
    (hne : next.len ≠ 0) (hkey : next.Keyed) (_hprev : tokenList.PreviousTokensMap.Keyed) :
    ∃ r, saveTokenListInJsonFile rt h tokenList tokens filePath method = some r ∧
      ((r.files = [] ∧ r.tokenList.Version = tokenList.Version ∧ r.err = none) ↔
        ∀ k, next.lookup k = tokenList.PreviousTokensMap.lookup k) := by
  obtain ⟨r, major, minor, patch, hr, hmajor, hminor, hpatch, hv, hquiet⟩ :=
    save_of_keyed rt h tokenList tokens filePath method next hbuild hne hkey
  refine ⟨r, hr, ?_, ?_⟩
  · rintro ⟨_, hver, _⟩ k
    have hflags : major = false ∧ minor = false ∧ patch = false := by
      by_contra hcon
      have hb : major = true ∨ minor = true ∨ patch = true := by
        by_contra hcon2
        push_neg at hcon2
        simp only [Bool.not_eq_true] at hcon2
        exact hcon hcon2
      exact bumpVersion_ne tokenList.Version major minor patch hb (hv ▸ hver)
    obtain ⟨hma, hmi, hpa⟩ := hflags
    rcases hl : next.lookup k with _ | t
    · by_contra hcon
      have : major = true := hmajor.mpr ⟨k, fun hp => hcon hp.symm, hl⟩
      rw [hma] at this; cases this
    · rcases hp : tokenList.PreviousTokensMap.lookup k with _ | p
      · have : minor = true := hminor.mpr ⟨k, t, hl, hp⟩
        rw [hmi] at this; cases this
      · by_cases htp : t = p
        · rw [htp]
        · have : patch = true := hpatch.mpr ⟨k, t, p, hl, hp, htp⟩
          rw [hpa] at this; cases this
  · intro heq
    have hma : major = false := by
      apply Bool.eq_false_iff.mpr
      intro hc
      obtain ⟨k, hk1, hk2⟩ := hmajor.mp hc
      exact hk1 ((heq k).symm.trans hk2)
    have hmi : minor = false := by
      apply Bool.eq_false_iff.mpr
      intro hc
      obtain ⟨k, t, hk1, hk2⟩ := hminor.mp hc
      rw [heq k, hk2] at hk1; cases hk1
    have hpa : patch = false := by
      apply Bool.eq_false_iff.mpr
      intro hc
      obtain ⟨k, t, p, hk1, hk2, hk3⟩ := hpatch.mp hc
      rw [heq k, hk2] at hk1
      exact hk3 (Option.some.inj hk1).symm
    obtain ⟨herr, hfiles⟩ := hquiet hma hmi hpa
    refine ⟨hfiles, ?_, herr⟩
    rw [hv, hma, hmi, hpa]; rfl

/-- Witness of C3: the persisted Ajna is the only candidate again. -/
theorem save_noop_iff_witness :
    ∃ r, saveTokenListInJsonFile GoRuntime.listOrder Helpers.sample
        (sampleDataset (TokenMap.empty.store sampleAjnaKey sampleAjna) TokenMap.empty)
        [sampleAjna] (str "sample.json") Standard = some r ∧
      ((r.files = [] ∧ r.tokenList.Version = ⟨3, 4, 5⟩ ∧ r.err = none) ↔
        ∀ k, (TokenMap.empty.store sampleAjnaKey sampleAjna).lookup k
          = (TokenMap.empty.store sampleAjnaKey sampleAjna).lookup k) :=
  save_noop_iff GoRuntime.listOrder Helpers.sample
    (sampleDataset (TokenMap.empty.store sampleAjnaKey sampleAjna) TokenMap.empty)
    [sampleAjna] (str "sample.json") Standard (TokenMap.empty.store sampleAjnaKey sampleAjna)
    (by decide!) (by decide) (by decide!) (by decide!)

/-! ## The empty-dataset guard -/

theorem mem_of_mem_dedupeTokens (l : List TokenListToken) : ∀ (seen : List GoString)
    (t : TokenListToken), t ∈ dedupeTokens l seen → t ∈ l := by
  induction l with
  | nil => intro seen t ht; simp [dedupeTokens] at ht
  | cons a l ih =>
    intro seen t ht
    simp only [dedupeTokens] at ht
    split at ht
    · exact List.mem_cons_of_mem _ (ih _ t ht)
    · rcases List.mem_cons.mp ht with rfl | ht
      · exact List.mem_cons_self _ _
      · exact List.mem_cons_of_mem _ (ih _ t ht)

theorem addCandidates_all_rejected (h : Helpers) (l : List TokenListToken) (next : TokenMap)
    (hrej : ∀ t ∈ l, h.IsChainIDSupported t.ChainID = false ∨
      ∃ e, SetToken h (HexToAddress t.Address) t.Name t.Symbol t.LogoURI t.ChainID t.Decimals
        = .error e) :
    addCandidates h l next = some next := by
  induction l with
  | nil => rfl
  | cons t l ih =>
    have ih2 := ih (fun x hx => hrej x (List.mem_cons_of_mem _ hx))
    rcases hrej t (List.mem_cons_self _ _) with hu | ⟨e, he⟩
    · simp [addCandidates, hu, ih2]
    · by_cases hs : h.IsChainIDSupported t.ChainID = true
      · simp [addCandidates, hs, he, ih2]
      · simp [addCandidates, hs, ih2]

/-- C4: in Standard mode with an initially empty next map, when every candidate is
rejected (unsupported chain, or an error of `SetToken`) the call returns the error
`token list is empty`, writes no file and leaves the version as it was. -/
theorem save_all_rejected (rt : GoRuntime) (h : Helpers) (tokenList : TokenListData)
    (tokens : List TokenListToken) (filePath : GoString)
    (hempty : tokenList.NextTokensMap.len = 0)
    (hrej : ∀ t ∈ tokens, h.IsChainIDSupported t.ChainID = false ∨
      ∃ e, SetToken h (HexToAddress t.Address) t.Name t.Symbol t.LogoURI t.ChainID t.Decimals
        = .error e) :
    ∃ r, saveTokenListInJsonFile rt h tokenList tokens filePath Standard = some r ∧
      r.err = some (str "token list is empty") ∧ r.files = [] ∧
      r.tokenList.Version = tokenList.Version := by
  have hstd : ¬ (Standard = Append) := by decide
  have hbuild : buildNextTokensMap rt h tokenList tokens Standard
      = some tokenList.NextTokensMap := by
    simp only [buildNextTokensMap, if_neg hstd]
    exact addCandidates_all_rejected h _ _
      (fun t ht => hrej t (mem_of_mem_dedupeTokens _ _ _ ht))
  refine ⟨⟨some (str "token list is empty"),
    { tokenList with NextTokensMap := tokenList.NextTokensMap }, []⟩, ?_, rfl, rfl, rfl⟩
  simp only [saveTokenListInJsonFile, hbuild, if_pos hempty]

/-- Witness of C4: one candidate on the unsupported chain 5, one with an empty name. -/
theorem save_all_rejected_witness :
    ∃ r, saveTokenListInJsonFile GoRuntime.listOrder Helpers.sample
        (sampleDataset (TokenMap.empty.store sampleAjnaKey sampleAjna) TokenMap.empty)
        [{ sampleAjna with ChainID := 5 }, { sampleBtrfly with Name := [] }]
        (str "sample.json") Standard = some r ∧
      r.err = some (str "token list is empty") ∧ r.files = [] ∧
      r.tokenList.Version = ⟨3, 4, 5⟩ :=
  save_all_rejected GoRuntime.listOrder Helpers.sample
    (sampleDataset (TokenMap.empty.store sampleAjnaKey sampleAjna) TokenMap.empty)
    [{ sampleAjna with ChainID := 5 }, { sampleBtrfly with Name := [] }] (str "sample.json")
    (by decide) (by
      intro t ht
      rcases List.mem_cons.mp ht with rfl | ht
      · exact Or.inl rfl
      · rcases List.mem_cons.mp ht with rfl | ht
        · exact Or.inr ⟨_, rfl⟩
        · cases ht)

/-! ## Every call: the version and the return -/

theorem SetToken_ok_fields (h : Helpers) (address : Address) (name symbol logoURI : GoString)
    (chainID : Nat) (decimals : Int) (t : TokenListToken)
    (hok : SetToken h address name symbol logoURI chainID decimals = .ok t) :
    t.ChainID = chainID ∧ t.Address = address.Hex ∧ t.Decimals = decimals ∧ t.Name ≠ [] ∧
      t.Symbol ≠ [] ∧ decimals ≠ 0 ∧ h.IsIgnoredToken chainID address = false ∧
      h.IsChainIDSupported chainID = true := by
  unfold SetToken at hok
  by_cases h1 : name = []
  · rw [if_pos h1] at hok; cases hok
  by_cases h2 : symbol = []
  · rw [if_neg h1, if_pos h2] at hok; cases hok
  by_cases h3 : decimals = 0
  · rw [if_neg h1, if_neg h2, if_pos h3] at hok; cases hok
  by_cases h4 : h.IsIgnoredToken chainID address = true
  · rw [if_neg h1, if_neg h2, if_neg h3, if_pos h4] at hok; cases hok
  by_cases h5 : chainID = 0 ∨ (!h.IsChainIDSupported chainID) = true
  · rw [if_neg h1, if_neg h2, if_neg h3, if_neg h4, if_pos h5] at hok; cases hok
  · rw [if_neg h1, if_neg h2, if_neg h3, if_neg h4, if_neg h5] at hok
    have ht := Except.ok.inj hok
    subst ht
    refine ⟨rfl, rfl, rfl, ?_, ?_, h3, by simpa using h4, ?_⟩
    · dsimp only
      split
      · decide
      · exact h1
    · dsimp only
      split
      · decide
      · exact h2
    · by_contra hc
      exact h5 (Or.inr (by simpa using hc))

theorem TokenMap.mem_store (m : TokenMap) (k : GoString) (v : TokenListToken)
    (e : GoString × TokenListToken) (he : e ∈ (m.store k v).entries) :
    e = (k, v) ∨ e ∈ m.entries := by
  simp only [TokenMap.store, TokenMap.delete, List.mem_cons, List.mem_filter] at he
  rcases he with he | he
  · exact Or.inl he
  · exact Or.inr he.1

theorem addCandidates_returns (h : Helpers) (hsup : ∀ c, h.IsChainIDSupported c = true → c < 10 ^ 18)
    (l : List TokenListToken) : ∀ next : TokenMap,
    (∀ e ∈ next.entries, e.2.ChainID < 10 ^ 18) →
    ∃ m, addCandidates h l next = some m ∧ ∀ e ∈ m.entries, e.2.ChainID < 10 ^ 18 := by
  induction l with
  | nil => intro next hn; exact ⟨next, rfl, hn⟩
  | cons t l ih =>
    intro next hn
    by_cases hs : h.IsChainIDSupported t.ChainID = true
    · rcases hset : SetToken h (HexToAddress t.Address) t.Name t.Symbol t.LogoURI t.ChainID
          t.Decimals with e | newToken
      · simpa [addCandidates, hs, hset] using ih next hn
      · have hc := hsup _ hs
        have hk := getKey_eq t.ChainID (HexToAddress t.Address) hc
        have hf := SetToken_ok_fields h _ _ _ _ _ _ _ hset
        have := ih (next.store (decimalDigits 18 t.ChainID ++ str "_" ++ (HexToAddress t.Address).Hex)
          newToken) (by
          intro e he
          rcases TokenMap.mem_store _ _ _ _ he with rfl | he
          · rw [hf.1]; exact hc
          · exact hn e he)
        simpa [addCandidates, hs, hset, hk] using this
    · simpa [addCandidates, hs] using ih next hn

theorem appendPrevious_returns (h : Helpers)
    (hsup : ∀ c, h.IsChainIDSupported c = true → c < 10 ^ 18)
    (l : List (GoString × TokenListToken)) : ∀ next : TokenMap,
    (∀ e ∈ next.entries, e.2.ChainID < 10 ^ 18) →
    ∃ m, appendPrevious h l next = some m ∧ ∀ e ∈ m.entries, e.2.ChainID < 10 ^ 18 := by
  induction l with
  | nil => intro next hn; exact ⟨next, rfl, hn⟩
  | cons p l ih =>
    intro next hn
    obtain ⟨k0, t⟩ := p
    by_cases hs : h.IsChainIDSupported t.ChainID = true
    · by_cases hx : (t.Name = [] ∨ t.Symbol = [] ∨ t.Decimals = 0)
          ∨ h.IsIgnoredToken t.ChainID (HexToAddress t.Address) = true
      · simpa [appendPrevious, hs, hx] using ih next hn
      · rcases hset : SetToken h (HexToAddress t.Address) t.Name t.Symbol t.LogoURI t.ChainID
            t.Decimals with e | newToken
        · simpa [appendPrevious, hs, hx, hset] using ih next hn
        · have hc := hsup _ hs
          have hk := getKey_eq t.ChainID (HexToAddress t.Address) hc
          have hf := SetToken_ok_fields h _ _ _ _ _ _ _ hset
          have := ih (next.store (decimalDigits 18 t.ChainID ++ str "_" ++ (HexToAddress t.Address).Hex)
          newToken) (by
            intro e he
            rcases TokenMap.mem_store _ _ _ _ he with rfl | he
            · rw [hf.1]; exact hc
            · exact hn e he)
          simpa [appendPrevious, hs, hx, hset, hk] using this
    · simpa [appendPrevious, hs] using ih next hn

theorem buildNextTokensMap_returns (rt : GoRuntime) (h : Helpers) (tokenList : TokenListData)
    (tokens : List TokenListToken) (method : JSONSaveTokensMethods)
    (hsup : ∀ c, h.IsChainIDSupported c = true → c < 10 ^ 18)
    (hnext : ∀ e ∈ tokenList.NextTokensMap.entries, e.2.ChainID < 10 ^ 18) :
    ∃ m, buildNextTokensMap rt h tokenList tokens method = some m ∧
      ∀ e ∈ m.entries, e.2.ChainID < 10 ^ 18 := by
  unfold buildNextTokensMap
  by_cases hm : method = Append
  · obtain ⟨m1, h1, h2⟩ := appendPrevious_returns h hsup
      (rt.rangePrevious tokenList.PreviousTokensMap) tokenList.NextTokensMap hnext
    simp only [if_pos hm, h1]
    exact addCandidates_returns h hsup _ m1 h2
  · simp only [if_neg hm]
    exact addCandidates_returns h hsup _ _ hnext

theorem diffLoop_returns (it : List (GoString × TokenListToken)) : ∀ st : DiffState,
    (∀ e ∈ it, e.2.ChainID < 10 ^ 18) → ∃ st', diffLoop it st = some st' := by
  induction it with
  | nil => intro st _; exact ⟨st, rfl⟩
  | cons e it ih =>
    intro st hit
    obtain ⟨k0, t⟩ := e
    have hk := getKey_eq t.ChainID (HexToAddress t.Address) (hit (k0, t) (List.mem_cons_self _ _))
    simp only [diffLoop, hk]
    exact ih _ (fun e he => hit e (List.mem_cons_of_mem _ he))

theorem save_returns (rt : GoRuntime) (h : Helpers) (tokenList : TokenListData)
    (tokens : List TokenListToken) (filePath : GoString) (method : JSONSaveTokensMethods)
    (hsup : ∀ c, h.IsChainIDSupported c = true → c < 10 ^ 18)
    (hnext : ∀ e ∈ tokenList.NextTokensMap.entries, e.2.ChainID < 10 ^ 18) :
    ∃ r, saveTokenListInJsonFile rt h tokenList tokens filePath method = some r := by
  obtain ⟨m, hm, hm2⟩ := buildNextTokensMap_returns rt h tokenList tokens method hsup hnext
  obtain ⟨st, hst⟩ := diffLoop_returns (rt.rangeNext m)
    ⟨tokenList.PreviousTokensMap, false, false, []⟩
    (fun e he => hm2 e ((rt.rangeNext_perm m).mem_iff.mp he))
  simp only [saveTokenListInJsonFile, hm, hst]
  split
  · exact ⟨_, rfl⟩
  · split
    · exact ⟨_, rfl⟩
    · split
      · exact ⟨_, rfl⟩
      · exact ⟨_, rfl⟩

theorem save_version_cases (rt : GoRuntime) (h : Helpers) (tokenList : TokenListData)
    (tokens : List TokenListToken) (filePath : GoString) (method : JSONSaveTokensMethods)
    (r : SaveResult)
    (hr : saveTokenListInJsonFile rt h tokenList tokens filePath method = some r) :
    (r.tokenList.Version = tokenList.Version ∧ r.files = []) ∨
      ∃ major minor patch, (major = true ∨ minor = true ∨ patch = true) ∧
        r.tokenList.Version = bumpVersion tokenList.Version major minor patch := by
  simp only [saveTokenListInJsonFile] at hr
  split at hr
  · cases hr
  · split at hr
    · cases hr; exact Or.inl ⟨rfl, rfl⟩
    · split at hr
      · cases hr
      · rename_i st hst
        split at hr
        · cases hr; exact Or.inl ⟨rfl, rfl⟩
        · rename_i hb
          have hflags : decide (st.previous.len > 0) = true ∨ st.shouldBumpMinor = true
              ∨ st.shouldBumpPatch = true := by
            by_contra hcon
            apply hb
            push_neg at hcon
            simp only [Bool.not_eq_true] at hcon
            rw [hcon.1, hcon.2.1, hcon.2.2]; rfl
          refine Or.inr ⟨_, _, _, hflags, ?_⟩
          split at hr
          · cases hr; rfl
          · cases hr; rw [writeShards_version]

/-- C19: a call that returns leaves the version unchanged or applies `++` to exactly one of
major, minor, patch and resets the components after it to 0. Integer overflow aside, that
is for 64-bit components below the maximal value, the incremented component is larger by
exactly 1, the result is never below the input in the lexicographic order and is strictly
above it whenever a file is written. The call does return when the supported chain IDs
and the chain IDs of a caller-populated next map are below `10 ^ 18`. -/
theorem save_version_monotone (rt : GoRuntime) (h : Helpers) (tokenList : TokenListData)
    (tokens : List TokenListToken) (filePath : GoString) (method : JSONSaveTokensMethods) :
    (∀ r, saveTokenListInJsonFile rt h tokenList tokens filePath method = some r →
      (r.tokenList.Version = tokenList.Version ∨
        r.tokenList.Version = ⟨wrapInt64 (tokenList.Version.Major + 1), 0, 0⟩ ∨
        r.tokenList.Version
          = ⟨tokenList.Version.Major, wrapInt64 (tokenList.Version.Minor + 1), 0⟩ ∨
        r.tokenList.Version
          = ⟨tokenList.Version.Major, tokenList.Version.Minor,
              wrapInt64 (tokenList.Version.Patch + 1)⟩) ∧
      (tokenList.Version.NoOverflow →
        (r.tokenList.Version = tokenList.Version ∨
          r.tokenList.Version = ⟨tokenList.Version.Major + 1, 0, 0⟩ ∨
          r.tokenList.Version = ⟨tokenList.Version.Major, tokenList.Version.Minor + 1, 0⟩ ∨
          r.tokenList.Version
            = ⟨tokenList.Version.Major, tokenList.Version.Minor,
                tokenList.Version.Patch + 1⟩) ∧
        tokenList.Version.le r.tokenList.Version ∧
        (r.files ≠ [] → tokenList.Version.lt r.tokenList.Version))) ∧
    ((∀ c, h.IsChainIDSupported c = true → c < 10 ^ 18) →
      (∀ e ∈ tokenList.NextTokensMap.entries, e.2.ChainID < 10 ^ 18) →
      ∃ r, saveTokenListInJsonFile rt h tokenList tokens filePath method = some r) := by
  refine ⟨fun r hr => ?_, save_returns rt h tokenList tokens filePath method⟩
  rcases save_version_cases rt h tokenList tokens filePath method r hr with
    ⟨hv, hf⟩ | ⟨major, minor, patch, hflags, hv⟩
  · exact ⟨Or.inl hv, fun _ => ⟨Or.inl hv, Or.inl hv.symm, fun hne => absurd hf hne⟩⟩
  · have hwrap : r.tokenList.Version = ⟨wrapInt64 (tokenList.Version.Major + 1), 0, 0⟩ ∨
        r.tokenList.Version
          = ⟨tokenList.Version.Major, wrapInt64 (tokenList.Version.Minor + 1), 0⟩ ∨
        r.tokenList.Version
          = ⟨tokenList.Version.Major, tokenList.Version.Minor,
              wrapInt64 (tokenList.Version.Patch + 1)⟩ := by
      rw [hv]
      cases major
      · cases minor
        · cases patch
          · simp at hflags
          · exact Or.inr (Or.inr rfl)
        · exact Or.inr (Or.inl rfl)
      · exact Or.inl rfl
    refine ⟨Or.inr hwrap, fun hno => ?_⟩
    obtain ⟨⟨hM1, hM2⟩, ⟨hm1, hm2⟩, ⟨hp1, hp2⟩⟩ := hno
    have hlt : tokenList.Version.lt r.tokenList.Version ∧
        (r.tokenList.Version = ⟨tokenList.Version.Major + 1, 0, 0⟩ ∨
        r.tokenList.Version = ⟨tokenList.Version.Major, tokenList.Version.Minor + 1, 0⟩ ∨
        r.tokenList.Version
          = ⟨tokenList.Version.Major, tokenList.Version.Minor, tokenList.Version.Patch + 1⟩) := by
      rcases hwrap with hw | hw | hw
      · rw [hw, wrapInt64_succ _ hM1 hM2]
        exact ⟨Or.inl (by simp), Or.inl rfl⟩
      · rw [hw, wrapInt64_succ _ hm1 hm2]
        exact ⟨Or.inr ⟨rfl, Or.inl (by simp)⟩, Or.inr (Or.inl rfl)⟩
      · rw [hw, wrapInt64_succ _ hp1 hp2]
        exact ⟨Or.inr ⟨rfl, Or.inr ⟨rfl, by simp⟩⟩, Or.inr (Or.inr rfl)⟩
    exact ⟨Or.inr hlt.2, Or.inr hlt.1, fun _ => hlt.1⟩

/-- Witness of C19: Ajna and BTRFLY saved over a persisted Ajna. -/
theorem save_version_monotone_witness :
    ∃ r, saveTokenListInJsonFile GoRuntime.listOrder Helpers.sample
        (sampleDataset (TokenMap.empty.store sampleAjnaKey sampleAjna) TokenMap.empty)
        [sampleAjna, sampleBtrfly] (str "sample.json") Standard = some r ∧
      Version.le ⟨3, 4, 5⟩ r.tokenList.Version := by
  have hthm := save_version_monotone GoRuntime.listOrder Helpers.sample
    (sampleDataset (TokenMap.empty.store sampleAjnaKey sampleAjna) TokenMap.empty)
    [sampleAjna, sampleBtrfly] (str "sample.json") Standard
  obtain ⟨r, hr⟩ := hthm.2
    (by
      intro c hc
      have : c = 1 ∨ c = 10 ∨ c = 137 := by simpa [Helpers.sample, or_assoc] using hc
      rcases this with rfl | rfl | rfl <;> norm_num)
    (by intro e he; cases he)
  exact ⟨r, hr, ((hthm.1 r hr).2 (by decide)).2.1⟩

/-- C11, the code at the failing input: the caller put Ajna with an empty name into the next
map under its key, there is no candidate and nothing was persisted. The save succeeds and
the unified file holds the record with the empty name, while the file of chain 1 holds no
record: line 187 skips the record after line 144 has already put it into `Tokens`. -/
theorem save_writes_excluded_record :
    (saveTokenListInJsonFile GoRuntime.listOrder Helpers.sample
        (sampleDataset TokenMap.empty (TokenMap.empty.store sampleAjnaKey sampleNameless))
        [] (str "sample.json") Standard).map
        (fun r => (r.err, r.files.map (fun f => (f.1, f.2.Tokens))))
      = some (none, [(str "./lists/sample.json", [sampleNameless]),
          (str "./lists/1/sample.json", [])]) ∧
    sampleNameless.Name = [] ∧
    isExcluded Helpers.sample sampleNameless = true := by
  decide!

/-! ## The loop over the sorted keys -/

theorem take_succ_set (a : TokenListToken) : ∀ (l : List TokenListToken) (i : Nat),
    i < l.length → (l.set i a).take (i + 1) = l.take i ++ [a] := by
  intro l
  induction l with
  | nil => intro i hi; simp at hi
  | cons b l ih =>
    intro i hi
    cases i with
    | zero => simp
    | succ i =>
      simp only [List.set_cons_succ, List.take_succ_cons, List.cons_append, List.cons.injEq,
        true_and]
      exact ih i (by simpa using hi)

theorem sortedLoop_eq (h : Helpers) (next : TokenMap) (keys : List GoString) :
    ∀ (i : Nat) (Tokens : List TokenListToken) (shards : ShardMap),
    (∀ k ∈ keys, isExcluded h ((next.lookup k).getD TokenListToken.zero) = false) →
    Tokens.length = i + keys.length →
    sortedLoop h next keys i Tokens shards
      = (Tokens.take i ++ keys.map (fun k => (next.lookup k).getD TokenListToken.zero),
         (keys.map (fun k => (ParseUint (k.takeWhile (fun c => c ≠ 95)),
            (next.lookup k).getD TokenListToken.zero))).foldl shardStep shards) := by
  induction keys with
  | nil =>
    intro i Tokens shards _ hlen
    simp only [List.length_nil, Nat.add_zero] at hlen
    simp [sortedLoop, ← hlen]
  | cons k keys ih =>
    intro i Tokens shards hex hlen
    have hk := hex k (List.mem_cons_self _ _)
    have hlen2 : (Tokens.set i ((next.lookup k).getD TokenListToken.zero)).length
        = (i + 1) + keys.length := by
      rw [List.length_set, hlen, List.length_cons]; omega
    have hi : i < Tokens.length := by rw [hlen, List.length_cons]; omega
    simp only [sortedLoop, hk, Bool.false_eq_true, if_false]
    rw [ih (i + 1) _ _ (fun k' hk' => hex k' (List.mem_cons_of_mem _ hk')) hlen2,
      take_succ_set _ _ _ hi]
    simp [shardStep]

/-! ## Grouping by chain -/

theorem push_of_not_mem (shards : ShardMap) (c : Nat) (t : TokenListToken)
    (hc : c ∉ shards.map Prod.fst) : shards.push c t = shards := by
  induction shards with
  | nil => rfl
  | cons s shards ih =>
    simp only [List.map_cons, List.mem_cons, not_or] at hc
    have hne : ¬ (s.1 = c) := fun hh => hc.1 hh.symm
    simp only [ShardMap.push, List.map_cons, hne, if_false, List.cons.injEq, true_and]
    exact ih hc.2

theorem ensure_of_mem (shards : ShardMap) (c : Nat) (hc : c ∈ shards.map Prod.fst) :
    shards.ensure c = shards := by
  have : shards.any (fun e => decide (e.1 = c)) = true := by
    rw [List.any_eq_true]
    obtain ⟨s, hs, rfl⟩ := List.mem_map.mp hc
    exact ⟨s, hs, by simp⟩
  simp [ShardMap.ensure, this]

theorem ensure_of_not_mem (shards : ShardMap) (c : Nat) (hc : c ∉ shards.map Prod.fst) :
    shards.ensure c = shards ++ [(c, [])] := by
  have : ¬ (shards.any (fun e => decide (e.1 = c)) = true) := by
    rw [List.any_eq_true]
    rintro ⟨s, hs, hsc⟩
    exact hc (List.mem_map.mpr ⟨s, hs, by simpa using hsc⟩)
  simp [ShardMap.ensure, this]

theorem push_append (a b : ShardMap) (c : Nat) (t : TokenListToken) :
    ShardMap.push (a ++ b) c t = ShardMap.push a c t ++ ShardMap.push b c t := by
  simp [ShardMap.push]

theorem grouped_step (shards : ShardMap) (done : List (Nat × TokenListToken))
    (p : Nat × TokenListToken) (hg : Grouped shards done)
    (hmax : ∀ c ∈ done.map Prod.fst, c ≤ p.1) :
    Grouped (shardStep shards p) (done ++ [p]) := by
  obtain ⟨c, t⟩ := p
  obtain ⟨hflat, hsorted, hcontent, hkeys⟩ := hg
  by_cases hc : c ∈ shards.map Prod.fst
  · -- the chain has a shard, which is the last one
    obtain ⟨s, hs, hsc⟩ := List.mem_map.mp hc
    obtain ⟨A, B, hAB⟩ := List.append_of_mem hs
    have hB : B = [] := by
      cases B with
      | nil => rfl
      | cons b B =>
        exfalso
        rw [hAB, List.map_append, List.map_cons, List.map_cons, List.pairwise_append] at hsorted
        have h1 : s.1 < b.1 := (List.pairwise_cons.mp hsorted.2.1).1 b.1 (List.mem_cons_self _ _)
        have h2 : b.1 ≤ c := hmax b.1 ((hkeys b.1).mp (by
          rw [hAB]; simp))
        omega
    subst hB
    have hA : c ∉ A.map Prod.fst := by
      intro hcA
      rw [hAB, List.map_append, List.pairwise_append] at hsorted
      have := hsorted.2.2 c hcA s.1 (by simp)
      omega
    have hstep : shardStep shards (c, t) = A ++ [(c, s.2 ++ [t])] := by
      simp only [shardStep, ensure_of_mem shards c hc]
      rw [hAB, push_append, push_of_not_mem A c t hA]
      simp [ShardMap.push, hsc]
    have hs2 : s = (c, s.2) := by
      rw [← hsc]
    refine ⟨?_, ?_, ?_, ?_⟩
    · rw [hstep, List.map_append, ← hflat, hAB]
      simp
    · rw [hstep]
      rw [hAB] at hsorted
      rw [hs2] at hsorted
      simpa using hsorted
    · intro s' hs'
      rw [hstep] at hs'
      rcases List.mem_append.mp hs' with hs' | hs'
      · have hne : ¬ (c = s'.1) := fun hh => hA (hh ▸ List.mem_map_of_mem Prod.fst hs')
        rw [hcontent s' (by rw [hAB]; exact List.mem_append_left _ hs')]
        simp [List.filter_append, hne]
      · rw [List.mem_singleton] at hs'
        subst hs'
        have := hcontent s hs
        rw [hsc] at this
        simp [List.filter_append, this]
    · intro c'
      rw [hstep]
      have := hkeys c'
      rw [hAB] at this
      simp only [List.map_append, List.map_cons, List.map_nil, List.mem_append,
        List.mem_singleton] at this ⊢
      rw [hsc] at this
      exact ⟨fun hh => Or.inl (this.mp hh), fun hh => by
        rcases hh with hh | hh
        · exact this.mpr hh
        · exact Or.inr hh⟩
  · -- a new chain, above all the others
    have hcd : c ∉ done.map Prod.fst := fun hh => hc ((hkeys c).mpr hh)
    have hstep : shardStep shards (c, t) = shards ++ [(c, [t])] := by
      simp only [shardStep, ensure_of_not_mem shards c hc]
      rw [push_append, push_of_not_mem shards c t hc]
      simp [ShardMap.push]
    refine ⟨?_, ?_, ?_, ?_⟩
    · rw [hstep, List.map_append, ← hflat]
      simp
    · rw [hstep, List.map_append, List.pairwise_append]
      refine ⟨hsorted, by simp, ?_⟩
      intro a ha b hb
      simp only [List.map_cons, List.map_nil, List.mem_singleton] at hb
      rw [hb]
      have h1 : a ≤ c := hmax a ((hkeys a).mp ha)
      have h2 : a ≠ c := fun hh => hc (hh ▸ ha)
      omega
    · intro s' hs'
      rw [hstep] at hs'
      rcases List.mem_append.mp hs' with hs' | hs'
      · have hne : ¬ (c = s'.1) := fun hh => hc (hh ▸ List.mem_map_of_mem Prod.fst hs')
        rw [hcontent s' hs']
        simp [List.filter_append, hne]
      · rw [List.mem_singleton] at hs'
        subst hs'
        have hnil : done.filter (fun p => decide (p.1 = c)) = [] := by
          rw [List.filter_eq_nil_iff]
          intro p hp hpc
          exact hcd (List.mem_map.mpr ⟨p, hp, by simpa using hpc⟩)
        simp [List.filter_append, hnil]
    · intro c'
      rw [hstep]
      simp only [List.map_append, List.map_cons, List.map_nil, List.mem_append,
        List.mem_singleton]
      rw [hkeys c']

theorem grouped_foldl (todo : List (Nat × TokenListToken)) :
    ∀ (shards : ShardMap) (done : List (Nat × TokenListToken)), Grouped shards done →
    ((done ++ todo).map Prod.fst).Pairwise (· ≤ ·) →
    Grouped (todo.foldl shardStep shards) (done ++ todo) := by
  induction todo with
  | nil => intro shards done hg _; simpa using hg
  | cons p todo ih =>
    intro shards done hg hsorted
    have hmax : ∀ c ∈ done.map Prod.fst, c ≤ p.1 := by
      intro c hc
      rw [List.map_append, List.pairwise_append] at hsorted
      exact hsorted.2.2 c hc p.1 (by simp)
    have := ih (shardStep shards p) (done ++ [p]) (grouped_step shards done p hg hmax)
      (by simpa using hsorted)
    simpa using this

theorem grouped_nil : Grouped [] [] := by
  refine ⟨rfl, List.Pairwise.nil, ?_, ?_⟩
  · intro s hs; cases hs
  · intro c; simp

/-! ## Reading the chain ID back from a key -/

theorem foldl_decimal_mono (ds : GoString) : ∀ n : Nat,
    n ≤ ds.foldl (fun v c => 10 * v + (c - 48)) n := by
  induction ds with
  | nil => intro n; exact le_refl _
  | cons c ds ih =>
    intro n
    simp only [List.foldl_cons]
    exact le_trans (by omega) (ih _)

theorem parseUintLoop_eq (ds : GoString) : ∀ n : Nat,
    (∀ c ∈ ds, 48 ≤ c ∧ c ≤ 57) →
    ds.foldl (fun v c => 10 * v + (c - 48)) n < 10 ^ 18 →
    parseUintLoop ds n = ds.foldl (fun v c => 10 * v + (c - 48)) n := by
  induction ds with
  | nil => intro n _ _; rfl
  | cons c ds ih =>
    intro n hd hlt
    have hc := hd c (List.mem_cons_self _ _)
    simp only [List.foldl_cons] at hlt ⊢
    have hmono := foldl_decimal_mono ds (10 * n + (c - 48))
    have hbound : 10 * n + (c - 48) < 10 ^ 18 := lt_of_le_of_lt hmono hlt
    have e18 : (10 : Nat) ^ 18 = 1000000000000000000 := by norm_num
    have e64 : (2 : Nat) ^ 64 - 1 = 18446744073709551615 := by norm_num
    rw [e18] at hbound
    have h1 : ¬ (n ≥ (2 ^ 64 - 1) / 10 + 1) := by rw [e64]; omega
    have h2 : ¬ (n * 10 + (c - 48) > 2 ^ 64 - 1) := by rw [e64]; omega
    have h3 : n * 10 + (c - 48) = 10 * n + (c - 48) := by omega
    rw [parseUintLoop, if_pos hc, if_neg h1, if_neg h2, h3]
    exact ih _ (fun x hx => hd x (List.mem_cons_of_mem _ hx)) hlt

theorem ParseUint_decimalDigits (c : Nat) (hc : c < 10 ^ 18) :
    ParseUint (decimalDigits 18 c) = c := by
  have hval := decimalValue_decimalDigits 18 c hc
  have hne : decimalDigits 18 c ≠ [] := by
    intro hnil
    have := length_decimalDigits 18 c
    rw [hnil] at this
    cases this
  rw [ParseUint, if_neg hne, parseUintLoop_eq _ 0 (decimalDigits_isDigit 18 c)]
  · exact hval
  · have : (decimalDigits 18 c).foldl (fun v c => 10 * v + (c - 48)) 0 = c := hval
    rw [this]; exact hc

theorem getKey_some_lt (c : Nat) (a : Address) (k : GoString) (hk : getKey c a = some k) :
    c < 10 ^ 18 := by
  by_contra hcon
  rw [getKey_none c a (by omega)] at hk
  cases hk

theorem chain_of_key (c : Nat) (a : Address) (k : GoString) (hk : getKey c a = some k) :
    ParseUint (k.takeWhile (fun b => b ≠ 95)) = c := by
  have hc := getKey_some_lt c a k hk
  rw [getKey_eq c a hc] at hk
  have hk2 := Option.some.inj hk
  rw [← hk2, takeWhile_digits_append _ _ (decimalDigits_isDigit 18 c)]
  exact ParseUint_decimalDigits c hc

theorem chain_le_of_key_le (c1 c2 : Nat) (a1 a2 : Address) (k1 k2 : GoString)
    (h1 : getKey c1 a1 = some k1) (h2 : getKey c2 a2 = some k2) (hle : k1 ≤ k2) : c1 ≤ c2 := by
  by_contra hcon
  have hc1 := getKey_some_lt c1 a1 k1 h1
  have hc2 := getKey_some_lt c2 a2 k2 h2
  rw [getKey_eq c1 a1 hc1] at h1
  rw [getKey_eq c2 a2 hc2] at h2
  have e1 := Option.some.inj h1
  have e2 := Option.some.inj h2
  have hlt : k2 < k1 := by
    rw [← e1, ← e2, List.append_assoc, List.append_assoc]
    exact lt_append_of_lt_of_length_eq _ _
      (by rw [length_decimalDigits, length_decimalDigits])
      ((decimalDigits_lt_iff 18 c2 c1 hc2 hc1).mpr (by omega))
  exact absurd hlt (not_lt.mpr hle)

/-! ## The files -/

theorem writeShards_files (rt : GoRuntime) (h : Helpers) (filePath : GoString)
    (shards : ShardMap) : ∀ (tokenList : TokenListData) (files : List (GoString × TokenListData)),
    (∀ s ∈ shards, h.IsChainIDSupported s.1 = true) →
    (writeShards rt h filePath shards tokenList files).err = none →
    (writeShards rt h filePath shards tokenList files).files
      = files ++ shards.map (fun s =>
          (rt.basePath ++ str "/lists/" ++ FormatUint s.1 ++ str "/" ++ filePath,
            { tokenList with Tokens := s.2 })) := by
  induction shards with
  | nil => intro tokenList files _ _; simp [writeShards]
  | cons s shards ih =>
    intro tokenList files hsup herr
    obtain ⟨chainID, tokens⟩ := s
    have hs : h.IsChainIDSupported chainID = true := hsup (chainID, tokens) (List.mem_cons_self _ _)
    have hsup2 : ∀ s ∈ shards, h.IsChainIDSupported s.1 = true :=
      fun s hs => hsup s (List.mem_cons_of_mem _ hs)
    simp only [writeShards, hs, Bool.not_true, Bool.false_eq_true, if_false] at herr ⊢
    rcases hcf : rt.CreateFile (rt.basePath ++ str "/lists/" ++ FormatUint chainID) with _ | e
    · simp only [hcf] at herr ⊢
      rcases hwf : rt.WriteFile
          (rt.basePath ++ str "/lists/" ++ FormatUint chainID ++ str "/" ++ filePath)
          { tokenList with Tokens := tokens } with _ | e
      · simp only [hwf] at herr ⊢
        rw [ih _ _ hsup2 herr]
        simp
      · simp only [hwf] at herr
        cases herr
    · simp only [hcf] at herr
      cases herr

theorem save_bump_eq (rt : GoRuntime) (h : Helpers) (tokenList : TokenListData)
    (tokens : List TokenListToken) (filePath : GoString) (method : JSONSaveTokensMethods)
    (next : TokenMap) (st : DiffState)
    (hbuild : buildNextTokensMap rt h tokenList tokens method = some next)
    (hne : next.len ≠ 0)
    (hrun : diffLoop (rt.rangeNext next) ⟨tokenList.PreviousTokensMap, false, false, []⟩
      = some st)
    (hb : ¬ ((!decide (st.previous.len > 0) && !st.shouldBumpMinor
      && !st.shouldBumpPatch) = true)) :
    saveTokenListInJsonFile rt h tokenList tokens filePath method
      = some (match rt.WriteFile (rt.basePath ++ str "/lists/" ++ filePath)
          (writtenDataset rt h tokenList next st).1 with
        | some err => ⟨some err, (writtenDataset rt h tokenList next st).1, []⟩
        | none => writeShards rt h filePath
            (rt.rangeShards (writtenDataset rt h tokenList next st).2)
            (writtenDataset rt h tokenList next st).1
            [(rt.basePath ++ str "/lists/" ++ filePath,
              (writtenDataset rt h tokenList next st).1)]) := by
  simp only [saveTokenListInJsonFile, hbuild, if_neg hne, hrun, if_neg hb, writtenDataset]
  generalize rt.WriteFile _ _ = w
  cases w <;> rfl

theorem filter_map_chain (P : List (Nat × TokenListToken))
    (hP : ∀ p ∈ P, p.1 = p.2.ChainID) (c : Nat) :
    (P.filter (fun p => p.1 = c)).map Prod.snd
      = (P.map Prod.snd).filter (fun t => t.ChainID = c) := by
  induction P with
  | nil => rfl
  | cons p P ih =>
    have hp := hP p (List.mem_cons_self _ _)
    have ih2 := ih (fun q hq => hP q (List.mem_cons_of_mem _ hq))
    by_cases hc : p.1 = c
    · have hc2 : p.2.ChainID = c := by rw [← hp]; exact hc
      simp [List.filter_cons, hc, hc2, ih2]
    · have hc2 : ¬ (p.2.ChainID = c) := by rw [← hp]; exact hc
      simp [List.filter_cons, hc, hc2, ih2]

/-- What the sorted keys of a keyed next map are. -/
theorem sortedKeys_spec (rt : GoRuntime) (next : TokenMap) (hkey : next.Keyed) :
    (∀ k ∈ sortStrings ((rt.rangeNext next).map Prod.fst),
      ∃ t, next.lookup k = some t ∧ (k, t) ∈ next.entries ∧
        getKey t.ChainID (HexToAddress t.Address) = some k ∧
        ParseUint (k.takeWhile (fun c => c ≠ 95)) = t.ChainID) ∧
    ((sortStrings ((rt.rangeNext next).map Prod.fst)).map
      (fun k => ParseUint (k.takeWhile (fun c => c ≠ 95)))).Pairwise (· ≤ ·) ∧
    (sortStrings ((rt.rangeNext next).map Prod.fst)).length = (rt.rangeNext next).length ∧
    (∀ k, k ∈ sortStrings ((rt.rangeNext next).map Prod.fst) ↔ next.lookup k ≠ none) := by
  have hperm := rt.rangeNext_perm next
  have hmemk : ∀ k, k ∈ sortStrings ((rt.rangeNext next).map Prod.fst)
      ↔ k ∈ next.entries.map Prod.fst := by
    intro k
    rw [sortStrings, List.mem_insertionSort]
    exact (hperm.map Prod.fst).mem_iff
  have hrec : ∀ k ∈ sortStrings ((rt.rangeNext next).map Prod.fst),
      ∃ t, next.lookup k = some t ∧ (k, t) ∈ next.entries ∧
        getKey t.ChainID (HexToAddress t.Address) = some k ∧
        ParseUint (k.takeWhile (fun c => c ≠ 95)) = t.ChainID := by
    intro k hk
    obtain ⟨e, he, hek⟩ := List.mem_map.mp ((hmemk k).mp hk)
    obtain ⟨k0, t⟩ := e
    simp only at hek
    subst hek
    have hg := hkey (k0, t) he
    exact ⟨t, (next.mem_iff_lookup k0 t).mp he, he, hg, chain_of_key _ _ _ hg⟩
  refine ⟨hrec, ?_, ?_, ?_⟩
  · rw [List.pairwise_map]
    have hsorted : (sortStrings ((rt.rangeNext next).map Prod.fst)).Pairwise (· ≤ ·) :=
      List.sorted_insertionSort (fun a b : GoString => a ≤ b) _
    refine List.Pairwise.imp_of_mem ?_ hsorted
    intro a b ha hb hab
    obtain ⟨ta, _, _, hga, hca⟩ := hrec a ha
    obtain ⟨tb, _, _, hgb, hcb⟩ := hrec b hb
    rw [hca, hcb]
    exact chain_le_of_key_le _ _ _ _ _ _ hga hgb hab
  · rw [sortStrings, List.length_insertionSort, List.length_map]
  · intro k
    rw [hmemk k, Ne, TokenMap.lookup_eq_none_iff, not_not]

/-- The unified list and the shards of a keyed next map without an excluded record. -/
theorem writtenDataset_spec (rt : GoRuntime) (h : Helpers) (tokenList : TokenListData)
    (next : TokenMap) (st : DiffState) (hkey : next.Keyed)
    (hvalid : ∀ e ∈ next.entries, isExcluded h e.2 = false)
    (hlen : st.Tokens.length = (rt.rangeNext next).length) :
    (writtenDataset rt h tokenList next st).1.Tokens
      = (sortStrings ((rt.rangeNext next).map Prod.fst)).map
          (fun k => (next.lookup k).getD TokenListToken.zero) ∧
    (writtenDataset rt h tokenList next st).1.Tokens
      = (writtenDataset rt h tokenList next st).2.flatMap Prod.snd ∧
    ((writtenDataset rt h tokenList next st).2.map Prod.fst).Pairwise (· < ·) ∧
    (∀ s ∈ (writtenDataset rt h tokenList next st).2,
      s.2 = (writtenDataset rt h tokenList next st).1.Tokens.filter
        (fun t => t.ChainID = s.1)) ∧
    (∀ c, c ∈ (writtenDataset rt h tokenList next st).2.map Prod.fst ↔
      ∃ t ∈ (writtenDataset rt h tokenList next st).1.Tokens, t.ChainID = c) := by
  obtain ⟨hrec, hchains, hklen, _⟩ := sortedKeys_spec rt next hkey
  have hex : ∀ k ∈ sortStrings ((rt.rangeNext next).map Prod.fst),
      isExcluded h ((next.lookup k).getD TokenListToken.zero) = false := by
    intro k hk
    obtain ⟨t, hl, he, _, _⟩ := hrec k hk
    rw [hl]
    exact hvalid (k, t) he
  have hloop := sortedLoop_eq h next (sortStrings ((rt.rangeNext next).map Prod.fst)) 0
    st.Tokens [] hex (by rw [hlen, hklen]; omega)
  have hpairs : ∀ p ∈ (sortStrings ((rt.rangeNext next).map Prod.fst)).map
      (fun k => (ParseUint (k.takeWhile (fun c => c ≠ 95)),
        (next.lookup k).getD TokenListToken.zero)), p.1 = p.2.ChainID := by
    intro p hp
    obtain ⟨k, hk, rfl⟩ := List.mem_map.mp hp
    obtain ⟨t, hl, _, _, hc⟩ := hrec k hk
    simp only [hl, Option.getD_some]
    exact hc
  have hg := grouped_foldl
    ((sortStrings ((rt.rangeNext next).map Prod.fst)).map
      (fun k => (ParseUint (k.takeWhile (fun c => c ≠ 95)),
        (next.lookup k).getD TokenListToken.zero))) [] [] grouped_nil
    (by simpa [List.map_map, Function.comp_def] using hchains)
  simp only [List.nil_append] at hg
  obtain ⟨hflat, hsorted, hcontent, hkeys⟩ := hg
  have hT : (writtenDataset rt h tokenList next st).1.Tokens
      = (sortStrings ((rt.rangeNext next).map Prod.fst)).map
          (fun k => (next.lookup k).getD TokenListToken.zero) := by
    simp only [writtenDataset, hloop, List.take_zero, List.nil_append]
  have hS : (writtenDataset rt h tokenList next st).2
      = ((sortStrings ((rt.rangeNext next).map Prod.fst)).map
          (fun k => (ParseUint (k.takeWhile (fun c => c ≠ 95)),
            (next.lookup k).getD TokenListToken.zero))).foldl shardStep [] := by
    simp only [writtenDataset, hloop]
  have hPT : ((sortStrings ((rt.rangeNext next).map Prod.fst)).map
      (fun k => (ParseUint (k.takeWhile (fun c => c ≠ 95)),
        (next.lookup k).getD TokenListToken.zero))).map Prod.snd
      = (writtenDataset rt h tokenList next st).1.Tokens := by
    rw [hT, List.map_map]; rfl
  refine ⟨hT, ?_, ?_, ?_, ?_⟩
  · rw [hS, hflat, hPT]
  · rw [hS]; exact hsorted
  · intro s hs
    rw [hS] at hs
    rw [hcontent s hs, filter_map_chain _ hpairs, hPT]
  · intro c
    rw [hS, hkeys c, ← hPT]
    constructor
    · intro hc
      obtain ⟨p, hp, hpc⟩ := List.mem_map.mp hc
      exact ⟨p.2, List.mem_map_of_mem Prod.snd hp, by rw [← hpairs p hp]; exact hpc⟩
    · rintro ⟨t, ht, htc⟩
      obtain ⟨p, hp, hpt⟩ := List.mem_map.mp ht
      exact List.mem_map.mpr ⟨p, hp, by rw [hpairs p hp, hpt]; exact htc⟩

/-- Counterexample to C12: the caller put Ajna marked with chain ID 10 into the next map
under the key of chain 1. The save succeeds and is not neutral, the key belongs to the
supported chain 1, and the file of chain 1 holds the record of chain 10, for which no file
of its own chain is written. -/
theorem save_shard_of_other_chain :
    (saveTokenListInJsonFile GoRuntime.listOrder Helpers.sample
        (sampleDataset TokenMap.empty (TokenMap.empty.store sampleAjnaKey sampleAjnaOn10))
        [] (str "sample.json") Standard).map
        (fun r => (r.err, r.files.map (fun f => (f.1, f.2.Tokens))))
      = some (none, [(str "./lists/sample.json", [sampleAjnaOn10]),
          (str "./lists/1/sample.json", [sampleAjnaOn10])]) ∧
    sampleAjnaOn10.ChainID = 10 ∧
    Helpers.sample.IsChainIDSupported 1 = true ∧
    Helpers.sample.IsChainIDSupported 10 = true ∧
    isExcluded Helpers.sample sampleAjnaOn10 = false := by
  decide!

/-- C12 as amended: after a successful save that is not neutral, of a next map that is
keyed by `getKey` of each record's own chain ID and address and holds only records of
supported chains that pass the exclusion test, the files are the unified file followed by
one file per shard; the unified `tokens[]` is the concatenation of the shards in ascending
chain-ID order, each shard holds exactly the unified records of its own chain ID, and
every chain of a unified record has a shard. -/
theorem save_shards_partition (rt : GoRuntime) (h : Helpers) (tokenList : TokenListData)
    (tokens : List TokenListToken) (filePath : GoString) (method : JSONSaveTokensMethods)
    (next : TokenMap) (r : SaveResult)
    (hbuild : buildNextTokensMap rt h tokenList tokens method = some next)
    (hkey : next.Keyed)
    (hvalid : ∀ e ∈ next.entries, isExcluded h e.2 = false)
    (hsup : ∀ e ∈ next.entries, h.IsChainIDSupported e.2.ChainID = true)
    (hsave : saveTokenListInJsonFile rt h tokenList tokens filePath method = some r)
    (herr : r.err = none) (hfiles : r.files ≠ []) :
    ∃ (unified : TokenListData) (shards : ShardMap),
      r.files = (rt.basePath ++ str "/lists/" ++ filePath, unified) ::
        (rt.rangeShards shards).map (fun s =>
          (rt.basePath ++ str "/lists/" ++ FormatUint s.1 ++ str "/" ++ filePath,
            { unified with Tokens := s.2 })) ∧
      unified.Tokens = shards.flatMap Prod.snd ∧
      (shards.map Prod.fst).Pairwise (· < ·) ∧
      (∀ s ∈ shards, s.2 = unified.Tokens.filter (fun t => t.ChainID = s.1)) ∧
      (∀ t ∈ unified.Tokens, t.ChainID ∈ shards.map Prod.fst) := by
  have hperm := rt.rangeNext_perm next
  have hne : next.len ≠ 0 := by
    intro h0
    simp only [saveTokenListInJsonFile, hbuild, if_pos h0] at hsave
    cases hsave
    exact hfiles rfl
  obtain ⟨st, hrun, _, _, _, htok⟩ := diffLoop_spec (rt.rangeNext next)
    ⟨tokenList.PreviousTokensMap, false, false, []⟩
    (fun e he => hkey e (hperm.mem_iff.mp he))
    ((hperm.map Prod.fst).nodup_iff.mpr next.nodup)
  have hlen : st.Tokens.length = (rt.rangeNext next).length := by
    rw [htok]; simp
  by_cases hb : (!decide (st.previous.len > 0) && !st.shouldBumpMinor
      && !st.shouldBumpPatch) = true
  · simp only [saveTokenListInJsonFile, hbuild, if_neg hne, hrun, if_pos hb] at hsave
    cases hsave
    exact absurd rfl hfiles
  · rw [save_bump_eq rt h tokenList tokens filePath method next st hbuild hne hrun hb] at hsave
    obtain ⟨hT, hflat, hsorted, hcontent, hchains⟩ :=
      writtenDataset_spec rt h tokenList next st hkey hvalid hlen
    obtain ⟨hrec, _, _, _⟩ := sortedKeys_spec rt next hkey
    have hsupS : ∀ s ∈ rt.rangeShards (writtenDataset rt h tokenList next st).2,
        h.IsChainIDSupported s.1 = true := by
      intro s hs
      have hs2 := (rt.rangeShards_perm _).mem_iff.mp hs
      obtain ⟨t, ht, htc⟩ := (hchains s.1).mp (List.mem_map_of_mem Prod.fst hs2)
      rw [hT] at ht
      obtain ⟨k, hk, hkt⟩ := List.mem_map.mp ht
      obtain ⟨t', hl, he, _, _⟩ := hrec k hk
      rw [hl] at hkt
      simp only [Option.getD_some] at hkt
      rw [← htc, ← hkt]
      exact hsup (k, t') he
    rcases hw : rt.WriteFile (rt.basePath ++ str "/lists/" ++ filePath)
        (writtenDataset rt h tokenList next st).1 with _ | e
    · rw [hw] at hsave
      have hr := Option.some.inj hsave
      rw [← hr] at herr ⊢
      refine ⟨(writtenDataset rt h tokenList next st).1,
        (writtenDataset rt h tokenList next st).2, ?_, hflat, hsorted, hcontent, ?_⟩
      · rw [writeShards_files rt h filePath _ _ _ hsupS herr]
        rfl
      · intro t ht
        exact (hchains t.ChainID).mpr ⟨t, ht, rfl⟩
    · rw [hw] at hsave
      have hr := Option.some.inj hsave
      rw [← hr] at hfiles
      exact absurd rfl hfiles

/-- Witness of C12 as amended: BTRFLY, a token of chain 10 and Ajna saved over nothing. -/
theorem save_shards_partition_witness :
    ∃ (r : SaveResult) (unified : TokenListData) (shards : ShardMap),
      saveTokenListInJsonFile GoRuntime.listOrder Helpers.sample
        (sampleDataset TokenMap.empty TokenMap.empty) [sampleBtrfly, sampleOp, sampleAjna]
        (str "sample.json") Standard = some r ∧
      r.files = (GoRuntime.listOrder.basePath ++ str "/lists/" ++ str "sample.json", unified) ::
        (GoRuntime.listOrder.rangeShards shards).map (fun s =>
          (GoRuntime.listOrder.basePath ++ str "/lists/" ++ FormatUint s.1 ++ str "/"
            ++ str "sample.json", { unified with Tokens := s.2 })) ∧
      unified.Tokens = shards.flatMap Prod.snd ∧
      (shards.map Prod.fst).Pairwise (· < ·) ∧
      (∀ s ∈ shards, s.2 = unified.Tokens.filter (fun t => t.ChainID = s.1)) ∧
      (∀ t ∈ unified.Tokens, t.ChainID ∈ shards.map Prod.fst) := by
  have hs : (saveTokenListInJsonFile GoRuntime.listOrder Helpers.sample
      (sampleDataset TokenMap.empty TokenMap.empty) [sampleBtrfly, sampleOp, sampleAjna]
      (str "sample.json") Standard).map (fun r => (r.err, r.files.length))
      = some (none, 3) := by decide!
  obtain ⟨r, hr⟩ : ∃ r, saveTokenListInJsonFile GoRuntime.listOrder Helpers.sample
      (sampleDataset TokenMap.empty TokenMap.empty) [sampleBtrfly, sampleOp, sampleAjna]
      (str "sample.json") Standard = some r := by
    cases hr0 : saveTokenListInJsonFile GoRuntime.listOrder Helpers.sample
      (sampleDataset TokenMap.empty TokenMap.empty) [sampleBtrfly, sampleOp, sampleAjna]
      (str "sample.json") Standard with
    | none => rw [hr0] at hs; cases hs
    | some r => exact ⟨r, rfl⟩
  rw [hr] at hs
  have hs2 := Option.some.inj hs
  have herr : r.err = none := (Prod.mk.inj hs2).1
  have hfiles : r.files ≠ [] := by
    intro hnil
    have := (Prod.mk.inj hs2).2
    rw [hnil] at this
    cases this
  obtain ⟨unified, shards, hh⟩ := save_shards_partition GoRuntime.listOrder Helpers.sample
    (sampleDataset TokenMap.empty TokenMap.empty) [sampleBtrfly, sampleOp, sampleAjna]
    (str "sample.json") Standard
    (((TokenMap.empty.store sampleBtrflyKey sampleBtrfly).store
      (str "000000000000000010_0x4200000000000000000000000000000000000042") sampleOp).store
      sampleAjnaKey sampleAjna) r
    (by decide!) (by decide!) (by decide!) (by decide!) hr herr hfiles
  exact ⟨r, unified, shards, hr, hh⟩

/-! ## `HexToAddress` after `Hex` -/

theorem fromHexChar_cased (n : Nat) (hn : n < 16) (p : Prop) [Decidable p] :
    fromHexChar (if hexDigit n > 57 ∧ p then hexDigit n - 32 else hexDigit n)
      = some ⟨n, hn⟩ := by
  unfold hexDigit
  by_cases h10 : n < 10
  · have hcond : ¬ ((if n < 10 then 48 + n else 87 + n) > 57 ∧ p) := by
      rw [if_pos h10]; intro hc; omega
    rw [if_neg hcond, if_pos h10]
    have h1 : 48 ≤ 48 + n ∧ 48 + n ≤ 57 := by omega
    simp only [fromHexChar, h1, and_self, dite_true, Option.some.injEq]
    exact Fin.ext (by simp)
  · by_cases hp : p
    · have hcond : (if n < 10 then 48 + n else 87 + n) > 57 ∧ p := by
        rw [if_neg h10]; exact ⟨by omega, hp⟩
      rw [if_pos hcond, if_neg h10]
      have h1 : ¬ (48 ≤ 87 + n - 32 ∧ 87 + n - 32 ≤ 57) := by omega
      have h2 : ¬ (97 ≤ 87 + n - 32 ∧ 87 + n - 32 ≤ 102) := by omega
      have h3 : 65 ≤ 87 + n - 32 ∧ 87 + n - 32 ≤ 70 := by omega
      simp only [fromHexChar, h1, h2, h3, dite_false, and_self, dite_true, Option.some.injEq]
      exact Fin.ext (by simp; omega)
    · have hcond : ¬ ((if n < 10 then 48 + n else 87 + n) > 57 ∧ p) := fun hc => hp hc.2
      rw [if_neg hcond, if_neg h10]
      have h1 : ¬ (48 ≤ 87 + n ∧ 87 + n ≤ 57) := by omega
      have h2 : 97 ≤ 87 + n ∧ 87 + n ≤ 102 := by omega
      simp only [fromHexChar, h1, h2, dite_false, and_self, dite_true, Option.some.injEq]
      exact Fin.ext (by simp)

theorem Hex2Bytes_checksumLoop (hash : List Nat) (bytes : List (Fin 256)) : ∀ i : Nat,
    Hex2Bytes (checksumLoop hash i
      (bytes.flatMap (fun b => [hexDigit (b.val / 16), hexDigit (b.val % 16)]))) = bytes := by
  induction bytes with
  | nil => intro i; rfl
  | cons b bytes ih =>
    intro i
    have hb := b.isLt
    simp only [List.flatMap_cons, List.cons_append, List.nil_append, checksumLoop]
    rw [Hex2Bytes, fromHexChar_cased (b.val / 16) (by omega),
      fromHexChar_cased (b.val % 16) (by omega)]
    simp only [List.cons.injEq]
    exact ⟨Fin.ext (by simp; omega), ih _⟩

theorem length_checksumLoop (hash : List Nat) (ds : GoString) : ∀ i : Nat,
    (checksumLoop hash i ds).length = ds.length := by
  induction ds with
  | nil => intro i; rfl
  | cons c ds ih => intro i; simp [checksumLoop, ih]

theorem HexToAddress_Hex (a : Address) : HexToAddress a.Hex = a := by
  have hlen : (checksumLoop (Keccak256 a.hexDigits) 2 a.hexDigits).length = 40 := by
    rw [length_checksumLoop, Address.length_hexDigits]
  have hfrom : FromHex a.Hex = a.bytes := by
    rw [Address.Hex_eq, str_0x]
    have hpre : has0xPrefix (48 :: 120 :: checksumLoop (Keccak256 a.hexDigits) 2 a.hexDigits)
        = true := by
      simp [has0xPrefix]
    simp only [FromHex, List.cons_append, List.nil_append, hpre, if_true, List.drop_succ_cons,
      List.drop_zero, hlen]
    exact Hex2Bytes_checksumLoop _ a.bytes 2
  apply Address.ext_bytes
  simp only [HexToAddress, BytesToAddress, hfrom]
  have hcrop : cropLeft a.bytes = a.bytes := by
    simp [cropLeft, a.size]
  rw [hcrop, a.size]
  simp

/-! ## The entries that validation writes -/

theorem goodEntry_of_SetToken (h : Helpers) (t newToken : TokenListToken) (key : GoString)
    (hset : SetToken h (HexToAddress t.Address) t.Name t.Symbol t.LogoURI t.ChainID t.Decimals
      = .ok newToken)
    (hk : getKey t.ChainID (HexToAddress t.Address) = some key) :
    GoodEntry h (key, newToken) := by
  obtain ⟨h1, h2, h3, h4, h5, h6, h7, h8⟩ := SetToken_ok_fields h _ _ _ _ _ _ _ hset
  have haddr : HexToAddress newToken.Address = HexToAddress t.Address := by
    rw [h2, HexToAddress_Hex]
  refine ⟨by simp only [h1, haddr]; exact hk, by rw [h1]; exact h8, ?_⟩
  simp only [isExcluded, h4, h5, h3, h6, h1, haddr, h7, false_or, Bool.false_eq_true,
    or_self, decide_False]

theorem addCandidates_good (h : Helpers) (l : List TokenListToken) :
    ∀ (next m : TokenMap), (∀ e ∈ next.entries, GoodEntry h e) →
    addCandidates h l next = some m → ∀ e ∈ m.entries, GoodEntry h e := by
  induction l with
  | nil =>
    intro next m hn hm
    simp only [addCandidates, Option.some.injEq] at hm
    rw [← hm]; exact hn
  | cons t l ih =>
    intro next m hn hm
    by_cases hs : h.IsChainIDSupported t.ChainID = true
    · rcases hset : SetToken h (HexToAddress t.Address) t.Name t.Symbol t.LogoURI t.ChainID
          t.Decimals with e | newToken
      · simp only [addCandidates, hs, hset, Bool.not_true, Bool.false_eq_true, if_false] at hm
        exact ih next m hn hm
      · rcases hk : getKey t.ChainID (HexToAddress t.Address) with _ | key
        · simp [addCandidates, hs, hset, hk] at hm
        · simp only [addCandidates, hs, hset, hk, Bool.not_true, Bool.false_eq_true,
            if_false] at hm
          refine ih (next.store key newToken) m ?_ hm
          intro e he
          rcases TokenMap.mem_store _ _ _ _ he with rfl | he
          · exact goodEntry_of_SetToken h t newToken key hset hk
          · exact hn e he
    · simp only [addCandidates, hs, Bool.not_false, if_true] at hm
      exact ih next m hn hm

/-! ## Reloading a written file -/

theorem TokenMap.lookup_store (m : TokenMap) (k k' : GoString) (v : TokenListToken) :
    (m.store k v).lookup k' = if k' = k then some v else m.lookup k' := by
  have hdel := TokenMap.lookup_delete m k k'
  simp only [TokenMap.lookup, TokenMap.store, TokenMap.delete] at hdel ⊢
  by_cases hk : k' = k
  · subst hk
    simp
  · have hk2 : ¬ (k = k') := fun hh => hk hh.symm
    rw [List.find?_cons_of_neg _ (by simpa using hk2), hdel, if_neg hk, if_neg hk]

theorem TokenMap.eq_empty_of_len (m : TokenMap) (hm : m.len = 0) : m = TokenMap.empty := by
  obtain ⟨entries, nodup⟩ := m
  have : entries = [] := List.length_eq_zero.mp hm
  subst this
  rfl

theorem loadPrevious_spec (h : Helpers) (next : TokenMap) (ks : List GoString) :
    ∀ m0 : TokenMap,
    (∀ k ∈ ks, ∃ t, next.lookup k = some t ∧ h.IsChainIDSupported t.ChainID = true ∧
      getKey t.ChainID (HexToAddress t.Address) = some k) →
    ∃ m, loadPrevious h (ks.map (fun k => (next.lookup k).getD TokenListToken.zero)) m0
        = some m ∧
      ∀ k', m.lookup k' = if k' ∈ ks then next.lookup k' else m0.lookup k' := by
  induction ks with
  | nil => intro m0 _; exact ⟨m0, rfl, fun k' => by simp⟩
  | cons k ks ih =>
    intro m0 hks
    obtain ⟨t, hl, hs, hg⟩ := hks k (List.mem_cons_self _ _)
    obtain ⟨m, hm, hlook⟩ := ih (m0.store k t) (fun k' hk' => hks k' (List.mem_cons_of_mem _ hk'))
    refine ⟨m, ?_, ?_⟩
    · simp only [List.map_cons, hl, Option.getD_some, loadPrevious, hs, Bool.not_true,
        Bool.false_eq_true, if_false, hg]
      exact hm
    · intro k'
      rw [hlook k', TokenMap.lookup_store]
      by_cases h1 : k' ∈ ks
      · simp [h1]
      · by_cases h2 : k' = k
        · subst h2; simp [h1, hl]
        · simp [h1, h2]

theorem writeShards_files_prefix (rt : GoRuntime) (h : Helpers) (filePath : GoString)
    (shards : ShardMap) : ∀ (tokenList : TokenListData) (files : List (GoString × TokenListData)),
    ∃ more, (writeShards rt h filePath shards tokenList files).files = files ++ more := by
  induction shards with
  | nil => intro tokenList files; exact ⟨[], by simp [writeShards]⟩
  | cons s shards ih =>
    intro tokenList files
    obtain ⟨chainID, tokens⟩ := s
    simp only [writeShards]
    split
    · exact ih _ _
    · split
      · exact ⟨[], by simp⟩
      · split
        · exact ⟨[], by simp⟩
        · obtain ⟨more, hmore⟩ := ih { tokenList with Tokens := tokens }
            (files ++ [(rt.basePath ++ str "/lists/" ++ FormatUint chainID ++ str "/" ++ filePath,
              { tokenList with Tokens := tokens })])
          exact ⟨[(rt.basePath ++ str "/lists/" ++ FormatUint chainID ++ str "/" ++ filePath,
              { tokenList with Tokens := tokens })] ++ more, by rw [hmore, List.append_assoc]⟩

/-- Counterexample to C20: the only candidate is Ajna with the one-byte name `FF`. The
first Standard save over an empty dataset writes the unified file at version 3.5.0; the
file read back holds the name `EF BF BD`, into which JSON coerces the invalid byte; saving
the same candidate again finds the record modified, bumps the patch version and writes
both files again. -/
theorem save_not_idempotent_on_invalid_utf8 :
    (saveTokenListInJsonFile GoRuntime.listOrder Helpers.sample
        (sampleDataset TokenMap.empty TokenMap.empty) [sampleBadName] (str "sample.json")
        Standard).map (fun r => (r.err, r.tokenList.Version, r.files.map Prod.fst))
      = some (none, ⟨3, 5, 0⟩, [str "./lists/sample.json", str "./lists/1/sample.json"]) ∧
    ((saveTokenListInJsonFile GoRuntime.listOrder Helpers.sample
        (sampleDataset TokenMap.empty TokenMap.empty) [sampleBadName] (str "sample.json")
        Standard).bind (fun r1 => r1.files.head?.bind (fun f =>
          (loadTokenListFromJsonFile Helpers.sample
            (sampleDataset TokenMap.empty TokenMap.empty) (some f.2)).bind (fun reloaded =>
              saveTokenListInJsonFile GoRuntime.listOrder Helpers.sample reloaded
                [sampleBadName] (str "sample.json") Standard)))).map
        (fun r => (r.err, r.tokenList.Version, r.files.map Prod.fst))
      = some (none, ⟨3, 5, 1⟩, [str "./lists/sample.json", str "./lists/1/sample.json"]) ∧
    jsonString [0xFF] = [0xEF, 0xBF, 0xBD] := by
  decide!

/-- C20 as amended: take a dataset with an empty next map, as `loadTokenListFromJsonFile`
returns it, and a candidate list for which a Standard save writes a unified file whose
records hold only valid UTF-8 strings (JSON keeps them). Then loading that file succeeds,
and saving the same candidates again, under any iteration order and file system, returns
`nil`, writes nothing and leaves the version of the file. -/
theorem save_idempotent (rt rt2 : GoRuntime) (h : Helpers) (InitTokenList : TokenListData)
    (tokenList : TokenListData) (tokens : List TokenListToken) (filePath : GoString)
    (r1 : SaveResult) (path : GoString) (file : TokenListData)
    (rest : List (GoString × TokenListData))
    (hempty : tokenList.NextTokensMap.len = 0)
    (hsave : saveTokenListInJsonFile rt h tokenList tokens filePath Standard = some r1)
    (hfile : r1.files = (path, file) :: rest)
    (hutf8 : ∀ t ∈ file.Tokens, jsonToken t = t) :
    ∃ reloaded r2, loadTokenListFromJsonFile h InitTokenList (some file) = some reloaded ∧
      saveTokenListInJsonFile rt2 h reloaded tokens filePath Standard = some r2 ∧
      r2.err = none ∧ r2.files = [] ∧ r2.tokenList.Version = file.Version := by
  have hstd : ¬ (Standard = Append) := by decide
  have hnext0 : tokenList.NextTokensMap = TokenMap.empty :=
    TokenMap.eq_empty_of_len _ hempty
  have hbuild_eq : buildNextTokensMap rt h tokenList tokens Standard
      = addCandidates h (dedupeTokens tokens []) TokenMap.empty := by
    simp only [buildNextTokensMap, if_neg hstd, hnext0]
  rcases hadd : addCandidates h (dedupeTokens tokens []) TokenMap.empty with _ | next
  · rw [hadd] at hbuild_eq
    simp only [saveTokenListInJsonFile, hbuild_eq] at hsave
    cases hsave
  rw [hadd] at hbuild_eq
  have hgood : ∀ e ∈ next.entries, GoodEntry h e :=
    addCandidates_good h _ TokenMap.empty next (fun e he => by cases he) hadd
  have hkey : next.Keyed := fun e he => (hgood e he).1
  have hne : next.len ≠ 0 := by
    intro h0
    simp only [saveTokenListInJsonFile, hbuild_eq, if_pos h0] at hsave
    cases hsave
    cases hfile
  have hperm := rt.rangeNext_perm next
  obtain ⟨st, hrun, _, _, _, htok⟩ := diffLoop_spec (rt.rangeNext next)
    ⟨tokenList.PreviousTokensMap, false, false, []⟩
    (fun e he => hkey e (hperm.mem_iff.mp he))
    ((hperm.map Prod.fst).nodup_iff.mpr next.nodup)
  have hlen : st.Tokens.length = (rt.rangeNext next).length := by
    rw [htok]; simp
  have hb : ¬ ((!decide (st.previous.len > 0) && !st.shouldBumpMinor
      && !st.shouldBumpPatch) = true) := by
    intro hb
    simp only [saveTokenListInJsonFile, hbuild_eq, if_neg hne, hrun, if_pos hb] at hsave
    cases hsave
    cases hfile
  rw [save_bump_eq rt h tokenList tokens filePath Standard next st hbuild_eq hne hrun hb]
    at hsave
  -- the file is the unified dataset
  have hfileeq : file = (writtenDataset rt h tokenList next st).1 := by
    rcases hw : rt.WriteFile (rt.basePath ++ str "/lists/" ++ filePath)
        (writtenDataset rt h tokenList next st).1 with _ | e
    · rw [hw] at hsave
      have hr := Option.some.inj hsave
      subst hr
      obtain ⟨more, hmore⟩ := writeShards_files_prefix rt h filePath
        (rt.rangeShards (writtenDataset rt h tokenList next st).2)
        (writtenDataset rt h tokenList next st).1
        [(rt.basePath ++ str "/lists/" ++ filePath, (writtenDataset rt h tokenList next st).1)]
      have h2 : [(rt.basePath ++ str "/lists/" ++ filePath,
          (writtenDataset rt h tokenList next st).1)] ++ more = (path, file) :: rest :=
        hmore.symm.trans hfile
      simp only [List.singleton_append, List.cons.injEq, Prod.mk.injEq] at h2
      exact h2.1.2.symm
    · rw [hw] at hsave
      have hr := Option.some.inj hsave
      subst hr
      cases hfile
  obtain ⟨hT, _, _, _, _⟩ := writtenDataset_spec rt h tokenList next st hkey
    (fun e he => (hgood e he).2.2) hlen
  obtain ⟨hrec, _, _, hmemk⟩ := sortedKeys_spec rt next hkey
  have hTokens : (jsonDataset file).Tokens
      = (sortStrings ((rt.rangeNext next).map Prod.fst)).map
          (fun k => (next.lookup k).getD TokenListToken.zero) := by
    have : (jsonDataset file).Tokens = file.Tokens.map jsonToken := rfl
    rw [this, List.map_congr_left hutf8, List.map_id', hfileeq, hT]
  -- the previous map of the reloaded dataset is the next map
  obtain ⟨previous, hload, hlook⟩ := loadPrevious_spec h next
    (sortStrings ((rt.rangeNext next).map Prod.fst)) TokenMap.empty
    (by
      intro k hk
      obtain ⟨t, hl, he, hg, _⟩ := hrec k hk
      exact ⟨t, hl, (hgood (k, t) he).2.1, hg⟩)
  have hprev : ∀ k, previous.lookup k = next.lookup k := by
    intro k
    rw [hlook k]
    by_cases hk : k ∈ sortStrings ((rt.rangeNext next).map Prod.fst)
    · rw [if_pos hk]
    · rw [if_neg hk]
      have : next.lookup k = none := by
        by_contra hcon
        exact hk ((hmemk k).mpr hcon)
      rw [this]; rfl
  have hreload : loadTokenListFromJsonFile h InitTokenList (some file)
      = some { jsonDataset file with
          PreviousTokensMap := previous, NextTokensMap := TokenMap.empty } := by
    simp only [loadTokenListFromJsonFile, hTokens, hload]
  have hbuild2 : buildNextTokensMap rt2 h { jsonDataset file with
      PreviousTokensMap := previous, NextTokensMap := TokenMap.empty } tokens Standard
      = some next := by
    simp only [buildNextTokensMap, if_neg hstd]
    exact hadd
  obtain ⟨r2, major, minor, patch, hr2, hmajor, hminor, hpatch, hv, hquiet⟩ :=
    save_of_keyed rt2 h { jsonDataset file with
      PreviousTokensMap := previous, NextTokensMap := TokenMap.empty } tokens filePath
      Standard next hbuild2 hne hkey
  have hma : major = false := by
    apply Bool.eq_false_iff.mpr
    intro hc
    obtain ⟨k, hk1, hk2⟩ := hmajor.mp hc
    exact hk1 ((hprev k).trans hk2)
  have hmi : minor = false := by
    apply Bool.eq_false_iff.mpr
    intro hc
    obtain ⟨k, t, hk1, hk2⟩ := hminor.mp hc
    rw [← hprev k] at hk1
    rw [hk1] at hk2
    cases hk2
  have hpa : patch = false := by
    apply Bool.eq_false_iff.mpr
    intro hc
    obtain ⟨k, t, p, hk1, hk2, hk3⟩ := hpatch.mp hc
    rw [← hprev k] at hk1
    rw [hk1] at hk2
    exact hk3 (Option.some.inj hk2)
  obtain ⟨herr, hfiles⟩ := hquiet hma hmi hpa
  refine ⟨_, r2, hreload, hr2, herr, hfiles, ?_⟩
  rw [hv, hma, hmi, hpa]
  rfl

/-- Witness of C20 as amended: Ajna and BTRFLY saved over an empty dataset, then again over
the unified file just written. -/
theorem save_idempotent_witness :
    ∃ r1 path file rest,
      saveTokenListInJsonFile GoRuntime.listOrder Helpers.sample
        (sampleDataset TokenMap.empty TokenMap.empty) [sampleAjna, sampleBtrfly]
        (str "sample.json") Standard = some r1 ∧
      r1.files = (path, file) :: rest ∧ file.Tokens = [sampleAjna, sampleBtrfly] ∧
      ∃ reloaded r2, loadTokenListFromJsonFile Helpers.sample
          (sampleDataset TokenMap.empty TokenMap.empty) (some file) = some reloaded ∧
        saveTokenListInJsonFile GoRuntime.listOrder Helpers.sample reloaded
          [sampleAjna, sampleBtrfly] (str "sample.json") Standard = some r2 ∧
        r2.err = none ∧ r2.files = [] ∧ r2.tokenList.Version = file.Version := by
  have hs : (saveTokenListInJsonFile GoRuntime.listOrder Helpers.sample
      (sampleDataset TokenMap.empty TokenMap.empty) [sampleAjna, sampleBtrfly]
      (str "sample.json") Standard).map (fun r => r.files.map (fun f => f.2.Tokens))
      = some [[sampleAjna, sampleBtrfly], [sampleAjna, sampleBtrfly]] := by decide!
  cases hr : saveTokenListInJsonFile GoRuntime.listOrder Helpers.sample
      (sampleDataset TokenMap.empty TokenMap.empty) [sampleAjna, sampleBtrfly]
      (str "sample.json") Standard with
  | none => rw [hr] at hs; cases hs
  | some r1 =>
    rw [hr] at hs
    have hfiles : r1.files.map (fun f => f.2.Tokens)
        = [[sampleAjna, sampleBtrfly], [sampleAjna, sampleBtrfly]] := Option.some.inj hs
    cases hf : r1.files with
    | nil => rw [hf] at hfiles; cases hfiles
    | cons f rest =>
      rw [hf] at hfiles
      have htok : f.2.Tokens = [sampleAjna, sampleBtrfly] := (List.cons.inj hfiles).1
      refine ⟨r1, f.1, f.2, rest, rfl, hf, htok, ?_⟩
      exact save_idempotent GoRuntime.listOrder GoRuntime.listOrder Helpers.sample
        (sampleDataset TokenMap.empty TokenMap.empty)
        (sampleDataset TokenMap.empty TokenMap.empty) [sampleAjna, sampleBtrfly]
        (str "sample.json") r1 f.1 f.2 rest (by decide) hr hf
        (by rw [htok]; decide)

theorem alGet_alSet {κ β : Type} [DecidableEq κ] (k k2 : κ) (v : β) (l : List (κ × β)) :
    alGet k2 (alSet k v l) = if k2 = k then some v else alGet k2 l := by
  induction l with
  | nil =>
    by_cases h : k2 = k
    · simp [alSet, alGet, h]
    · have h2 : ¬ k = k2 := fun hh => h hh.symm
      simp [alSet, alGet, h, h2]
  | cons e l ih =>
    by_cases he : e.1 = k
    · by_cases h : k2 = k
      · simp [alSet, alGet, he, h]
      · have h2 : ¬ k = k2 := fun hh => h hh.symm
        simp [alSet, alGet, he, h, h2]
    · by_cases h : k2 = k
      · have h3 : ¬ e.1 = k2 := by rw [h]; exact he
        simp only [alSet, if_neg he, alGet, if_neg h3, ih, if_pos h]
      · simp only [alSet, if_neg he, alGet, ih, if_neg h]

theorem alGet_mem {κ β : Type} [DecidableEq κ] (k : κ) (v : β) (l : List (κ × β))
    (h : alGet k l = some v) : (k, v) ∈ l := by
  induction l with
  | nil => cases h
  | cons e l ih =>
    by_cases he : e.1 = k
    · simp only [alGet, if_pos he] at h
      have : e = (k, v) := by
        cases e
        simp only [Prod.mk.injEq]
        exact ⟨he, Option.some.inj h⟩
      rw [this]; exact List.mem_cons_self _ _
    · simp only [alGet, if_neg he] at h
      exact List.mem_cons_of_mem _ (ih h)

theorem mergeToken_unsupported (ch : Chains) (name : GoString) (st : PopularState)
    (t : TokenListToken) (hs : ch.IsChainIDSupported t.ChainID = false) :
    mergeToken ch name st t = st := by
  simp [mergeToken, hs]

theorem mergeToken_allTokens (ch : Chains) (name : GoString) (st : PopularState)
    (t : TokenListToken) (hs : ch.IsChainIDSupported t.ChainID = true)
    (key : Nat × GoString) :
    alGet key (mergeToken ch name st t).allTokens
      = if key = (t.ChainID, ToAddress t.Address)
        then mergeInto (tokenInitialOccurence ch) (alGet key st.allTokens) t
        else alGet key st.allTokens := by
  simp only [mergeToken, hs, Bool.not_true, Bool.false_eq_true, if_false]
  cases hg : alGet (t.ChainID, ToAddress t.Address) st.allTokens with
  | none =>
    simp only [alGet_alSet]
    by_cases hk : key = (t.ChainID, ToAddress t.Address)
    · rw [if_pos hk, if_pos hk, hk, hg]; rfl
    · rw [if_neg hk, if_neg hk]
  | some e =>
    simp only [alGet_alSet]
    by_cases hk : key = (t.ChainID, ToAddress t.Address)
    · rw [if_pos hk, if_pos hk, hk, hg]; rfl
    · rw [if_neg hk, if_neg hk]

theorem mergeToken_listsPerChain (ch : Chains) (name : GoString) (st : PopularState)
    (t : TokenListToken) (hs : ch.IsChainIDSupported t.ChainID = true) :
    (mergeToken ch name st t).listsPerChain
      = alSet t.ChainID
          (if name ∈ (alGet t.ChainID st.listsPerChain).getD []
            then (alGet t.ChainID st.listsPerChain).getD []
            else (alGet t.ChainID st.listsPerChain).getD [] ++ [name]) st.listsPerChain := by
  simp only [mergeToken, hs, Bool.not_true, Bool.false_eq_true, if_false, Includes]
  by_cases hn : name ∈ (alGet t.ChainID st.listsPerChain).getD []
  · cases hg : alGet (t.ChainID, ToAddress t.Address) st.allTokens <;> simp [hn]
  · cases hg : alGet (t.ChainID, ToAddress t.Address) st.allTokens <;> simp [hn]

theorem foldl_mergeToken_allTokens (ch : Chains) (cs : List (GoString × TokenListToken))
    (hs : ∀ p ∈ cs, ch.IsChainIDSupported p.2.ChainID = true) (st : PopularState)
    (key : Nat × GoString) :
    alGet key (cs.foldl (fun st p => mergeToken ch p.1 st p.2) st).allTokens
      = ((cs.map Prod.snd).filter
          (fun t => decide ((t.ChainID, ToAddress t.Address) = key))).foldl
          (mergeInto (tokenInitialOccurence ch)) (alGet key st.allTokens) := by
  induction cs generalizing st with
  | nil => rfl
  | cons p cs ih =>
    have hp := hs p (List.mem_cons_self _ _)
    rw [List.foldl_cons, ih (fun q hq => hs q (List.mem_cons_of_mem _ hq)),
      mergeToken_allTokens ch p.1 st p.2 hp key, List.map_cons, List.filter_cons]
    by_cases hk : key = (p.2.ChainID, ToAddress p.2.Address)
    · have hd : decide ((p.2.ChainID, ToAddress p.2.Address) = key) = true :=
        decide_eq_true hk.symm
      rw [if_pos hk, hd, if_pos rfl, List.foldl_cons]
    · have hd : ¬ (decide ((p.2.ChainID, ToAddress p.2.Address) = key) = true) := by
        intro hh; exact hk (of_decide_eq_true hh).symm
      rw [if_neg hk, if_neg hd]

theorem foldl_loadAllTokensStep (cs : List TokenListToken)
    (all : List ((Nat × GoString) × TokenListToken)) (key : Nat × GoString) :
    alGet key (cs.foldl loadAllTokensStep all)
      = (cs.filter (fun t => decide ((t.ChainID, ToAddress t.Address) = key))).foldl
          (mergeInto (fun _ => 1)) (alGet key all) := by
  induction cs generalizing all with
  | nil => rfl
  | cons t cs ih =>
    rw [List.foldl_cons, ih, List.filter_cons]
    have hstep : alGet key (loadAllTokensStep all t)
        = if key = (t.ChainID, ToAddress t.Address)
          then mergeInto (fun _ => 1) (alGet key all) t else alGet key all := by
      simp only [loadAllTokensStep]
      cases hg : alGet (t.ChainID, ToAddress t.Address) all with
      | none =>
        simp only [alGet_alSet]
        by_cases hk : key = (t.ChainID, ToAddress t.Address)
        · rw [if_pos hk, if_pos hk, hk, hg]; rfl
        · rw [if_neg hk, if_neg hk]
      | some e =>
        simp only [alGet_alSet]
        by_cases hk : key = (t.ChainID, ToAddress t.Address)
        · rw [if_pos hk, if_pos hk, hk, hg]; rfl
        · rw [if_neg hk, if_neg hk]
    rw [hstep]
    by_cases hk : key = (t.ChainID, ToAddress t.Address)
    · have hd : decide ((t.ChainID, ToAddress t.Address) = key) = true :=
        decide_eq_true hk.symm
      rw [if_pos hk, hd, if_pos rfl, List.foldl_cons]
    · have hd : ¬ (decide ((t.ChainID, ToAddress t.Address) = key) = true) := by
        intro hh; exact hk (of_decide_eq_true hh).symm
      rw [if_neg hk, if_neg hd]

theorem foldl_mergeToken_unfiltered (ch : Chains) (cs : List (GoString × TokenListToken))
    (st : PopularState) :
    (cs.filter (fun p => ch.IsChainIDSupported p.2.ChainID)).foldl
        (fun st p => mergeToken ch p.1 st p.2) st
      = cs.foldl (fun st p => mergeToken ch p.1 st p.2) st := by
  induction cs generalizing st with
  | nil => rfl
  | cons p cs ih =>
    rw [List.filter_cons]
    cases hp : ch.IsChainIDSupported p.2.ChainID with
    | true => rw [if_pos rfl, List.foldl_cons, List.foldl_cons, ih]
    | false =>
      rw [if_neg (by simp), List.foldl_cons, mergeToken_unsupported ch p.1 st p.2 hp, ih]

theorem mergeCandidates_cons (ch : Chains) (g : Generator) (gs : List Generator) :
    mergeCandidates ch (g :: gs)
      = (if (!decide (g.name = str "tokenlistooor") && !g.isPool) = true
          then (g.Tokens.map (fun t => (g.name, t))).filter
            (fun p => ch.IsChainIDSupported p.2.ChainID)
          else []) ++ mergeCandidates ch gs := by
  unfold mergeCandidates
  rw [List.filter_cons]
  by_cases hc : (!decide (g.name = str "tokenlistooor") && !g.isPool) = true
  · rw [if_pos hc, if_pos hc, List.flatMap_cons, List.filter_append]
  · rw [if_neg hc, if_neg hc]; rfl

theorem mergeGenerators_eq_foldl (ch : Chains) (gs : List Generator) (st : PopularState) :
    gs.foldl (mergeGenerator ch) st
      = (mergeCandidates ch gs).foldl (fun st p => mergeToken ch p.1 st p.2) st := by
  induction gs generalizing st with
  | nil => rfl
  | cons g gs ih =>
    rw [List.foldl_cons, ih, mergeCandidates_cons, List.foldl_append]
    congr 1
    unfold mergeGenerator
    by_cases hn : g.name = str "tokenlistooor"
    · simp [hn]
    · cases hp : g.isPool with
      | true => simp [hn]
      | false =>
        simp only [hn, if_false, decide_False, Bool.not_false, Bool.and_self, if_true,
          Bool.false_eq_true]
        rw [foldl_mergeToken_unfiltered, List.foldl_map]

theorem mergeCandidates_supported (ch : Chains) (gs : List Generator) :
    ∀ p ∈ mergeCandidates ch gs, ch.IsChainIDSupported p.2.ChainID = true := by
  intro p hp
  unfold mergeCandidates at hp
  exact (List.mem_filter.mp hp).2

theorem mergeGenerators_allTokens (ch : Chains) (gs : List Generator)
    (key : Nat × GoString) :
    alGet key (mergeGenerators ch gs).allTokens
      = (sameKey ch key gs).foldl (mergeInto (tokenInitialOccurence ch)) none := by
  unfold mergeGenerators sameKey
  rw [mergeGenerators_eq_foldl,
    foldl_mergeToken_allTokens ch _ (mergeCandidates_supported ch gs)]
  rfl

theorem loadAllTokens_eq (gs : List Generator)
    (all : List ((Nat × GoString) × TokenListToken)) :
    gs.foldl (fun allTokens g => g.Tokens.foldl loadAllTokensStep allTokens) all
      = (gs.flatMap (fun g => g.Tokens)).foldl loadAllTokensStep all := by
  induction gs generalizing all with
  | nil => rfl
  | cons g gs ih => rw [List.foldl_cons, ih, List.flatMap_cons, List.foldl_append]

theorem loadAllTokens_get (gs : List Generator) (key : Nat × GoString) :
    alGet key (loadAllTokens gs)
      = (sameKeyAll key gs).foldl (mergeInto (fun _ => 1)) none := by
  unfold loadAllTokens sameKeyAll
  rw [loadAllTokens_eq, foldl_loadAllTokensStep]
  rfl

theorem firstNonEmpty_singleton (v : GoString) : firstNonEmpty [v] = v := by
  by_cases hv : v = []
  · simp [firstNonEmpty, hv]
  · simp [firstNonEmpty, hv]

theorem firstNonEmpty_SafeString (a b : GoString) (l : List GoString) :
    firstNonEmpty (SafeString a b :: l) = firstNonEmpty (a :: b :: l) := by
  unfold SafeString
  by_cases ha : a = []
  · simp [firstNonEmpty, ha]
  · simp [firstNonEmpty, ha]

theorem foldl_mergeInto_some (seed : TokenListToken → Int) (l : List TokenListToken)
    (e : TokenListToken) :
    ∃ m, l.foldl (mergeInto seed) (some e) = some m ∧ m.Address = e.Address ∧
      m.Name = firstNonEmpty (e.Name :: l.map (fun t => t.Name)) ∧
      m.Symbol = firstNonEmpty (e.Symbol :: l.map (fun t => t.Symbol)) ∧
      m.LogoURI = firstNonEmpty (e.LogoURI :: l.map (fun t => t.LogoURI)) ∧
      (e.Decimals ≠ 0 → m.Decimals = e.Decimals) ∧
      m.Occurrence = e.Occurrence + l.length := by
  induction l generalizing e with
  | nil =>
    exact ⟨e, rfl, rfl, (firstNonEmpty_singleton _).symm, (firstNonEmpty_singleton _).symm,
      (firstNonEmpty_singleton _).symm, fun _ => rfl, by simp⟩
  | cons t l ih =>
    obtain ⟨m, hm, ha, hn, hsy, hl, hd, ho⟩ := ih (mergeExisting e t)
    refine ⟨m, hm, ha, ?_, ?_, ?_, ?_, ?_⟩
    · rw [hn]; exact firstNonEmpty_SafeString _ _ _
    · rw [hsy]; exact firstNonEmpty_SafeString _ _ _
    · rw [hl]; exact firstNonEmpty_SafeString _ _ _
    · intro hne
      have : (mergeExisting e t).Decimals = e.Decimals := by
        simp [mergeExisting, SafeInt, hne]
      rw [hd (by rw [this]; exact hne), this]
    · rw [ho]
      simp only [mergeExisting, List.length_cons, Nat.cast_add, Nat.cast_one]
      ring

theorem foldl_mergeInto_none (seed : TokenListToken → Int) (t0 : TokenListToken)
    (rest : List TokenListToken) :
    ∃ m, (t0 :: rest).foldl (mergeInto seed) none = some m ∧
      m.Address = ToAddress t0.Address ∧
      m.Name = firstNonEmpty ((t0 :: rest).map (fun t => t.Name)) ∧
      m.Symbol = firstNonEmpty ((t0 :: rest).map (fun t => t.Symbol)) ∧
      m.LogoURI = firstNonEmpty ((t0 :: rest).map (fun t => t.LogoURI)) ∧
      m.Decimals = (if t0.Decimals = 0 then 18 else t0.Decimals) ∧
      m.Occurrence = seed t0 + rest.length := by
  obtain ⟨m, hm, ha, hn, hsy, hl, hd, ho⟩ :=
    foldl_mergeInto_some seed rest (mergeFresh t0 (seed t0))
  have hs : ∀ v : GoString, SafeString v [] = v := by
    intro v; unfold SafeString; by_cases hv : v = [] <;> simp [hv]
  refine ⟨m, hm, ha, ?_, ?_, ?_, ?_, ho⟩
  · rw [hn]; simp only [mergeFresh, hs, List.map_cons]
  · rw [hsy]; simp only [mergeFresh, hs, List.map_cons]
  · rw [hl]; simp only [mergeFresh, hs, List.map_cons]
  · have h18 : (mergeFresh t0 (seed t0)).Decimals = if t0.Decimals = 0 then 18 else t0.Decimals :=
      rfl
    rw [hd (by rw [h18]; split <;> simp_all), h18]

theorem tokenInitialOccurence_congr (ch : Chains) (t t2 : TokenListToken)
    (h : (t.ChainID, ToAddress t.Address) = (t2.ChainID, ToAddress t2.Address)) :
    tokenInitialOccurence ch t = tokenInitialOccurence ch t2 := by
  have hc : t.ChainID = t2.ChainID := (Prod.mk.inj h).1
  have ha : HexToAddress t.Address = HexToAddress t2.Address :=
    Address.Hex_injective _ _ (Prod.mk.inj h).2
  unfold tokenInitialOccurence
  rw [hc, ha]

theorem foldl_extra (a : Address) (l : List Address) (init : Int) :
    l.foldl (fun occurrence extraToken => if a = extraToken then 10 else occurrence) init
      = if a ∈ l then 10 else init := by
  induction l generalizing init with
  | nil => simp
  | cons x l ih =>
    rw [List.foldl_cons, ih]
    by_cases hx : a = x
    · by_cases hl : a ∈ l
      · simp [hx, hl]
      · simp [hx]
    · by_cases hl : a ∈ l
      · simp [hx, hl]
      · simp [hx, hl]

theorem tokenInitialOccurence_extra (ch : Chains) (t : TokenListToken)
    (h : HexToAddress t.Address
      ∈ ((alGet t.ChainID ch.CHAINS).map (fun c => c.ExtraTokens)).getD []) :
    tokenInitialOccurence ch t = 10 := by
  unfold tokenInitialOccurence
  rw [foldl_extra, if_pos h]

theorem mergeToken_lists_step (ch : Chains) (name : GoString) (st : PopularState)
    (t : TokenListToken) (hs : ch.IsChainIDSupported t.ChainID = true) (c : Nat) :
    ((alGet c (mergeToken ch name st t).listsPerChain).isSome = true
      ↔ (alGet c st.listsPerChain).isSome = true ∨ t.ChainID = c) ∧
    (∀ n, n ∈ (alGet c (mergeToken ch name st t).listsPerChain).getD []
      ↔ n ∈ (alGet c st.listsPerChain).getD [] ∨ (name = n ∧ t.ChainID = c)) ∧
    (((alGet c st.listsPerChain).getD []).Nodup
      → ((alGet c (mergeToken ch name st t).listsPerChain).getD []).Nodup) := by
  rw [mergeToken_listsPerChain ch name st t hs, alGet_alSet]
  by_cases hc : c = t.ChainID
  · subst hc
    rw [if_pos rfl]
    refine ⟨by simp, ?_, ?_⟩
    · intro n
      by_cases hn : name ∈ (alGet t.ChainID st.listsPerChain).getD []
      · rw [if_pos hn]
        simp only [Option.getD_some, and_true]
        constructor
        · exact Or.inl
        · rintro (h | h)
          · exact h
          · rw [← h]; exact hn
      · rw [if_neg hn]
        simp only [Option.getD_some, and_true, List.mem_append, List.mem_singleton]
        constructor
        · rintro (h | h)
          · exact Or.inl h
          · exact Or.inr h.symm
        · rintro (h | h)
          · exact Or.inl h
          · exact Or.inr h.symm
    · intro hnd
      by_cases hn : name ∈ (alGet t.ChainID st.listsPerChain).getD []
      · rw [if_pos hn]; exact hnd
      · rw [if_neg hn]
        simp only [Option.getD_some]
        exact List.Nodup.append hnd (List.nodup_singleton _)
          (by
            intro x hx hx2
            rw [List.mem_singleton] at hx2
            rw [hx2] at hx
            exact hn hx)
  · have hc2 : ¬ t.ChainID = c := fun hh => hc hh.symm
    rw [if_neg hc]
    refine ⟨by simp [hc2], ?_, fun hnd => hnd⟩
    intro n
    simp [hc2]

theorem foldl_mergeToken_lists (ch : Chains) (cs : List (GoString × TokenListToken))
    (hs : ∀ p ∈ cs, ch.IsChainIDSupported p.2.ChainID = true) (st : PopularState) (c : Nat) :
    ((alGet c (cs.foldl (fun st p => mergeToken ch p.1 st p.2) st).listsPerChain).isSome = true
      ↔ (alGet c st.listsPerChain).isSome = true ∨ ∃ p ∈ cs, p.2.ChainID = c) ∧
    (∀ n, n ∈ (alGet c (cs.foldl (fun st p => mergeToken ch p.1 st p.2)
          st).listsPerChain).getD []
      ↔ n ∈ (alGet c st.listsPerChain).getD [] ∨ ∃ p ∈ cs, p.1 = n ∧ p.2.ChainID = c) ∧
    (((alGet c st.listsPerChain).getD []).Nodup
      → ((alGet c (cs.foldl (fun st p => mergeToken ch p.1 st p.2)
          st).listsPerChain).getD []).Nodup) := by
  induction cs generalizing st with
  | nil => simp
  | cons p cs ih =>
    obtain ⟨h1, h2, h3⟩ := ih (fun q hq => hs q (List.mem_cons_of_mem _ hq))
      (mergeToken ch p.1 st p.2)
    obtain ⟨s1, s2, s3⟩ := mergeToken_lists_step ch p.1 st p.2
      (hs p (List.mem_cons_self _ _)) c
    rw [List.foldl_cons]
    refine ⟨?_, ?_, fun hnd => h3 (s3 hnd)⟩
    · rw [h1, s1, or_assoc]
      simp only [List.mem_cons, exists_eq_or_imp]
    · intro n
      rw [h2 n, s2 n, or_assoc]
      simp only [List.mem_cons, exists_eq_or_imp]

theorem mergeCandidates_perm (ch : Chains) (gs gs2 : List Generator) (hp : gs.Perm gs2) :
    (mergeCandidates ch gs).Perm (mergeCandidates ch gs2) := by
  unfold mergeCandidates
  exact ((hp.filter _).flatMap_right _).filter _

theorem occurrence_foldl_mergeInto (seed : TokenListToken → Int) (l : List TokenListToken) :
    (l.foldl (mergeInto seed) none).map (fun t => t.Occurrence)
      = match l with
        | [] => none
        | t0 :: rest => some (seed t0 + rest.length) := by
  cases l with
  | nil => rfl
  | cons t0 rest =>
    obtain ⟨m, hm, _, _, _, _, _, ho⟩ := foldl_mergeInto_none seed t0 rest
    rw [hm, Option.map_some', ho]

theorem float64Shift_small (n : Nat) (h : n < 2 ^ 53) : float64Shift n n = 0 := by
  cases n with
  | zero => rfl
  | succ k => simp only [float64Shift, if_pos h]

theorem float64OfNat_exact (n : Nat) (h : n ≤ 2 ^ 53) : float64OfNat n = n := by
  rcases Nat.lt_or_eq_of_le h with hlt | heq
  · unfold float64OfNat
    rw [float64Shift_small n hlt]
    simp [Nat.mod_one]
  · rw [heq]
    decide!

theorem quorum_exact (n : Nat) (h : n ≤ 2 ^ 53) : quorum n = ((n + 1) / 2 : Nat) := by
  unfold quorum
  rw [float64OfNat_exact n h]

/-- Counterexample to C14: of twenty-one lists of chain 1, one holds Ajna, an extra token of
`ETHEREUM`, and twenty hold Dai. Ajna gets occurrence 10, the quorum is 11, and the selected
list holds the two coins and Dai but not Ajna. -/
theorem extra_token_below_quorum :
    (alGet (1, sampleAjna.Address) (mergeGenerators Chains.sample sampleSources).allTokens).map
        (fun t => t.Occurrence) = some 10 ∧
    (alGet 1 (mergeGenerators Chains.sample sampleSources).listsPerChain).map List.length
      = some 21 ∧
    quorum 21 = 11 ∧
    (allTokensPlain Chains.sample sampleSources
        (mergeGenerators Chains.sample sampleSources).allTokens).map
        (fun t => (t.ChainID, t.Symbol, t.Occurrence))
      = [(1, str "ETH", 0), (1, str "ETH", 0), (1, str "DAI", 20)] := by
  decide!

/-- C14 as amended: when at most 20 lists contribute to the chain, a token whose address is
among the extra tokens of its chain and which at least one contributing list holds is merged
with occurrence 10 plus the number of further candidates, passes the test of line 99 and is
in `allTokensPlain`, whatever the order in which `allTokens` is visited. -/
theorem extra_token_selected (ch : Chains) (generators : List Generator)
    (key : Nat × GoString) (t0 : TokenListToken) (rest : List TokenListToken)
    (order : List ((Nat × GoString) × TokenListToken))
    (hsame : sameKey ch key generators = t0 :: rest)
    (hextra : HexToAddress t0.Address
      ∈ ((alGet t0.ChainID ch.CHAINS).map (fun c => c.ExtraTokens)).getD [])
    (hcount : ((alGet key.1 (mergeGenerators ch generators).listsPerChain).getD []).length ≤ 20)
    (horder : order.Perm (mergeGenerators ch generators).allTokens) :
    ∃ m, alGet key (mergeGenerators ch generators).allTokens = some m ∧
      m.Occurrence = 10 + rest.length ∧
      isPopular (mergeGenerators ch generators) (key, m) = true ∧
      m ∈ allTokensPlain ch generators order := by
  obtain ⟨m, hm, _, _, _, _, _, ho⟩ :=
    foldl_mergeInto_none (tokenInitialOccurence ch) t0 rest
  rw [← hsame, ← mergeGenerators_allTokens] at hm
  rw [tokenInitialOccurence_extra ch t0 hextra] at ho
  -- the chain of the key has its entry in `listsPerChain`
  have ht0 : t0 ∈ sameKey ch key generators := by rw [hsame]; exact List.mem_cons_self _ _
  unfold sameKey at ht0
  obtain ⟨hmem, hkey⟩ := List.mem_filter.mp ht0
  obtain ⟨p, hp, hpt⟩ := List.mem_map.mp hmem
  have hchain : p.2.ChainID = key.1 := by
    rw [hpt, ← of_decide_eq_true hkey]
  have hsome : (alGet key.1 (mergeGenerators ch generators).listsPerChain).isSome = true := by
    unfold mergeGenerators
    rw [mergeGenerators_eq_foldl]
    exact (foldl_mergeToken_lists ch _ (mergeCandidates_supported ch generators)
      ⟨[], []⟩ key.1).1.mpr (Or.inr ⟨p, hp, hchain⟩)
  obtain ⟨names, hnames⟩ := Option.isSome_iff_exists.mp hsome
  rw [hnames, Option.getD_some] at hcount
  have hpop : isPopular (mergeGenerators ch generators) (key, m) = true := by
    unfold isPopular
    rw [hnames]
    simp only [decide_eq_true_eq, quorum_exact _ (le_trans hcount (by norm_num)), ho]
    omega
  refine ⟨m, hm, ho, hpop, ?_⟩
  unfold allTokensPlain
  refine List.mem_append_right _ (List.mem_map.mpr ⟨(key, m), ?_, rfl⟩)
  exact List.mem_filter.mpr ⟨horder.mem_iff.mpr (alGet_mem _ _ _ hm), hpop⟩

/-- Witness of C14 as amended: Ajna in one of twenty lists of chain 1. -/
theorem extra_token_selected_witness :
    ∃ m, alGet (1, sampleAjna.Address)
        (mergeGenerators Chains.sample (sampleSources.take 20)).allTokens = some m ∧
      m.Occurrence = 10 + ([] : List TokenListToken).length ∧
      isPopular (mergeGenerators Chains.sample (sampleSources.take 20))
        ((1, sampleAjna.Address), m) = true ∧
      m ∈ allTokensPlain Chains.sample (sampleSources.take 20)
        (mergeGenerators Chains.sample (sampleSources.take 20)).allTokens :=
  extra_token_selected Chains.sample (sampleSources.take 20) (1, sampleAjna.Address) sampleAjna []
    (mergeGenerators Chains.sample (sampleSources.take 20)).allTokens (by decide!) (by decide!)
    (by decide!) (List.Perm.refl _)

/-- Code slip behind C15: the coin of `OPTIMISM`, chain 10, carries chain ID 1 although its
logo URI names chain 10, so the list selected over the registry of the two chains holds two
records of chain 1 with the sentinel address and no coin record of chain 10. -/
theorem optimism_coin_on_chain_1 :
    OPTIMISM.ID = 10 ∧ OPTIMISM.Coin.ChainID = 1 ∧
    (allTokensPlain Chains.sample [] []).map (fun t => (t.ChainID, t.Address))
      = [(1, str "0xEeeeeEeeeEeEeeEeEeEeeEEEeeeeEeeeeeeeEEeE"),
         (1, str "0xEeeeeEeeeEeEeeEeEeEeeEEEeeeeEeeeeeeeEEeE")] ∧
    ∀ t ∈ allTokensPlain Chains.sample [] [], t.ChainID ≠ OPTIMISM.ID := by
  decide!

/-- Code slip behind C16: a single list that holds the same record of chain 10 twice, the
record not being an extra token, gives that record occurrence 2, while chain 10 has one
contributing list. -/
theorem merge_counts_repeated_record :
    tokenInitialOccurence Chains.sample sampleOp = 1 ∧
    (alGet (10, sampleOp.Address)
        (mergeGenerators Chains.sample [sampleRepeated]).allTokens).map
        (fun t => t.Occurrence) = some 2 ∧
    alGet 10 (mergeGenerators Chains.sample [sampleRepeated]).listsPerChain
      = some [str "uniswap"] := by
  decide!

/-- C17: for every permutation of the token lists, the merge loop gives each (chainID,
address) key the same occurrence (or no record in both cases), and each chain the same
contributing list names, as lists without repetition that are permutations of each other,
hence of the same length. -/
theorem merge_order_independent (ch : Chains) (generators reordered : List Generator)
    (hperm : generators.Perm reordered) :
    (∀ key, (alGet key (mergeGenerators ch generators).allTokens).map (fun t => t.Occurrence)
      = (alGet key (mergeGenerators ch reordered).allTokens).map (fun t => t.Occurrence)) ∧
    (∀ c, (alGet c (mergeGenerators ch generators).listsPerChain).isSome
        = (alGet c (mergeGenerators ch reordered).listsPerChain).isSome ∧
      ((alGet c (mergeGenerators ch generators).listsPerChain).getD []).Nodup ∧
      ((alGet c (mergeGenerators ch generators).listsPerChain).getD []).Perm
        ((alGet c (mergeGenerators ch reordered).listsPerChain).getD [])) := by
  have hcs := mergeCandidates_perm ch generators reordered hperm
  constructor
  · intro key
    rw [mergeGenerators_allTokens, mergeGenerators_allTokens, occurrence_foldl_mergeInto,
      occurrence_foldl_mergeInto]
    have hsame : (sameKey ch key generators).Perm (sameKey ch key reordered) := by
      unfold sameKey
      exact (hcs.map _).filter _
    have hkey : ∀ gs, ∀ t ∈ sameKey ch key gs, (t.ChainID, ToAddress t.Address) = key := by
      intro gs t ht
      unfold sameKey at ht
      exact of_decide_eq_true (List.mem_filter.mp ht).2
    have h1 := hkey generators
    have h2 := hkey reordered
    generalize sameKey ch key generators = l at hsame h1
    generalize sameKey ch key reordered = l2 at hsame h2
    cases l with
    | nil =>
      have := hsame.length_eq
      cases l2 with
      | nil => rfl
      | cons _ _ => cases this
    | cons t0 rest =>
      cases l2 with
      | nil => cases hsame.length_eq
      | cons u0 more =>
        have hlen : rest.length = more.length := by
          have := hsame.length_eq
          simpa using this
        have hseed : tokenInitialOccurence ch t0 = tokenInitialOccurence ch u0 :=
          tokenInitialOccurence_congr ch t0 u0
            ((h1 t0 (List.mem_cons_self _ _)).trans (h2 u0 (List.mem_cons_self _ _)).symm)
        simp only [hlen, hseed]
  · intro c
    have hA := foldl_mergeToken_lists ch _ (mergeCandidates_supported ch generators) ⟨[], []⟩ c
    have hB := foldl_mergeToken_lists ch _ (mergeCandidates_supported ch reordered) ⟨[], []⟩ c
    rw [← mergeGenerators_eq_foldl] at hA hB
    have hAn : ((alGet c (mergeGenerators ch generators).listsPerChain).getD []).Nodup :=
      hA.2.2 List.nodup_nil
    have hBn : ((alGet c (mergeGenerators ch reordered).listsPerChain).getD []).Nodup :=
      hB.2.2 List.nodup_nil
    refine ⟨?_, hAn, (List.perm_ext_iff_of_nodup hAn hBn).mpr ?_⟩
    · apply Bool.eq_iff_iff.mpr
      show _ ↔ _
      unfold mergeGenerators
      rw [hA.1, hB.1]
      constructor
      · rintro (h | ⟨p, hp, hc⟩)
        · exact Or.inl h
        · exact Or.inr ⟨p, hcs.mem_iff.mp hp, hc⟩
      · rintro (h | ⟨p, hp, hc⟩)
        · exact Or.inl h
        · exact Or.inr ⟨p, hcs.mem_iff.mpr hp, hc⟩
    · intro n
      show _ ↔ _
      unfold mergeGenerators
      rw [hA.2.1 n, hB.2.1 n]
      constructor
      · rintro (h | ⟨p, hp, hc⟩)
        · exact Or.inl h
        · exact Or.inr ⟨p, hcs.mem_iff.mp hp, hc⟩
      · rintro (h | ⟨p, hp, hc⟩)
        · exact Or.inl h
        · exact Or.inr ⟨p, hcs.mem_iff.mpr hp, hc⟩

/-- Witness of C17: two token lists merged in both orders. -/
theorem merge_order_independent_witness :
    [sampleUniswap, sample1inch].Perm [sample1inch, sampleUniswap] ∧
    (∀ key, (alGet key (mergeGenerators Chains.sample
          [sampleUniswap, sample1inch]).allTokens).map (fun t => t.Occurrence)
      = (alGet key (mergeGenerators Chains.sample
          [sample1inch, sampleUniswap]).allTokens).map (fun t => t.Occurrence)) ∧
    (∀ c, (alGet c (mergeGenerators Chains.sample
          [sampleUniswap, sample1inch]).listsPerChain).isSome
        = (alGet c (mergeGenerators Chains.sample
          [sample1inch, sampleUniswap]).listsPerChain).isSome ∧
      ((alGet c (mergeGenerators Chains.sample
          [sampleUniswap, sample1inch]).listsPerChain).getD []).Nodup ∧
      ((alGet c (mergeGenerators Chains.sample
          [sampleUniswap, sample1inch]).listsPerChain).getD []).Perm
        ((alGet c (mergeGenerators Chains.sample
          [sample1inch, sampleUniswap]).listsPerChain).getD [])) :=
  ⟨List.Perm.swap _ _ _,
    merge_order_independent Chains.sample [sampleUniswap, sample1inch]
      [sample1inch, sampleUniswap] (List.Perm.swap _ _ _)⟩

/-- Counterexample to C18: the first list gives the record of chain 10 with decimals 0, the
second with decimals 6; the merged decimals are 18, in `buildPopularList` and in
`loadAllTokens`, because the first insertion already falls back to 18. -/
theorem merged_decimals_not_backfilled :
    (alGet (10, sampleOp.Address)
        (mergeGenerators Chains.sample [sampleSparse, sampleSixDecimals]).allTokens).map
        (fun t => (t.Name, t.Decimals, t.Occurrence)) = some (str "Optimism", 18, 2) ∧
    (alGet (10, sampleOp.Address) (loadAllTokens [sampleSparse, sampleSixDecimals])).map
        (fun t => (t.Name, t.Decimals, t.Occurrence)) = some (str "Optimism", 18, 2) := by
  decide!

/-- C18 as amended: when the candidates under a key are `t0 :: rest` in processing order,
the merged name, symbol and logo URI are each the first non-empty value among them (empty
when all are empty), and the merged decimals are those of the first candidate `t0` when
non-zero and 18 otherwise, later candidates never being read for the decimals; this holds
for the merge of `buildPopularList` and for `loadAllTokens`. -/
theorem merged_fields (ch : Chains) (generators : List Generator) (key : Nat × GoString) :
    (∀ t0 rest, sameKey ch key generators = t0 :: rest →
      ∃ m, alGet key (mergeGenerators ch generators).allTokens = some m ∧
        m.Name = firstNonEmpty ((t0 :: rest).map (fun t => t.Name)) ∧
        m.Symbol = firstNonEmpty ((t0 :: rest).map (fun t => t.Symbol)) ∧
        m.LogoURI = firstNonEmpty ((t0 :: rest).map (fun t => t.LogoURI)) ∧
        m.Decimals = (if t0.Decimals = 0 then 18 else t0.Decimals)) ∧
    (∀ t0 rest, sameKeyAll key generators = t0 :: rest →
      ∃ m, alGet key (loadAllTokens generators) = some m ∧
        m.Name = firstNonEmpty ((t0 :: rest).map (fun t => t.Name)) ∧
        m.Symbol = firstNonEmpty ((t0 :: rest).map (fun t => t.Symbol)) ∧
        m.LogoURI = firstNonEmpty ((t0 :: rest).map (fun t => t.LogoURI)) ∧
        m.Decimals = (if t0.Decimals = 0 then 18 else t0.Decimals)) := by
  constructor
  · intro t0 rest hsame
    obtain ⟨m, hm, _, hn, hs, hl, hd, _⟩ :=
      foldl_mergeInto_none (tokenInitialOccurence ch) t0 rest
    rw [← hsame, ← mergeGenerators_allTokens] at hm
    exact ⟨m, hm, hn, hs, hl, hd⟩
  · intro t0 rest hsame
    obtain ⟨m, hm, _, hn, hs, hl, hd, _⟩ :=
      foldl_mergeInto_none (fun _ => 1) t0 rest
    rw [← hsame, ← loadAllTokens_get] at hm
    exact ⟨m, hm, hn, hs, hl, hd⟩

/-- Witness of C18 as amended: the nameless record without decimals first, then the record
with 6 decimals; the name comes from the second candidate and the decimals are 18. -/
theorem merged_fields_witness :
    (∃ m, alGet (10, sampleOp.Address)
        (mergeGenerators Chains.sample [sampleSparse, sampleSixDecimals]).allTokens = some m ∧
      m.Name = firstNonEmpty [[], str "Optimism"] ∧
      m.Symbol = firstNonEmpty [str "OP", str "OP"] ∧
      m.LogoURI = firstNonEmpty [[], []] ∧
      m.Decimals = 18) ∧
    (∃ m, alGet (10, sampleOp.Address)
        (loadAllTokens [sampleSparse, sampleSixDecimals]) = some m ∧
      m.Name = firstNonEmpty [[], str "Optimism"] ∧
      m.Symbol = firstNonEmpty [str "OP", str "OP"] ∧
      m.LogoURI = firstNonEmpty [[], []] ∧
      m.Decimals = 18) :=
  ⟨(merged_fields Chains.sample [sampleSparse, sampleSixDecimals] (10, sampleOp.Address)).1
      { sampleOp with Name := [], Decimals := 0 } [{ sampleOp with Decimals := 6 }]
      (by decide!),
    (merged_fields Chains.sample [sampleSparse, sampleSixDecimals] (10, sampleOp.Address)).2
      { sampleOp with Name := [], Decimals := 0 } [{ sampleOp with Decimals := 6 }]
      (by decide!)⟩

/-! ## The sorted list, the Append mode, the de-duplication and the Uniswap list -/

theorem FormatUint_injective (n m : Nat) (h : FormatUint n = FormatUint m) : n = m := by
  obtain ⟨d, _, hn, _, hd⟩ := FormatUint_eq n
  obtain ⟨d2, _, hm, _, hd2⟩ := FormatUint_eq m
  rw [hd, hd2] at h
  have hlen := congrArg List.length h
  rw [length_decimalDigits, length_decimalDigits] at hlen
  subst hlen
  exact decimalDigits_injective d n m hn hm h

theorem dedupeKey_injective (a b : GoString) (n m : Nat) (hlen : a.length = b.length)
    (h : a ++ FormatUint n = b ++ FormatUint m) : a = b ∧ n = m := by
  obtain ⟨h1, h2⟩ := List.append_inj h hlen
  exact ⟨h1, FormatUint_injective n m h2⟩

theorem dedupeTokens_eq_aux (tokens : List TokenListToken) :
    ∀ seen : List (GoString × Nat),
    (∀ t ∈ tokens, ∀ u ∈ tokens, t.Address.length = u.Address.length) →
    (∀ t ∈ tokens, ∀ p ∈ seen, t.Address.length = p.1.length) →
    dedupeTokens tokens (seen.map (fun p => p.1 ++ FormatUint p.2))
      = dedupeByPair tokens seen := by
  induction tokens with
  | nil => intro seen _ _; rfl
  | cons t rest ih =>
    intro seen hlen hseen
    have hrest : ∀ a ∈ rest, ∀ b ∈ rest, a.Address.length = b.Address.length :=
      fun a ha b hb => hlen a (List.mem_cons_of_mem _ ha) b (List.mem_cons_of_mem _ hb)
    have hmem : t.Address ++ FormatUint t.ChainID ∈ seen.map (fun p => p.1 ++ FormatUint p.2)
        ↔ (t.Address, t.ChainID) ∈ seen := by
      constructor
      · intro hin
        obtain ⟨p, hp, hpe⟩ := List.mem_map.mp hin
        obtain ⟨h1, h2⟩ := dedupeKey_injective p.1 t.Address p.2 t.ChainID
          (hseen t (List.mem_cons_self _ _) p hp).symm hpe
        have : p = (t.Address, t.ChainID) := by
          cases p; simp only [Prod.mk.injEq]; exact ⟨h1, h2⟩
        rw [← this]; exact hp
      · intro hin
        exact List.mem_map.mpr ⟨(t.Address, t.ChainID), hin, rfl⟩
    by_cases hin : (t.Address, t.ChainID) ∈ seen
    · simp only [dedupeTokens, dedupeByPair, if_pos hin, if_pos (hmem.mpr hin)]
      exact ih seen hrest (fun a ha p hp => hseen a (List.mem_cons_of_mem _ ha) p hp)
    · have hin2 : ¬ t.Address ++ FormatUint t.ChainID
          ∈ seen.map (fun p => p.1 ++ FormatUint p.2) := fun hh => hin (hmem.mp hh)
      simp only [dedupeTokens, dedupeByPair, if_neg hin, if_neg hin2]
      congr 1
      have := ih ((t.Address, t.ChainID) :: seen) hrest (by
        intro a ha p hp
        rcases List.mem_cons.mp hp with hp | hp
        · rw [hp]
          exact hlen a (List.mem_cons_of_mem _ ha) t (List.mem_cons_self _ _)
        · exact hseen a (List.mem_cons_of_mem _ ha) p hp)
      rw [← this]
      rfl

theorem dedupeByPair_spec (tokens : List TokenListToken) :
    ∀ seen : List (GoString × Nat),
    (dedupeByPair tokens seen).Sublist tokens ∧
    (∀ t ∈ tokens, (t.Address, t.ChainID) ∈ seen ∨
      ∃ u ∈ dedupeByPair tokens seen, u.Address = t.Address ∧ u.ChainID = t.ChainID) ∧
    (∀ u ∈ dedupeByPair tokens seen, (u.Address, u.ChainID) ∉ seen) ∧
    (dedupeByPair tokens seen).Pairwise
      (fun a b => ¬ (a.Address = b.Address ∧ a.ChainID = b.ChainID)) := by
  induction tokens with
  | nil => intro seen; simp [dedupeByPair]
  | cons t rest ih =>
    intro seen
    by_cases hin : (t.Address, t.ChainID) ∈ seen
    · obtain ⟨h1, h2, h3, h4⟩ := ih seen
      simp only [dedupeByPair, if_pos hin]
      refine ⟨h1.cons _, ?_, h3, h4⟩
      intro a ha
      rcases List.mem_cons.mp ha with ha | ha
      · rw [ha]; exact Or.inl hin
      · exact h2 a ha
    · obtain ⟨h1, h2, h3, h4⟩ := ih ((t.Address, t.ChainID) :: seen)
      simp only [dedupeByPair, if_neg hin]
      refine ⟨h1.cons₂ _, ?_, ?_, ?_⟩
      · intro a ha
        rcases List.mem_cons.mp ha with ha | ha
        · rw [ha]; exact Or.inr ⟨t, List.mem_cons_self _ _, rfl, rfl⟩
        · rcases h2 a ha with hs | ⟨u, hu, hu2⟩
          · rcases List.mem_cons.mp hs with hs | hs
            · have hs2 := Prod.mk.inj hs
              exact Or.inr ⟨t, List.mem_cons_self _ _, hs2.1.symm, hs2.2.symm⟩
            · exact Or.inl hs
          · exact Or.inr ⟨u, List.mem_cons_of_mem _ hu, hu2⟩
      · intro u hu
        rcases List.mem_cons.mp hu with hu | hu
        · rw [hu]; exact hin
        · exact fun hh => h3 u hu (List.mem_cons_of_mem _ hh)
      · rw [List.pairwise_cons]
        refine ⟨?_, h4⟩
        intro u hu hcon
        apply h3 u hu
        rw [← hcon.1, ← hcon.2]
        exact List.mem_cons_self _ _

/-- Counterexample to C24: the address strings `0xab` (chain 12) and `0xab1` (chain 2) give
the same concatenation `0xab12`, so the second candidate is dropped although no earlier
candidate has its address string or its chain ID. -/
theorem dedupe_drops_distinct_pair :
    dedupeTokens sampleColliding [] = sampleColliding.take 1 ∧
    sampleColliding.map (fun t => (t.Address, t.ChainID))
      = [(str "0xab", 12), (str "0xab1", 2)] ∧
    sampleColliding.map (fun t => t.Address ++ FormatUint t.ChainID)
      = [str "0xab12", str "0xab12"] := by
  decide

/-- C24 as amended: when the address strings of the candidates all have the same length,
the de-duplication keeps exactly the first candidate of every pair (address string, chain
ID): its result is a sublist of the candidates that holds a record of the pair of every
candidate and no two records of one pair. -/
theorem dedupeTokens_first_of_pair (tokens : List TokenListToken)
    (hlen : ∀ t ∈ tokens, ∀ u ∈ tokens, t.Address.length = u.Address.length) :
    dedupeTokens tokens [] = dedupeByPair tokens [] ∧
    (dedupeTokens tokens []).Sublist tokens ∧
    (∀ t ∈ tokens, ∃ u ∈ dedupeTokens tokens [],
      u.Address = t.Address ∧ u.ChainID = t.ChainID) ∧
    (dedupeTokens tokens []).Pairwise
      (fun a b => ¬ (a.Address = b.Address ∧ a.ChainID = b.ChainID)) := by
  have heq : dedupeTokens tokens [] = dedupeByPair tokens [] :=
    dedupeTokens_eq_aux tokens [] hlen (fun _ _ p hp => by cases hp)
  obtain ⟨h1, h2, _, h4⟩ := dedupeByPair_spec tokens []
  rw [heq]
  refine ⟨rfl, h1, ?_, h4⟩
  intro t ht
  rcases h2 t ht with hs | hu
  · cases hs
  · exact hu

/-- Witness of C24 as amended: Ajna, BTRFLY and Ajna again, with addresses of 42 bytes. -/
theorem dedupeTokens_first_of_pair_witness :
    dedupeTokens [sampleAjna, sampleBtrfly, sampleAjna] []
      = dedupeByPair [sampleAjna, sampleBtrfly, sampleAjna] [] ∧
    (dedupeTokens [sampleAjna, sampleBtrfly, sampleAjna] []).Sublist
      [sampleAjna, sampleBtrfly, sampleAjna] ∧
    (∀ t ∈ [sampleAjna, sampleBtrfly, sampleAjna],
      ∃ u ∈ dedupeTokens [sampleAjna, sampleBtrfly, sampleAjna] [],
        u.Address = t.Address ∧ u.ChainID = t.ChainID) ∧
    (dedupeTokens [sampleAjna, sampleBtrfly, sampleAjna] []).Pairwise
      (fun a b => ¬ (a.Address = b.Address ∧ a.ChainID = b.ChainID)) :=
  dedupeTokens_first_of_pair [sampleAjna, sampleBtrfly, sampleAjna] (by decide)

/-- Code slip behind C22: the list holds Ajna on the supported chain 1 with its address in
lower case and a logo; looked up by the address that `HexToAddress` makes of this very
spelling, `getExistingLogo` returns the empty string, because line 391 compares the raw
string with the checksummed `Hex()`. With the checksummed spelling the logo is found. -/
theorem getExistingLogo_misses_lower_case :
    getExistingLogo Helpers.sample 1 (HexToAddress sampleLowerCase.Address) [sampleLowerCase]
      = [] ∧
    ToAddress sampleLowerCase.Address = sampleAjna.Address ∧
    sampleLowerCase.ChainID = 1 ∧ Helpers.sample.IsChainIDSupported 1 = true ∧
    getExistingLogo Helpers.sample 1 (HexToAddress sampleLowerCase.Address)
        [{ sampleLowerCase with Address := sampleAjna.Address }]
      = str "https://example.org/ajna.png" := by
  decide!

/-- Code slip behind C25: one address is merged on chain 1 with occurrence 1 and on chain 10
with occurrence 2, and both records are selected. The loop of lines 106-112 matches by
address alone, so the record of chain 1 ends with the occurrence 2 of chain 10. -/
theorem reassign_ignores_chain :
    (allTokensPlain Chains.sample sampleTwoChains
        (mergeGenerators Chains.sample sampleTwoChains).allTokens).map
        (fun t => (t.ChainID, t.Symbol, t.Occurrence))
      = [(1, str "ETH", 0), (1, str "ETH", 0), (1, str "OP", 1), (10, str "OP", 2)] ∧
    (reassignOccurrences
        (allTokensPlain Chains.sample sampleTwoChains
          (mergeGenerators Chains.sample sampleTwoChains).allTokens)
        [{ sampleOp with ChainID := 1 }, sampleOp]).map
        (fun t => (t.ChainID, t.Symbol, t.Occurrence))
      = [(1, str "OP", 2), (10, str "OP", 2)] := by
  decide!

/-- The unified file of a save that writes: it holds the dataset that the loop over the
sorted keys leaves. -/
theorem save_unified_file (rt : GoRuntime) (h : Helpers) (tokenList : TokenListData)
    (tokens : List TokenListToken) (filePath : GoString) (method : JSONSaveTokensMethods)
    (next : TokenMap) (r : SaveResult) (path : GoString) (unified : TokenListData)
    (rest : List (GoString × TokenListData))
    (hbuild : buildNextTokensMap rt h tokenList tokens method = some next)
    (hkey : next.Keyed)
    (hsave : saveTokenListInJsonFile rt h tokenList tokens filePath method = some r)
    (hfile : r.files = (path, unified) :: rest) :
    ∃ st, diffLoop (rt.rangeNext next) ⟨tokenList.PreviousTokensMap, false, false, []⟩
        = some st ∧
      st.Tokens.length = (rt.rangeNext next).length ∧
      path = rt.basePath ++ str "/lists/" ++ filePath ∧
      unified = (writtenDataset rt h tokenList next st).1 := by
  have hperm := rt.rangeNext_perm next
  have hne : next.len ≠ 0 := by
    intro h0
    simp only [saveTokenListInJsonFile, hbuild, if_pos h0] at hsave
    cases hsave
    cases hfile
  obtain ⟨st, hrun, _, _, _, htok⟩ := diffLoop_spec (rt.rangeNext next)
    ⟨tokenList.PreviousTokensMap, false, false, []⟩
    (fun e he => hkey e (hperm.mem_iff.mp he))
    ((hperm.map Prod.fst).nodup_iff.mpr next.nodup)
  have hlen : st.Tokens.length = (rt.rangeNext next).length := by
    rw [htok]; simp
  have hb : ¬ ((!decide (st.previous.len > 0) && !st.shouldBumpMinor
      && !st.shouldBumpPatch) = true) := by
    intro hb
    simp only [saveTokenListInJsonFile, hbuild, if_neg hne, hrun, if_pos hb] at hsave
    cases hsave
    cases hfile
  rw [save_bump_eq rt h tokenList tokens filePath method next st hbuild hne hrun hb] at hsave
  refine ⟨st, hrun, hlen, ?_⟩
  rcases hw : rt.WriteFile (rt.basePath ++ str "/lists/" ++ filePath)
      (writtenDataset rt h tokenList next st).1 with _ | e
  · rw [hw] at hsave
    have hr := Option.some.inj hsave
    subst hr
    obtain ⟨more, hmore⟩ := writeShards_files_prefix rt h filePath
      (rt.rangeShards (writtenDataset rt h tokenList next st).2)
      (writtenDataset rt h tokenList next st).1
      [(rt.basePath ++ str "/lists/" ++ filePath, (writtenDataset rt h tokenList next st).1)]
    have h2 : [(rt.basePath ++ str "/lists/" ++ filePath,
        (writtenDataset rt h tokenList next st).1)] ++ more = (path, unified) :: rest :=
      hmore.symm.trans hfile
    simp only [List.singleton_append, List.cons.injEq, Prod.mk.injEq] at h2
    exact ⟨h2.1.1.symm, h2.1.2.symm⟩
  · rw [hw] at hsave
    have hr := Option.some.inj hsave
    subst hr
    cases hfile

/-- Counterexample to C21: the caller put Ajna marked with chain ID 10 under the key of
chain 1, next to BTRFLY of chain 1. The save succeeds and is not neutral; the sorted keys
put Ajna first, so the unified list has the chain IDs 10, 1. -/
theorem save_unified_not_sorted_by_chain :
    (saveTokenListInJsonFile GoRuntime.listOrder Helpers.sample
        (sampleDataset TokenMap.empty
          ((TokenMap.empty.store sampleBtrflyKey sampleBtrfly).store sampleAjnaKey
            sampleAjnaOn10))
        [] (str "sample.json") Standard).map
        (fun r => (r.err, r.files.head?.map
          (fun f => (f.1, f.2.Tokens.map (fun t => (t.ChainID, t.Symbol))))))
      = some (none, some (str "./lists/sample.json", [(10, str "AJNA"), (1, str "BTRFLY")])) ∧
    sampleAjnaKey < sampleBtrflyKey := by
  decide!

/-- C21 as amended: when the next map is keyed by `getKey` of each record's own chain ID and
address and holds no record that fails the exclusion test, a save that writes the unified
file writes into it the records of the next map in the sorted order of its keys: position
`i` holds the record of the `i`-th key, every key occurs, the keys ascend, and so do the
chain IDs of the list. -/
theorem save_unified_sorted (rt : GoRuntime) (h : Helpers) (tokenList : TokenListData)
    (tokens : List TokenListToken) (filePath : GoString) (method : JSONSaveTokensMethods)
    (next : TokenMap) (r : SaveResult) (path : GoString) (unified : TokenListData)
    (rest : List (GoString × TokenListData))
    (hbuild : buildNextTokensMap rt h tokenList tokens method = some next)
    (hkey : next.Keyed)
    (hvalid : ∀ e ∈ next.entries, isExcluded h e.2 = false)
    (hsave : saveTokenListInJsonFile rt h tokenList tokens filePath method = some r)
    (hfile : r.files = (path, unified) :: rest) :
    ∃ keys : List GoString,
      keys.Pairwise (· ≤ ·) ∧ keys.Nodup ∧ (∀ k, k ∈ keys ↔ next.lookup k ≠ none) ∧
      unified.Tokens.length = keys.length ∧
      (∀ (i : Nat) (k : GoString), keys[i]? = some k → unified.Tokens[i]? = next.lookup k) ∧
      (unified.Tokens.map (fun t => t.ChainID)).Pairwise (· ≤ ·) := by
  obtain ⟨st, _, hlen, _, hun⟩ := save_unified_file rt h tokenList tokens filePath method next r
    path unified rest hbuild hkey hsave hfile
  obtain ⟨hT, _, _, _, _⟩ := writtenDataset_spec rt h tokenList next st hkey hvalid hlen
  obtain ⟨hrec, hchains, _, hmemk⟩ := sortedKeys_spec rt next hkey
  rw [← hun] at hT
  have hperm := rt.rangeNext_perm next
  refine ⟨sortStrings ((rt.rangeNext next).map Prod.fst),
    List.sorted_insertionSort (fun a b : GoString => a ≤ b) _, ?_, hmemk, ?_, ?_, ?_⟩
  · rw [sortStrings]
    exact (List.perm_insertionSort _ _).nodup_iff.mpr
      ((hperm.map Prod.fst).nodup_iff.mpr next.nodup)
  · rw [hT, List.length_map]
  · intro i k hk
    rw [hT, List.getElem?_map, hk, Option.map_some']
    obtain ⟨t, hl, _, _, _⟩ := hrec k (List.getElem?_mem hk)
    rw [hl]; rfl
  · rw [hT, List.map_map]
    rw [List.pairwise_map] at hchains ⊢
    refine List.Pairwise.imp_of_mem ?_ hchains
    intro a b ha hb hab
    obtain ⟨ta, hla, _, _, hca⟩ := hrec a ha
    obtain ⟨tb, hlb, _, _, hcb⟩ := hrec b hb
    simp only [Function.comp, hla, hlb, Option.getD_some]
    rw [← hca, ← hcb]
    exact hab

/-- Witness of C21 as amended: BTRFLY, a token of chain 10 and Ajna saved over nothing. -/
theorem save_unified_sorted_witness :
    ∃ (r : SaveResult) (path : GoString) (unified : TokenListData)
      (rest : List (GoString × TokenListData)) (keys : List GoString),
      saveTokenListInJsonFile GoRuntime.listOrder Helpers.sample
        (sampleDataset TokenMap.empty TokenMap.empty) [sampleBtrfly, sampleOp, sampleAjna]
        (str "sample.json") Standard = some r ∧
      r.files = (path, unified) :: rest ∧
      unified.Tokens = [sampleAjna, sampleBtrfly, sampleOp] ∧
      keys.Pairwise (· ≤ ·) ∧ keys.Nodup ∧
      (∀ k, k ∈ keys ↔ (((TokenMap.empty.store sampleBtrflyKey sampleBtrfly).store
        (str "000000000000000010_0x4200000000000000000000000000000000000042") sampleOp).store
        sampleAjnaKey sampleAjna).lookup k ≠ none) ∧
      unified.Tokens.length = keys.length ∧
      (∀ (i : Nat) (k : GoString), keys[i]? = some k → unified.Tokens[i]?
        = (((TokenMap.empty.store sampleBtrflyKey sampleBtrfly).store
          (str "000000000000000010_0x4200000000000000000000000000000000000042") sampleOp).store
          sampleAjnaKey sampleAjna).lookup k) ∧
      (unified.Tokens.map (fun t => t.ChainID)).Pairwise (· ≤ ·) := by
  have hs : (saveTokenListInJsonFile GoRuntime.listOrder Helpers.sample
      (sampleDataset TokenMap.empty TokenMap.empty) [sampleBtrfly, sampleOp, sampleAjna]
      (str "sample.json") Standard).map (fun r => r.files.map (fun f => f.2.Tokens))
      = some [[sampleAjna, sampleBtrfly, sampleOp], [sampleAjna, sampleBtrfly], [sampleOp]] := by
    decide!
  cases hr : saveTokenListInJsonFile GoRuntime.listOrder Helpers.sample
      (sampleDataset TokenMap.empty TokenMap.empty) [sampleBtrfly, sampleOp, sampleAjna]
      (str "sample.json") Standard with
  | none => rw [hr] at hs; cases hs
  | some r =>
    rw [hr] at hs
    have hfiles : r.files.map (fun f => f.2.Tokens)
        = [[sampleAjna, sampleBtrfly, sampleOp], [sampleAjna, sampleBtrfly], [sampleOp]] :=
      Option.some.inj hs
    cases hf : r.files with
    | nil => rw [hf] at hfiles; cases hfiles
    | cons f rest =>
      rw [hf] at hfiles
      have htok : f.2.Tokens = [sampleAjna, sampleBtrfly, sampleOp] := (List.cons.inj hfiles).1
      obtain ⟨keys, hk⟩ := save_unified_sorted GoRuntime.listOrder Helpers.sample
        (sampleDataset TokenMap.empty TokenMap.empty) [sampleBtrfly, sampleOp, sampleAjna]
        (str "sample.json") Standard
        (((TokenMap.empty.store sampleBtrflyKey sampleBtrfly).store
          (str "000000000000000010_0x4200000000000000000000000000000000000042") sampleOp).store
          sampleAjnaKey sampleAjna) r f.1 f.2 rest
        (by decide!) (by decide!) (by decide!) hr hf
      exact ⟨r, f.1, f.2, rest, keys, rfl, hf, htok, hk⟩

theorem getKey_inj (c1 c2 : Nat) (a1 a2 : Address) (k : GoString)
    (h1 : getKey c1 a1 = some k) (h2 : getKey c2 a2 = some k) : c1 = c2 ∧ a1 = a2 := by
  have hc1 := getKey_some_lt c1 a1 k h1
  have hc2 := getKey_some_lt c2 a2 k h2
  rw [getKey_eq c1 a1 hc1] at h1
  rw [getKey_eq c2 a2 hc2, ← h1] at h2
  have h3 := Option.some.inj h2
  rw [List.append_assoc, List.append_assoc] at h3
  have h4 := List.append_inj h3 (by rw [length_decimalDigits, length_decimalDigits])
  exact ⟨(decimalDigits_injective 18 c2 c1 hc2 hc1 h4.1).symm,
    (Address.Hex_injective _ _ (List.append_cancel_left h4.2)).symm⟩

theorem SetToken_excluded_error (h : Helpers) (t : TokenListToken)
    (hx : (t.Name = [] ∨ t.Symbol = [] ∨ t.Decimals = 0)
      ∨ h.IsIgnoredToken t.ChainID (HexToAddress t.Address) = true) :
    ∃ e, SetToken h (HexToAddress t.Address) t.Name t.Symbol t.LogoURI t.ChainID t.Decimals
      = .error e := by
  unfold SetToken
  by_cases h1 : t.Name = []
  · exact ⟨_, if_pos h1⟩
  rw [if_neg h1]
  by_cases h2 : t.Symbol = []
  · exact ⟨_, if_pos h2⟩
  rw [if_neg h2]
  by_cases h3 : t.Decimals = 0
  · exact ⟨_, if_pos h3⟩
  rw [if_neg h3]
  have h4 : h.IsIgnoredToken t.ChainID (HexToAddress t.Address) = true := by
    rcases hx with (hx | hx | hx) | hx
    · exact absurd hx h1
    · exact absurd hx h2
    · exact absurd hx h3
    · exact hx
  exact ⟨_, if_pos h4⟩

theorem SetToken_ok_of_valid (h : Helpers) (t : TokenListToken)
    (hv : PassesValidation h t) :
    ∃ n, SetToken h (HexToAddress t.Address) t.Name t.Symbol t.LogoURI t.ChainID t.Decimals
      = .ok n := by
  obtain ⟨hs, h0, hx⟩ := hv
  simp only [isExcluded, decide_eq_false_iff_not, not_or] at hx
  obtain ⟨⟨h1, h2, h3⟩, h4⟩ := hx
  unfold SetToken
  rw [if_neg h1, if_neg h2, if_neg h3, if_neg h4]
  have h5 : ¬ (t.ChainID = 0 ∨ (!h.IsChainIDSupported t.ChainID) = true) := by
    simp [h0, hs]
  rw [if_neg h5]
  exact ⟨_, rfl⟩

theorem appendPrevious_eq_addCandidates (h : Helpers) (l : List (GoString × TokenListToken)) :
    ∀ next : TokenMap, appendPrevious h l next = addCandidates h (l.map Prod.snd) next := by
  induction l with
  | nil => intro next; rfl
  | cons p l ih =>
    intro next
    obtain ⟨k0, t⟩ := p
    by_cases hs : h.IsChainIDSupported t.ChainID = true
    · by_cases hx : (t.Name = [] ∨ t.Symbol = [] ∨ t.Decimals = 0)
          ∨ h.IsIgnoredToken t.ChainID (HexToAddress t.Address) = true
      · obtain ⟨e, he⟩ := SetToken_excluded_error h t hx
        simp only [appendPrevious, hs, hx, List.map_cons, addCandidates, he, Bool.not_true,
          Bool.false_eq_true, if_false, if_true]
        exact ih next
      · rcases hset : SetToken h (HexToAddress t.Address) t.Name t.Symbol t.LogoURI t.ChainID
            t.Decimals with e | newToken
        · simp only [appendPrevious, hs, hx, List.map_cons, addCandidates, hset, Bool.not_true,
            Bool.false_eq_true, if_false]
          exact ih next
        · rcases hk : getKey t.ChainID (HexToAddress t.Address) with _ | key
          · simp only [appendPrevious, hs, hx, List.map_cons, addCandidates, hset, hk,
              Bool.not_true, Bool.false_eq_true, if_false]
          · simp only [appendPrevious, hs, hx, List.map_cons, addCandidates, hset, hk,
              Bool.not_true, Bool.false_eq_true, if_false]
            exact ih _
    · simp only [appendPrevious, hs, List.map_cons, addCandidates, Bool.not_false, if_true]
      exact ih next

theorem addCandidates_lookup (h : Helpers) (l : List TokenListToken) :
    ∀ (next m : TokenMap), addCandidates h l next = some m → ∀ k,
      (m.lookup k = next.lookup k ∧ ∀ u ∈ l, ∀ n, ¬ Writes h u k n) ∨
      (∃ u ∈ l, ∃ n, Writes h u k n ∧ m.lookup k = some n) := by
  induction l with
  | nil =>
    intro next m hm k
    simp only [addCandidates, Option.some.injEq] at hm
    rw [← hm]
    exact Or.inl ⟨rfl, fun u hu => by cases hu⟩
  | cons t l ih =>
    intro next m hm k
    have skip : addCandidates h l next = some m → (∀ n, ¬ Writes h t k n) →
        (m.lookup k = next.lookup k ∧ ∀ u ∈ t :: l, ∀ n, ¬ Writes h u k n) ∨
        (∃ u ∈ t :: l, ∃ n, Writes h u k n ∧ m.lookup k = some n) := by
      intro hm2 hno
      rcases ih next m hm2 k with ⟨h1, h2⟩ | ⟨u, hu, n, h1, h2⟩
      · left
        refine ⟨h1, ?_⟩
        intro u hu
        rcases List.mem_cons.mp hu with hu | hu
        · rw [hu]; exact hno
        · exact h2 u hu
      · exact Or.inr ⟨u, List.mem_cons_of_mem _ hu, n, h1, h2⟩
    by_cases hs : h.IsChainIDSupported t.ChainID = true
    · rcases hset : SetToken h (HexToAddress t.Address) t.Name t.Symbol t.LogoURI t.ChainID
          t.Decimals with e | newToken
      · simp only [addCandidates, hs, hset, Bool.not_true, Bool.false_eq_true, if_false] at hm
        refine skip hm ?_
        intro n hw
        rw [hw.1] at hset
        cases hset
      · rcases hk : getKey t.ChainID (HexToAddress t.Address) with _ | key
        · simp [addCandidates, hs, hset, hk] at hm
        · simp only [addCandidates, hs, hset, hk, Bool.not_true, Bool.false_eq_true,
            if_false] at hm
          rcases ih (next.store key newToken) m hm k with ⟨h1, h2⟩ | ⟨u, hu, n, h1, h2⟩
          · rw [TokenMap.lookup_store] at h1
            by_cases hkk : k = key
            · rw [if_pos hkk] at h1
              right
              refine ⟨t, List.mem_cons_self _ _, newToken, ⟨hset, ?_⟩, h1⟩
              rw [hk, hkk]
            · rw [if_neg hkk] at h1
              left
              refine ⟨h1, ?_⟩
              intro u hu
              rcases List.mem_cons.mp hu with hu | hu
              · rw [hu]
                intro n hw
                rw [hw.2] at hk
                exact hkk (Option.some.inj hk)
              · exact h2 u hu
          · exact Or.inr ⟨u, List.mem_cons_of_mem _ hu, n, h1, h2⟩
    · simp only [addCandidates, hs, Bool.not_false, if_true] at hm
      refine skip hm ?_
      intro n hw
      exact hs (SetToken_ok_fields h _ _ _ _ _ _ _ hw.1).2.2.2.2.2.2.2

theorem Writes.keyed (h : Helpers) (t : TokenListToken) (k : GoString) (n : TokenListToken)
    (hw : Writes h t k n) : getKey n.ChainID (HexToAddress n.Address) = some k :=
  (goodEntry_of_SetToken h t n k hw.1 hw.2).1

theorem diffLoop_previous_sub (it : List (GoString × TokenListToken)) :
    ∀ st st2 : DiffState, diffLoop it st = some st2 →
    ∀ k, st2.previous.lookup k ≠ none →
      st.previous.lookup k ≠ none ∧
      ∀ e ∈ it, getKey e.2.ChainID (HexToAddress e.2.Address) ≠ some k := by
  induction it with
  | nil =>
    intro st st2 hrun k hk
    simp only [diffLoop, Option.some.injEq] at hrun
    rw [← hrun] at hk
    exact ⟨hk, fun e he => by cases he⟩
  | cons p it ih =>
    intro st st2 hrun k hk
    obtain ⟨k0, t⟩ := p
    rcases hg : getKey t.ChainID (HexToAddress t.Address) with _ | key
    · simp [diffLoop, hg] at hrun
    · simp only [diffLoop, hg] at hrun
      obtain ⟨h1, h2⟩ := ih _ st2 hrun k hk
      have h3 : (st.previous.delete key).lookup k ≠ none := by
        cases hl : st.previous.lookup key with
        | none => simpa [hl] using h1
        | some prev =>
          by_cases hne : t ≠ prev
          · simpa [hl, hne] using h1
          · simpa [hl, hne] using h1
      rw [TokenMap.lookup_delete] at h3
      by_cases hkk : k = key
      · rw [if_pos hkk] at h3; exact absurd rfl h3
      · rw [if_neg hkk] at h3
        refine ⟨h3, ?_⟩
        intro e he
        rcases List.mem_cons.mp he with he | he
        · rw [he, hg]
          intro hh
          exact hkk (Option.some.inj hh).symm
        · exact h2 e he

theorem save_version_of_diff (rt : GoRuntime) (h : Helpers) (tokenList : TokenListData)
    (tokens : List TokenListToken) (filePath : GoString) (method : JSONSaveTokensMethods)
    (next : TokenMap) (r : SaveResult)
    (hbuild : buildNextTokensMap rt h tokenList tokens method = some next)
    (hsave : saveTokenListInJsonFile rt h tokenList tokens filePath method = some r) :
    r.tokenList.Version = tokenList.Version ∨
    ∃ st, diffLoop (rt.rangeNext next) ⟨tokenList.PreviousTokensMap, false, false, []⟩
        = some st ∧
      r.tokenList.Version = bumpVersion tokenList.Version (decide (st.previous.len > 0))
        st.shouldBumpMinor st.shouldBumpPatch := by
  by_cases hne : next.len = 0
  · simp only [saveTokenListInJsonFile, hbuild, if_pos hne] at hsave
    cases hsave
    exact Or.inl rfl
  · rcases hrun : diffLoop (rt.rangeNext next) ⟨tokenList.PreviousTokensMap, false, false, []⟩
      with _ | st
    · simp [saveTokenListInJsonFile, hbuild, hne, hrun] at hsave
    · by_cases hb : (!decide (st.previous.len > 0) && !st.shouldBumpMinor
          && !st.shouldBumpPatch) = true
      · simp only [saveTokenListInJsonFile, hbuild, if_neg hne, hrun, if_pos hb] at hsave
        cases hsave
        exact Or.inl rfl
      · rw [save_bump_eq rt h tokenList tokens filePath method next st hbuild hne hrun hb]
          at hsave
        right
        refine ⟨st, rfl, ?_⟩
        rcases hw : rt.WriteFile (rt.basePath ++ str "/lists/" ++ filePath)
            (writtenDataset rt h tokenList next st).1 with _ | e
        · rw [hw] at hsave
          have hr := Option.some.inj hsave
          subst hr
          exact writeShards_version rt h filePath _ _ _
        · rw [hw] at hsave
          have hr := Option.some.inj hsave
          subst hr
          rfl

/-- Counterexample to C23: the previous map holds Ajna, which passes validation, under the
key `stale`. In Append mode without candidates the next map holds Ajna under its `getKey`;
the key `stale` is not a key of the next map and stays in the previous map, so the major
version is bumped. -/
theorem append_stale_key_bumps_major :
    (saveTokenListInJsonFile GoRuntime.listOrder Helpers.sample
        (sampleDataset (TokenMap.empty.store (str "stale") sampleAjna) TokenMap.empty)
        [] (str "sample.json") Append).map
        (fun r => (r.err, r.tokenList.Version, r.tokenList.NextTokensMap.entries.map Prod.fst))
      = some (none, ⟨4, 0, 0⟩, [sampleAjnaKey]) ∧
    PassesValidation Helpers.sample sampleAjna := by
  decide!

/-- C23 as amended: in Append mode, when the previous map is keyed by `getKey` of each
record's own chain ID and address, every previous record that passes validation (supported
non-zero chain, non-empty name and symbol, non-zero decimals, not ignored) has its key in
the next map; the record under the key of a candidate that `SetToken` accepts is the
`SetToken` result of a candidate with that key, not the previous record; and when all
previous records pass validation a call that returns leaves the major version unchanged.
The call returns when the supported chain IDs and those of a caller-populated next map are
below `10 ^ 18`. -/
theorem append_keeps_valid_previous (rt : GoRuntime) (h : Helpers) (tokenList : TokenListData)
    (tokens : List TokenListToken) (filePath : GoString)
    (hprev : tokenList.PreviousTokensMap.Keyed) :
    (∀ next, buildNextTokensMap rt h tokenList tokens Append = some next →
      (∀ e ∈ tokenList.PreviousTokensMap.entries, PassesValidation h e.2 →
        next.contains e.1 = true) ∧
      (∀ t ∈ dedupeTokens tokens [], ∀ k n, Writes h t k n →
        ∃ u ∈ dedupeTokens tokens [], ∃ n2, Writes h u k n2 ∧ next.lookup k = some n2)) ∧
    (∀ r, saveTokenListInJsonFile rt h tokenList tokens filePath Append = some r →
      (∀ e ∈ tokenList.PreviousTokensMap.entries, PassesValidation h e.2) →
      r.tokenList.Version.Major = tokenList.Version.Major) ∧
    ((∀ c, h.IsChainIDSupported c = true → c < 10 ^ 18) →
      (∀ e ∈ tokenList.NextTokensMap.entries, e.2.ChainID < 10 ^ 18) →
      ∃ r, saveTokenListInJsonFile rt h tokenList tokens filePath Append = some r) := by
  have hpermP := rt.rangePrevious_perm tokenList.PreviousTokensMap
  -- the two loops that fill the next map
  have hsplit : ∀ next, buildNextTokensMap rt h tokenList tokens Append = some next →
      ∃ m1, addCandidates h ((rt.rangePrevious tokenList.PreviousTokensMap).map Prod.snd)
          tokenList.NextTokensMap = some m1 ∧
        addCandidates h (dedupeTokens tokens []) m1 = some next := by
    intro next hbuild
    simp only [buildNextTokensMap, if_pos rfl, appendPrevious_eq_addCandidates] at hbuild
    rcases h1 : addCandidates h ((rt.rangePrevious tokenList.PreviousTokensMap).map Prod.snd)
        tokenList.NextTokensMap with _ | m1
    · rw [h1] at hbuild; cases hbuild
    · rw [h1] at hbuild; exact ⟨m1, rfl, hbuild⟩
  -- where the record under the key of a valid previous record comes from
  have origin : ∀ next, buildNextTokensMap rt h tokenList tokens Append = some next →
      ∀ e ∈ tokenList.PreviousTokensMap.entries, PassesValidation h e.2 →
      ∃ u n, Writes h u e.1 n ∧ next.lookup e.1 = some n := by
    intro next hbuild e he hv
    obtain ⟨m1, h1, h2⟩ := hsplit next hbuild
    obtain ⟨n, hn⟩ := SetToken_ok_of_valid h e.2 hv
    have hw : Writes h e.2 e.1 n := ⟨hn, hprev e he⟩
    have hmem : e.2 ∈ (rt.rangePrevious tokenList.PreviousTokensMap).map Prod.snd :=
      List.mem_map_of_mem Prod.snd (hpermP.mem_iff.mpr he)
    rcases addCandidates_lookup h _ _ _ h1 e.1 with ⟨_, hno⟩ | ⟨u, _, n1, hw1, hl1⟩
    · exact absurd hw (hno e.2 hmem n)
    · rcases addCandidates_lookup h _ _ _ h2 e.1 with ⟨hsame, _⟩ | ⟨u2, _, n2, hw2, hl2⟩
      · exact ⟨u, n1, hw1, hsame.trans hl1⟩
      · exact ⟨u2, n2, hw2, hl2⟩
  refine ⟨?_, ?_, save_returns rt h tokenList tokens filePath Append⟩
  · intro next hbuild
    constructor
    · intro e he hv
      obtain ⟨u, n, _, hl⟩ := origin next hbuild e he hv
      simp [TokenMap.contains, hl]
    · intro t ht k n hw
      obtain ⟨m1, _, h2⟩ := hsplit next hbuild
      rcases addCandidates_lookup h _ _ _ h2 k with ⟨_, hno⟩ | ⟨u, hu, n2, hw2, hl2⟩
      · exact absurd hw (hno t ht n)
      · exact ⟨u, hu, n2, hw2, hl2⟩
  · intro r hsave hvalid
    rcases hbuild : buildNextTokensMap rt h tokenList tokens Append with _ | next
    · simp [saveTokenListInJsonFile, hbuild] at hsave
    rcases save_version_of_diff rt h tokenList tokens filePath Append next r hbuild hsave with
      hv | ⟨st, hrun, hv⟩
    · rw [hv]
    · have hlen : decide (st.previous.len > 0) = false := by
        apply decide_eq_false
        intro hpos
        obtain ⟨k, hk⟩ := (TokenMap.len_pos_iff _).mp hpos
        obtain ⟨hk1, hk2⟩ := diffLoop_previous_sub _ _ _ hrun k hk
        simp only at hk1
        rcases hl : tokenList.PreviousTokensMap.lookup k with _ | t
        · exact hk1 hl
        · have he : (k, t) ∈ tokenList.PreviousTokensMap.entries :=
            (TokenMap.mem_iff_lookup _ k t).mpr hl
          obtain ⟨u, n, hw, hn⟩ := origin next hbuild (k, t) he (hvalid (k, t) he)
          have hin : (k, n) ∈ rt.rangeNext next :=
            (rt.rangeNext_perm next).mem_iff.mpr ((TokenMap.mem_iff_lookup _ k n).mpr hn)
          exact hk2 (k, n) hin (Writes.keyed h u k n hw)
      rw [hv, hlen]
      cases st.shouldBumpMinor <;> cases st.shouldBumpPatch <;> rfl

/-- Witness of C23 as amended: Ajna and BTRFLY were persisted, a renamed Ajna is the only
candidate; the save returns and the major version stays 3. -/
theorem append_keeps_valid_previous_witness :
    ∃ r, saveTokenListInJsonFile GoRuntime.listOrder Helpers.sample
        (sampleDataset ((TokenMap.empty.store sampleAjnaKey sampleAjna).store sampleBtrflyKey
          sampleBtrfly) TokenMap.empty)
        [sampleAjnaRenamed] (str "sample.json") Append = some r ∧
      r.tokenList.Version.Major = 3 := by
  have hthm := append_keeps_valid_previous GoRuntime.listOrder Helpers.sample
    (sampleDataset ((TokenMap.empty.store sampleAjnaKey sampleAjna).store sampleBtrflyKey
      sampleBtrfly) TokenMap.empty)
    [sampleAjnaRenamed] (str "sample.json") (by decide!)
  obtain ⟨r, hr⟩ := hthm.2.2
    (by
      intro c hc
      have : c = 1 ∨ c = 10 ∨ c = 137 := by simpa [Helpers.sample, or_assoc] using hc
      rcases this with rfl | rfl | rfl <;> norm_num)
    (by intro e he; cases he)
  exact ⟨r, hr, hthm.2.1 r hr (by decide!)⟩

theorem dedupeByPair_id (l : List TokenListToken) : ∀ seen : List (GoString × Nat),
    (∀ t ∈ l, (t.Address, t.ChainID) ∉ seen) →
    l.Pairwise (fun a b => ¬ (a.Address = b.Address ∧ a.ChainID = b.ChainID)) →
    dedupeByPair l seen = l := by
  induction l with
  | nil => intro seen _ _; rfl
  | cons t l ih =>
    intro seen hseen hpw
    rw [List.pairwise_cons] at hpw
    have hin : (t.Address, t.ChainID) ∉ seen := hseen t (List.mem_cons_self _ _)
    simp only [dedupeByPair, if_neg hin]
    congr 1
    refine ih _ ?_ hpw.2
    intro u hu hmem
    rcases List.mem_cons.mp hmem with hmem | hmem
    · have := Prod.mk.inj hmem
      exact hpw.1 u hu ⟨this.1.symm, this.2.symm⟩
    · exact hseen u (List.mem_cons_of_mem _ hu) hmem

theorem addCandidates_getKey (h : Helpers) (l : List TokenListToken) :
    ∀ (next m : TokenMap), addCandidates h l next = some m →
    ∀ t ∈ l, ∀ n,
      SetToken h (HexToAddress t.Address) t.Name t.Symbol t.LogoURI t.ChainID t.Decimals = .ok n →
      ∃ k, getKey t.ChainID (HexToAddress t.Address) = some k := by
  induction l with
  | nil => intro next m _ t ht; cases ht
  | cons u l ih =>
    intro next m hm t ht n hn
    by_cases hs : h.IsChainIDSupported u.ChainID = true
    · rcases hset : SetToken h (HexToAddress u.Address) u.Name u.Symbol u.LogoURI u.ChainID
          u.Decimals with e | newToken
      · simp only [addCandidates, hs, hset, Bool.not_true, Bool.false_eq_true, if_false] at hm
        rcases List.mem_cons.mp ht with ht | ht
        · rw [ht, hset] at hn; cases hn
        · exact ih next m hm t ht n hn
      · rcases hk : getKey u.ChainID (HexToAddress u.Address) with _ | key
        · simp [addCandidates, hs, hset, hk] at hm
        · simp only [addCandidates, hs, hset, hk, Bool.not_true, Bool.false_eq_true,
            if_false] at hm
          rcases List.mem_cons.mp ht with ht | ht
          · rw [ht]; exact ⟨key, hk⟩
          · exact ih _ m hm t ht n hn
    · simp only [addCandidates, hs, Bool.not_false, if_true] at hm
      rcases List.mem_cons.mp ht with ht | ht
      · rw [ht] at hn
        exact absurd (SetToken_ok_fields h _ _ _ _ _ _ _ hn).2.2.2.2.2.2.2 hs
      · exact ih next m hm t ht n hn

theorem SetToken_ok_name (h : Helpers) (address : Address) (name symbol logoURI : GoString)
    (chainID : Nat) (decimals : Int) (t : TokenListToken)
    (hok : SetToken h address name symbol logoURI chainID decimals = .ok t)
    (hnot : ¬ (address.Hex = bridgedUSDC.Hex ∧ chainID = 137)) :
    t.Name = name ∧ t.Symbol = symbol := by
  unfold SetToken at hok
  split at hok
  · cases hok
  split at hok
  · cases hok
  split at hok
  · cases hok
  split at hok
  · cases hok
  split at hok
  · cases hok
  have hb : ¬ (address.Hex
      = (HexToAddress (str "0x2791bca1f2de4661ed88a30c99a7a9449aa84174")).Hex
        ∧ chainID = 137) := hnot
  simp only [hb, decide_False, Bool.false_eq_true, if_false, Except.ok.injEq] at hok
  rw [← hok]
  exact ⟨rfl, rfl⟩

theorem writeShards_next (rt : GoRuntime) (h : Helpers) (filePath : GoString)
    (shards : ShardMap) : ∀ (tokenList : TokenListData) (files : List (GoString × TokenListData)),
    (writeShards rt h filePath shards tokenList files).tokenList.NextTokensMap
      = tokenList.NextTokensMap := by
  induction shards with
  | nil => intro tokenList files; rfl
  | cons e shards ih =>
    intro tokenList files
    obtain ⟨chainID, tokens⟩ := e
    simp only [writeShards]
    split
    · exact ih _ _
    · split
      · rfl
      · split
        · rfl
        · rw [ih]

theorem save_result_next (rt : GoRuntime) (h : Helpers) (tokenList : TokenListData)
    (tokens : List TokenListToken) (filePath : GoString) (method : JSONSaveTokensMethods)
    (next : TokenMap) (r : SaveResult)
    (hbuild : buildNextTokensMap rt h tokenList tokens method = some next)
    (hsave : saveTokenListInJsonFile rt h tokenList tokens filePath method = some r) :
    r.tokenList.NextTokensMap = next := by
  by_cases hne : next.len = 0
  · simp only [saveTokenListInJsonFile, hbuild, if_pos hne] at hsave
    cases hsave
    rfl
  · rcases hrun : diffLoop (rt.rangeNext next) ⟨tokenList.PreviousTokensMap, false, false, []⟩
      with _ | st
    · simp [saveTokenListInJsonFile, hbuild, hne, hrun] at hsave
    · by_cases hb : (!decide (st.previous.len > 0) && !st.shouldBumpMinor
          && !st.shouldBumpPatch) = true
      · simp only [saveTokenListInJsonFile, hbuild, if_neg hne, hrun, if_pos hb] at hsave
        cases hsave
        rfl
      · rw [save_bump_eq rt h tokenList tokens filePath method next st hbuild hne hrun hb]
          at hsave
        rcases hw : rt.WriteFile (rt.basePath ++ str "/lists/" ++ filePath)
            (writtenDataset rt h tokenList next st).1 with _ | e
        · rw [hw] at hsave
          have hr := Option.some.inj hsave
          subst hr
          exact writeShards_next rt h filePath _ _ _
        · rw [hw] at hsave
          have hr := Option.some.inj hsave
          subst hr
          rfl

theorem loadPrevious_lookup (h : Helpers) (l : List TokenListToken) :
    ∀ (m0 m : TokenMap), loadPrevious h l m0 = some m → ∀ k t, m.lookup k = some t →
      m0.lookup k = some t ∨
      (t ∈ l ∧ h.IsChainIDSupported t.ChainID = true ∧
        getKey t.ChainID (HexToAddress t.Address) = some k) := by
  induction l with
  | nil =>
    intro m0 m hm k t hl
    simp only [loadPrevious, Option.some.injEq] at hm
    rw [← hm] at hl
    exact Or.inl hl
  | cons u l ih =>
    intro m0 m hm k t hl
    by_cases hs : h.IsChainIDSupported u.ChainID = true
    · rcases hk : getKey u.ChainID (HexToAddress u.Address) with _ | key
      · simp [loadPrevious, hs, hk] at hm
      · simp only [loadPrevious, hs, hk, Bool.not_true, Bool.false_eq_true, if_false] at hm
        rcases ih _ m hm k t hl with h1 | ⟨h1, h2, h3⟩
        · rw [TokenMap.lookup_store] at h1
          by_cases hkk : k = key
          · rw [if_pos hkk] at h1
            have := Option.some.inj h1
            right
            rw [← this, hkk]
            exact ⟨List.mem_cons_self _ _, hs, hk⟩
          · rw [if_neg hkk] at h1
            exact Or.inl h1
        · exact Or.inr ⟨List.mem_cons_of_mem _ h1, h2, h3⟩
    · simp only [loadPrevious, hs, Bool.not_false, if_true] at hm
      rcases ih _ m hm k t hl with h1 | ⟨h1, h2, h3⟩
      · exact Or.inl h1
      · exact Or.inr ⟨List.mem_cons_of_mem _ h1, h2, h3⟩

theorem loadPrevious_returns (h : Helpers)
    (hsup : ∀ c, h.IsChainIDSupported c = true → c < 10 ^ 18) (l : List TokenListToken) :
    ∀ m0 : TokenMap, ∃ m, loadPrevious h l m0 = some m := by
  induction l with
  | nil => intro m0; exact ⟨m0, rfl⟩
  | cons u l ih =>
    intro m0
    by_cases hs : h.IsChainIDSupported u.ChainID = true
    · have hk := getKey_eq u.ChainID (HexToAddress u.Address) (hsup _ hs)
      simp only [loadPrevious, hs, hk, Bool.not_true, Bool.false_eq_true, if_false]
      exact ih _
    · simp only [loadPrevious, hs, Bool.not_false, if_true]
      exact ih _

theorem addUpstream_returns (h : Helpers) (IsIgnoredChain : Nat → Bool)
    (l : List TokenListToken) (hl : ∀ t ∈ l, t.ChainID < 10 ^ 18) :
    ∀ next : TokenMap, (∀ e ∈ next.entries, e.2.ChainID < 10 ^ 18) →
    ∃ m, addUpstream h IsIgnoredChain l next = some m ∧
      ∀ e ∈ m.entries, e.2.ChainID < 10 ^ 18 := by
  induction l with
  | nil => intro next hn; exact ⟨next, rfl, hn⟩
  | cons u l ih =>
    intro next hn
    have ih2 := ih (fun t ht => hl t (List.mem_cons_of_mem _ ht))
    by_cases hi : IsIgnoredChain u.ChainID = true
    · simp only [addUpstream, hi, if_true]
      exact ih2 next hn
    · by_cases hx : (u.Name = [] ∨ u.Symbol = [] ∨ u.Decimals = 0)
          ∨ h.IsIgnoredToken u.ChainID (HexToAddress u.Address) = true
      · simp only [addUpstream, hi, hx, if_true, Bool.false_eq_true, if_false]
        exact ih2 next hn
      · have hc := hl u (List.mem_cons_self _ _)
        have hk := getKey_eq u.ChainID (HexToAddress u.Address) hc
        simp only [addUpstream, hi, hx, hk, Bool.false_eq_true, if_false]
        refine ih2 _ ?_
        intro e he
        rcases TokenMap.mem_store _ _ _ _ he with rfl | he
        · exact hc
        · exact hn e he

/-- Counterexample to C26: the file holds the bridged USDC of chain 137 under its upstream
name and symbol, as a first run wrote it from the upstream list; upstream has dropped the
token. The persisted record passes `SetToken`, which renames it: the next map holds the
name `Bridged USD Coin (PoS)` and the symbol `USDC.e`, the patch version is bumped and the
file is written again with the changed fields. -/
theorem uniswap_renames_persisted_usdc :
    (buildUniswapTokenList GoRuntime.listOrder Helpers.sample (fun _ => false)
        (sampleFile []) (some (sampleFile [sampleUsdcPos])) (sampleFile [])).map
        (fun r => (r.err, r.tokenList.Version)) = some (none, ⟨3, 4, 6⟩) ∧
    (buildUniswapTokenList GoRuntime.listOrder Helpers.sample (fun _ => false)
        (sampleFile []) (some (sampleFile [sampleUsdcPos])) (sampleFile [])).map
        (fun r => r.files.map
          (fun f => f.2.Tokens.map (fun t => (t.Name, t.Symbol, t.Decimals))))
      = some [[(str "Bridged USD Coin (PoS)", str "USDC.e", 6)],
          [(str "Bridged USD Coin (PoS)", str "USDC.e", 6)]] ∧
    sampleUsdcPos.Name = str "USD Coin (PoS)" ∧ sampleUsdcPos.Symbol = str "USDC" ∧
    PassesValidation Helpers.sample sampleUsdcPos := by
  decide!

/-- C26 as amended: let the persisted records have address strings of one length and
pairwise distinct (chain ID, normalized address). When `buildUniswapTokenList` returns,
every persisted record that `SetToken` accepts has its key in the next map, and the record
under that key is the `SetToken` result on the persisted fields, whatever upstream holds
under the key: chain ID and decimals as persisted, the normalized address, and the
persisted name and symbol unless the record is the bridged USDC of chain 137. If moreover
every persisted record of a supported chain passes validation, the major version is
unchanged. The function returns when the supported chain IDs and the upstream chain IDs
are below `10 ^ 18`. -/
theorem uniswap_rebuilds_persisted (rt : GoRuntime) (h : Helpers)
    (IsIgnoredChain : Nat → Bool) (InitTokenList content originalTokenList : TokenListData)
    (hlen : ∀ t ∈ (jsonDataset content).Tokens, ∀ u ∈ (jsonDataset content).Tokens,
      t.Address.length = u.Address.length)
    (hdistinct : (jsonDataset content).Tokens.Pairwise
      (fun t u => (t.ChainID, ToAddress t.Address) ≠ (u.ChainID, ToAddress u.Address))) :
    (∀ r, buildUniswapTokenList rt h IsIgnoredChain InitTokenList (some content)
        originalTokenList = some r →
      (∀ t ∈ (jsonDataset content).Tokens, ∀ n,
        SetToken h (HexToAddress t.Address) t.Name t.Symbol t.LogoURI t.ChainID t.Decimals
          = .ok n →
        ∃ k, getKey t.ChainID (HexToAddress t.Address) = some k ∧
          r.tokenList.NextTokensMap.lookup k = some n ∧
          n.ChainID = t.ChainID ∧ n.Decimals = t.Decimals ∧ n.Address = ToAddress t.Address ∧
          (¬ (ToAddress t.Address = bridgedUSDC.Hex ∧ t.ChainID = 137) →
            n.Name = t.Name ∧ n.Symbol = t.Symbol)) ∧
      ((∀ t ∈ (jsonDataset content).Tokens, h.IsChainIDSupported t.ChainID = true →
          PassesValidation h t) →
        r.tokenList.Version.Major = content.Version.Major)) ∧
    ((∀ c, h.IsChainIDSupported c = true → c < 10 ^ 18) →
      (∀ t ∈ originalTokenList.Tokens, t.ChainID < 10 ^ 18) →
      ∃ r, buildUniswapTokenList rt h IsIgnoredChain InitTokenList (some content)
        originalTokenList = some r) := by
  constructor
  · intro r hrun
    rcases hload : loadPrevious h (jsonDataset content).Tokens TokenMap.empty with _ | previous
    · simp [buildUniswapTokenList, loadTokenListFromJsonFile, hload] at hrun
    rcases hup : addUpstream h IsIgnoredChain originalTokenList.Tokens TokenMap.empty
      with _ | up
    · simp [buildUniswapTokenList, loadTokenListFromJsonFile, hload, hup] at hrun
    simp only [buildUniswapTokenList, loadTokenListFromJsonFile, hload, hup] at hrun
    obtain ⟨D, hDprev, hDver, hDnext, hsave⟩ : ∃ D : TokenListData,
        D.PreviousTokensMap = previous ∧ D.Version = content.Version ∧
        D.NextTokensMap = up ∧
        saveTokenListInJsonFile rt h D (jsonDataset content).Tokens (str "uniswap.json")
          Standard = some r := by
      refine ⟨_, ?_, ?_, ?_, hrun⟩ <;> rfl
    -- nothing is dropped by the de-duplication
    have hpairs : (jsonDataset content).Tokens.Pairwise
        (fun a b => ¬ (a.Address = b.Address ∧ a.ChainID = b.ChainID)) := by
      refine hdistinct.imp ?_
      intro a b hab hcon
      exact hab (by rw [hcon.1, hcon.2])
    have hded : dedupeTokens (jsonDataset content).Tokens [] = (jsonDataset content).Tokens :=
      (dedupeTokens_eq_aux _ [] hlen (fun _ _ p hp => by cases hp)).trans
        (dedupeByPair_id _ [] (fun _ _ hh => by cases hh) hpairs)
    have hstd : ¬ (Standard = Append) := by decide
    have hbuild_eq : buildNextTokensMap rt h D (jsonDataset content).Tokens Standard
        = addCandidates h (jsonDataset content).Tokens up := by
      simp only [buildNextTokensMap, if_neg hstd, hded, hDnext]
    rcases hadd : addCandidates h (jsonDataset content).Tokens up with _ | next
    · rw [hadd] at hbuild_eq
      simp [saveTokenListInJsonFile, hbuild_eq] at hsave
    rw [hadd] at hbuild_eq
    have hnext : r.tokenList.NextTokensMap = next :=
      save_result_next rt h D _ _ _ next r hbuild_eq hsave
    have huniq : ∀ t ∈ (jsonDataset content).Tokens, ∀ u ∈ (jsonDataset content).Tokens,
        (t.ChainID, ToAddress t.Address) = (u.ChainID, ToAddress u.Address) → t = u := by
      intro t ht u hu heq
      by_contra hne
      have hsymm : Symmetric (fun t u : TokenListToken =>
          (t.ChainID, ToAddress t.Address) ≠ (u.ChainID, ToAddress u.Address)) :=
        fun a b hab hba => hab hba.symm
      exact hdistinct.forall hsymm ht hu hne heq
    have hrebuilt : ∀ t ∈ (jsonDataset content).Tokens, ∀ n,
        SetToken h (HexToAddress t.Address) t.Name t.Symbol t.LogoURI t.ChainID t.Decimals
          = .ok n →
        ∃ k, getKey t.ChainID (HexToAddress t.Address) = some k ∧ next.lookup k = some n := by
      intro t ht n hn
      obtain ⟨k, hk⟩ := addCandidates_getKey h _ _ _ hadd t ht n hn
      refine ⟨k, hk, ?_⟩
      rcases addCandidates_lookup h _ _ _ hadd k with ⟨_, hno⟩ | ⟨u, hu, n2, hw2, hl2⟩
      · exact absurd ⟨hn, hk⟩ (hno t ht n)
      · obtain ⟨hc, ha⟩ := getKey_inj _ _ _ _ k hw2.2 hk
        have hut : u = t := huniq u hu t ht (by
          show (u.ChainID, (HexToAddress u.Address).Hex) = (t.ChainID, (HexToAddress t.Address).Hex)
          rw [hc, ha])
        rw [hut] at hw2
        have hsame := hw2.1
        rw [hn] at hsame
        have hnn : n = n2 := by injection hsame
        rw [hnn]
        exact hl2
    constructor
    · intro t ht n hn
      obtain ⟨k, hk, hl⟩ := hrebuilt t ht n hn
      have hf := SetToken_ok_fields h _ _ _ _ _ _ _ hn
      refine ⟨k, hk, by rw [hnext]; exact hl, hf.1, hf.2.2.1, hf.2.1, ?_⟩
      intro hnot
      exact SetToken_ok_name h _ _ _ _ _ _ _ hn hnot
    · intro hall
      rcases save_version_of_diff rt h D _ _ _ next r hbuild_eq hsave with hv | ⟨st, hdiff, hv⟩
      · rw [hv, hDver]
      · have hzero : decide (st.previous.len > 0) = false := by
          apply decide_eq_false
          intro hpos
          obtain ⟨k, hk⟩ := (TokenMap.len_pos_iff _).mp hpos
          obtain ⟨hk1, hk2⟩ := diffLoop_previous_sub _ _ _ hdiff k hk
          simp only at hk1
          rw [hDprev] at hk1
          rcases hl : previous.lookup k with _ | t
          · exact hk1 hl
          · rcases loadPrevious_lookup h _ _ _ hload k t hl with h0 | ⟨ht, hs, hg⟩
            · cases h0
            · obtain ⟨n, hn⟩ := SetToken_ok_of_valid h t (hall t ht hs)
              obtain ⟨k2, hk3, hl2⟩ := hrebuilt t ht n hn
              rw [hg] at hk3
              have hkk : k = k2 := Option.some.inj hk3
              rw [← hkk] at hl2
              have hin : (k, n) ∈ rt.rangeNext next :=
                (rt.rangeNext_perm next).mem_iff.mpr ((TokenMap.mem_iff_lookup _ k n).mpr hl2)
              exact hk2 (k, n) hin (Writes.keyed h t k n ⟨hn, hg⟩)
        rw [hv, hzero, hDver]
        cases st.shouldBumpMinor <;> cases st.shouldBumpPatch <;> rfl
  · intro hsup hbound
    obtain ⟨previous, hload⟩ := loadPrevious_returns h hsup (jsonDataset content).Tokens
      TokenMap.empty
    obtain ⟨up, hup, hupb⟩ := addUpstream_returns h IsIgnoredChain originalTokenList.Tokens
      hbound TokenMap.empty (fun e he => by cases he)
    simp only [buildUniswapTokenList, loadTokenListFromJsonFile, hload, hup]
    exact save_returns rt h _ _ _ _ hsup hupb

/-- Witness of C26 as amended: Ajna and BTRFLY are persisted; upstream has renamed Ajna and
dropped BTRFLY. The build returns, Ajna is in the next map as persisted and the major
version stays 3. -/
theorem uniswap_rebuilds_persisted_witness :
    ∃ r, buildUniswapTokenList GoRuntime.listOrder Helpers.sample (fun _ => false)
        (sampleFile []) (some (sampleFile [sampleAjna, sampleBtrfly]))
        (sampleFile [sampleAjnaRenamed]) = some r ∧
      (∃ k, getKey 1 (HexToAddress sampleAjna.Address) = some k ∧
        r.tokenList.NextTokensMap.lookup k = some sampleAjna) ∧
      r.tokenList.Version.Major = 3 := by
  have hthm := uniswap_rebuilds_persisted GoRuntime.listOrder Helpers.sample (fun _ => false)
    (sampleFile []) (sampleFile [sampleAjna, sampleBtrfly]) (sampleFile [sampleAjnaRenamed])
    (by decide!) (by decide!)
  obtain ⟨r, hr⟩ := hthm.2
    (by
      intro c hc
      have : c = 1 ∨ c = 10 ∨ c = 137 := by simpa [Helpers.sample, or_assoc] using hc
      rcases this with rfl | rfl | rfl <;> norm_num)
    (by decide!)
  obtain ⟨hA, hB⟩ := hthm.1 r hr
  obtain ⟨k, hk, hl, _⟩ := hA sampleAjna (by decide!) sampleAjna (by decide!)
  exact ⟨r, hr, ⟨k, hk, hl⟩, hB (by decide!)⟩

end TokenLists
